import Mathlib

/-!
# direnv: configuration merging, shell export and session state

A shallow embedding of the Go packages `config` and `env` of the repository.

* Go strings are lists of characters (`Str`).  Every library routine used by
  the embedded code discriminates on ASCII characters only.
* A Go `map[string]string` is an association list (`GoMap`).  The order of the
  list is the order in which a `range` loop over the map visits its entries; Go
  leaves that order unspecified, so statements that hold for every map are
  stated for every list.  The keys of a Go map are pairwise distinct
  (`GoMap.WF`).
* The process environment is a `GoMap` from variable names to values, and the
  session file is an optional saved `State` (`World`).
-/

namespace Direnv

/-- Go `string`, as the list of its characters. -/
abbrev Str := List Char

/-- Go `map[string]string`; the list order is the order a `range` loop visits. -/
abbrev GoMap := List (Str × Str)

namespace GoMap

/-- Map lookup `v, ok := m[k]`. -/
def get? : GoMap → Str → Option Str
  | [], _ => none
  | (k', v) :: rest, k => if k' = k then some v else get? rest k

/-- Map assignment `m[k] = v`: replaces the entry of `k`, or adds a new one. -/
def set : GoMap → Str → Str → GoMap
  | [], k, v => [(k, v)]
  | (k', v') :: rest, k, v => if k' = k then (k, v) :: rest else (k', v') :: set rest k v

/-- Removal of every entry of `k`. -/
def delete (m : GoMap) (k : Str) : GoMap :=
  m.filter (fun p => decide (p.1 ≠ k))

/-- The keys of the map, in iteration order. -/
def keys (m : GoMap) : List Str := m.map Prod.fst

/-- The invariant of a Go map: no key occurs twice. -/
def WF (m : GoMap) : Prop := m.keys.Nodup

instance (m : GoMap) : Decidable m.WF := by
  unfold WF; infer_instance

/-- Copy loop `for k, v := range src { dst[k] = v }`. -/
def copyInto (dst src : GoMap) : GoMap :=
  src.foldl (fun acc p => acc.set p.1 p.2) dst

end GoMap

/-! ## Package `config` -/

/-- The Go struct `config.Hooks`. -/
structure Hooks where
  PreApply : Str
  PostApply : Str
  OnLeave : Str
deriving DecidableEq, Repr

/-- The Go struct `config.Config`; a nil map is the empty map. -/
structure Config where
  AutoApply : Bool
  Environment : GoMap
  Aliases : GoMap
  Scripts : GoMap
  Hooks : Hooks
deriving DecidableEq, Repr

/-- All three maps of a configuration satisfy the Go map invariant. -/
def Config.WF (c : Config) : Prop :=
  c.Environment.WF ∧ c.Aliases.WF ∧ c.Scripts.WF

instance (c : Config) : Decidable c.WF := by
  unfold Config.WF; infer_instance

/-- The hook overrides at the end of `MergeConfigs`: each `if override.Hooks.X != ""`
assigns the override's hook to the merged configuration. -/
def mergeHooks (base override : Hooks) : Hooks :=
  let merged := base
  let merged := if override.PreApply ≠ [] then { merged with PreApply := override.PreApply } else merged
  let merged := if override.PostApply ≠ [] then { merged with PostApply := override.PostApply } else merged
  let merged := if override.OnLeave ≠ [] then { merged with OnLeave := override.OnLeave } else merged
  merged

/-- The function `config.MergeConfigs`, on configuration values: fresh maps receive
the base entries, then the override entries; hooks start from the base hooks. -/
def MergeConfigs (base override : Config) : Config :=
  { AutoApply := override.AutoApply || base.AutoApply
    Environment := (GoMap.copyInto [] base.Environment).copyInto override.Environment
    Aliases := (GoMap.copyInto [] base.Aliases).copyInto override.Aliases
    Scripts := (GoMap.copyInto [] base.Scripts).copyInto override.Scripts
    Hooks := mergeHooks base.Hooks override.Hooks }

/-! ## The Go standard library routines the embedded code calls -/

namespace strings

/-- Worker of `ReplaceAll`: scans left to right; the counter is the number of
characters of the current match that are still to be skipped. -/
def replaceFrom (old new : Str) : Nat → Str → Str
  | 0, [] => if old = [] then new else []
  | _ + 1, [] => []
  | skip + 1, _ :: cs => replaceFrom old new skip cs
  | 0, c :: cs =>
    if old.isPrefixOf (c :: cs) then
      if old = [] then new ++ c :: replaceFrom old new 0 cs
      else new ++ replaceFrom old new (old.length - 1) cs
    else c :: replaceFrom old new 0 cs

/-- Go `strings.ReplaceAll(s, old, new)`: every non-overlapping occurrence of `old`,
found left to right, is replaced by `new`. -/
def ReplaceAll (s old new : Str) : Str := replaceFrom old new 0 s

/-- The first occurrence of `sep` in the string: the text before it and the text after it. -/
def cut (sep : Str) : Str → Option (Str × Str)
  | [] => if sep = [] then some ([], []) else none
  | c :: cs =>
    if sep.isPrefixOf (c :: cs) then some ([], (c :: cs).drop sep.length)
    else (cut sep cs).map (fun r => (c :: r.1, r.2))

/-- Go `strings.SplitN(s, sep, n)` for a non-empty separator and `n ≥ 0`: at most `n`
pieces, the last one holding the unsplit remainder. -/
def SplitN (s sep : Str) : Nat → List Str
  | 0 => []
  | 1 => [s]
  | n + 2 =>
    match cut sep s with
    | none => [s]
    | some (a, b) => a :: SplitN b sep (n + 1)

/-- Worker of `Split` for a non-empty separator. -/
def splitFrom (sep : Str) : Nat → Str → List Str
  | _, [] => [[]]
  | skip + 1, _ :: cs => splitFrom sep skip cs
  | 0, c :: cs =>
    if sep.isPrefixOf (c :: cs) then [] :: splitFrom sep (sep.length - 1) cs
    else
      match splitFrom sep 0 cs with
      | [] => [[c]]
      | l :: ls => (c :: l) :: ls

/-- Go `strings.Split(s, sep)`. -/
def Split (s sep : Str) : List Str :=
  if sep = [] then s.map (fun c => [c]) else splitFrom sep 0 s

/-- Go `strings.Join(elems, sep)`. -/
def Join : List Str → Str → Str
  | [], _ => []
  | [a], _ => a
  | a :: b :: rest, sep => a ++ sep ++ Join (b :: rest) sep

end strings

namespace os

/-- Go `os.isShellSpecialVar`. -/
def isShellSpecialVar (c : Char) : Bool :=
  c ∈ ['*', '#', '$', '@', '!', '?', '-', '0', '1', '2', '3', '4', '5', '6', '7', '8', '9']

/-- Go `os.isAlphaNum`. -/
def isAlphaNum (c : Char) : Bool :=
  c = '_' || ('0' ≤ c && c ≤ '9') || ('a' ≤ c && c ≤ 'z') || ('A' ≤ c && c ≤ 'Z')

/-- The scan of `getShellName` for the closing brace, over the text after the opening
brace: the name between the braces and the width consumed, or the bad-syntax results. -/
def scanBrace (rest : Str) : Str × Nat :=
  let body := rest.takeWhile (fun c => decide (c ≠ Char.ofNat 125))
  if body.length < rest.length then
    if body = [] then ([], 2) else (body, body.length + 2)
  else ([], 1)

/-- Go `os.getShellName`: the variable name that starts the string and the number of
characters it occupies.  The callers pass a non-empty string. -/
def getShellName (s : Str) : Str × Nat :=
  match s with
  | [] => ([], 0)
  | c0 :: rest =>
    if c0 = Char.ofNat 123 then
      match rest with
      | c1 :: c2 :: _ =>
        if isShellSpecialVar c1 ∧ c2 = Char.ofNat 125 then ([c1], 3) else scanBrace rest
      | _ => scanBrace rest
    else if isShellSpecialVar c0 then ([c0], 1)
    else
      let name := s.takeWhile isAlphaNum
      (name, name.length)

/-- Worker of `Expand`; the counter is the number of characters of the
reference just expanded that are still to be skipped. -/
def expandFrom (mapping : Str → Str) : Nat → Str → Str
  | _, [] => []
  | skip + 1, _ :: cs => expandFrom mapping skip cs
  | 0, c :: cs =>
    if c = '$' ∧ cs ≠ [] then
      let r := getShellName cs
      let out :=
        if r.1 = [] ∧ 0 < r.2 then []
        else if r.1 = [] then [c]
        else mapping r.1
      out ++ expandFrom mapping r.2 cs
    else c :: expandFrom mapping 0 cs

/-- Go `os.Expand(s, mapping)`: replaces `$var` and the braced form of it by `mapping(var)`. -/
def Expand (s : Str) (mapping : Str → Str) : Str := expandFrom mapping 0 s

/-- Go `os.LookupEnv` on the process environment `E`; the empty name is never found. -/
def LookupEnv (E : GoMap) (key : Str) : Option Str :=
  if key = [] then none else E.get? key

/-- Go `os.Getenv`: the value of the variable, the empty string when it is unset. -/
def Getenv (E : GoMap) (key : Str) : Str := (LookupEnv E key).getD []

/-- Go `os.ExpandEnv`. -/
def ExpandEnv (E : GoMap) (s : Str) : Str := Expand s (Getenv E)

/-- Go `os.Environ`: one string `key=value` per variable. -/
def Environ (E : GoMap) : List Str := E.map (fun p => p.1 ++ '=' :: p.2)

/-- Go `os.Setenv`: fails (`none`) when the key is empty or holds `=` or NUL, or
the value holds NUL; otherwise the variable is set. -/
def Setenv (E : GoMap) (key value : Str) : Option GoMap :=
  if key = [] ∨ '=' ∈ key ∨ Char.ofNat 0 ∈ key ∨ Char.ofNat 0 ∈ value then none
  else some (E.set key value)

/-- Go `os.Unsetenv`; it never fails. -/
def Unsetenv (E : GoMap) (key : Str) : GoMap := E.delete key

end os

/-! ## Package `env`: expansion and shell export -/

/-- The function `env.expandEnvVar`, run in the process environment `E`. -/
def expandEnvVar (E : GoMap) (value baseDir : Str) : Str :=
  let result := value
  let result := strings.ReplaceAll result "$PROJECT_ROOT".toList baseDir
  let result := os.ExpandEnv E result
  result

/-- The function `env.shellQuote`. -/
def shellQuote (s : Str) : Str :=
  "'".toList ++ strings.ReplaceAll s "'".toList "'\"'\"'".toList ++ "'".toList

/-- The function `env.indent`: every non-empty line receives the prefix. -/
def indent (s pre : Str) : Str :=
  let lines := strings.Split s "\n".toList
  let lines := lines.map (fun line => if line ≠ [] then pre ++ line else line)
  strings.Join lines "\n".toList

/-- The hook block of `ExportForShell`: `fmt.Sprintf("(\n    cd %s\n%s\n)", ...)`. -/
def hookBlock (baseDir hook : Str) : Str :=
  "(\n    cd ".toList ++ shellQuote baseDir ++ "\n".toList ++ indent hook "    ".toList ++ "\n)".toList

/-- The assignment `ExportForShell` emits for one environment entry. -/
def exportLine (E : GoMap) (baseDir shellType key value : Str) : Str :=
  let expandedValue := expandEnvVar E value baseDir
  if shellType = "fish".toList then
    "set -gx ".toList ++ key ++ " ".toList ++ shellQuote expandedValue
  else
    "export ".toList ++ key ++ "=".toList ++ shellQuote expandedValue

/-- The alias definition `ExportForShell` emits: `fmt.Sprintf("alias %s=%s", ...)`. -/
def aliasLine (name command : Str) : Str :=
  "alias ".toList ++ name ++ "=".toList ++ shellQuote command

/-- The function definition `funcDef` of `ExportForShell`. -/
def funcDef (baseDir name script : Str) : Str :=
  name ++ "() \x7b\n    local PROJECT_ROOT=".toList ++ shellQuote baseDir ++
    "\n    (\n        cd \"$PROJECT_ROOT\"\n        set -- \"$@\"\n".toList ++
    indent script "        ".toList ++ "\n    )\n\x7d".toList

/-- The slice `exports` that `ExportForShell` builds by successive `append`s. -/
def exportList (E : GoMap) (cfg : Config) (baseDir shellType : Str) : List Str :=
  let exports : List Str := []
  let exports :=
    if cfg.Hooks.PreApply ≠ [] then exports ++ [hookBlock baseDir cfg.Hooks.PreApply] else exports
  let exports :=
    cfg.Environment.foldl (fun acc p => acc ++ [exportLine E baseDir shellType p.1 p.2]) exports
  let exports := cfg.Aliases.foldl (fun acc p => acc ++ [aliasLine p.1 p.2]) exports
  let exports := cfg.Scripts.foldl (fun acc p => acc ++ [funcDef baseDir p.1 p.2]) exports
  let exports :=
    if cfg.Hooks.PostApply ≠ [] then exports ++ [hookBlock baseDir cfg.Hooks.PostApply] else exports
  exports

/-- The function `env.ExportForShell`, run in the process environment `E`. -/
def ExportForShell (E : GoMap) (cfg : Config) (baseDir shellType : Str) : Str :=
  strings.Join (exportList E cfg baseDir shellType) "\n".toList

/-! ## Package `env`: session state -/

/-- The Go struct `env.State`. -/
structure State where
  Environment : GoMap
  Aliases : GoMap
  Directory : Str
  OnLeaveHook : Str
deriving DecidableEq, Repr

/-- The process environment together with the session file: the file is absent
(`none`) or holds a saved state. -/
structure World where
  env : GoMap
  stateFile : Option State
deriving DecidableEq, Repr

/-- The function `env.GetCurrentState`: every `key=value` string of `os.Environ()` that
splits in two at its first `=` is stored in the map. -/
def GetCurrentState (w : World) : State :=
  let state : State := { Environment := [], Aliases := [], Directory := [], OnLeaveHook := [] }
  (os.Environ w.env).foldl
    (fun state env =>
      match strings.SplitN env "=".toList 2 with
      | [k, v] => { state with Environment := state.Environment.set k v }
      | _ => state)
    state

/-- The function `env.SaveState`: the session file now holds the state.  The file is
the JSON text of the state, and reading it gives every string back with its
bytes coerced to valid UTF-8 (`json.coerce`, below); a string of characters is
valid UTF-8 and comes back as it is, so on strings of characters the file holds
the state itself.  The embedding over byte strings, with the coercion, is
`Raw.SaveState`. -/
def SaveState (state : State) (w : World) : World :=
  { w with stateFile := some state }

/-- The function `env.SaveStateWithHook`. -/
def SaveStateWithHook (state : State) (directory onLeaveHook : Str) (w : World) : World :=
  let state := { state with Directory := directory }
  let state := { state with OnLeaveHook := onLeaveHook }
  SaveState state w

/-- The function `env.LoadSavedState`: `none` when the session file does not exist. -/
def LoadSavedState (w : World) : Option State := w.stateFile

/-- The function `env.HasSavedState`. -/
def HasSavedState (w : World) : Bool := w.stateFile.isSome

/-- First loop of `RestoreState`: every key of the current snapshot that the saved
environment lacks is unset. -/
def restoreUnset (saved : GoMap) : List (Str × Str) → GoMap → GoMap
  | [], E => E
  | (key, _) :: rest, E =>
    if (saved.get? key).isNone then restoreUnset saved rest (os.Unsetenv E key)
    else restoreUnset saved rest E

/-- Second loop of `RestoreState`: every saved variable is set; the loop stops at the
first `os.Setenv` that fails and reports the key. -/
def restoreSet : List (Str × Str) → GoMap → GoMap × Option Str
  | [], E => (E, none)
  | (key, value) :: rest, E =>
    match os.Setenv E key value with
    | none => (E, some key)
    | some E' => restoreSet rest E'

/-- The function `env.RestoreState`: the world after the call and the error it
returns (`none` for a nil error, otherwise the key that could not be set). -/
def RestoreState (w : World) : World × Option Str :=
  match LoadSavedState w with
  | none => (w, none)
  | some state =>
    let currentState := GetCurrentState w
    let E := restoreUnset state.Environment currentState.Environment w.env
    match restoreSet state.Environment E with
    | (E, some key) => ({ w with env := E }, some key)
    | (E, none) => ({ env := E, stateFile := none }, none)

/-- A process environment as the operating system keeps it: no name occurs twice,
and every variable is one `os.Setenv` accepts (a non-empty name without `=` or
NUL, a value without NUL). -/
def ValidEnv (E : GoMap) : Prop :=
  E.WF ∧ ∀ p ∈ E, p.1 ≠ [] ∧ '=' ∉ p.1 ∧ Char.ofNat 0 ∉ p.1 ∧ Char.ofNat 0 ∉ p.2

instance (E : GoMap) : Decidable (ValidEnv E) := by
  unfold ValidEnv; infer_instance
/-! ## The JSON text of the session file

`SaveState` writes the state with `json.Marshal` and `LoadSavedState` reads it
back with `json.Unmarshal`.  A Go string is a sequence of bytes.  The encoder
copies every valid UTF-8 sequence (escaped or not) and writes the replacement
character U+FFFD for every byte that is not part of one; the decoder returns
what was written.  So the file gives back a string with its invalid bytes
replaced, `json.coerce`.  A string of Unicode characters, `Str`, has valid UTF-8
for its bytes, and the file gives it back unchanged. -/

namespace utf8

/-- The UTF-8 encoding of one character, Go `utf8.AppendRune`; a byte is a natural
number below 256. -/
def encodeRune (c : Char) : List Nat :=
  let n := c.toNat
  if n < 0x80 then [n]
  else if n < 0x800 then [0xC0 + n / 64, 0x80 + n % 64]
  else if n < 0x10000 then [0xE0 + n / 4096, 0x80 + n / 64 % 64, 0x80 + n % 64]
  else [0xF0 + n / 262144, 0x80 + n / 4096 % 64, 0x80 + n / 64 % 64, 0x80 + n % 64]

/-- The bytes of a string. -/
def encode : Str → List Nat
  | [] => []
  | c :: cs => encodeRune c ++ encode cs

/-- A continuation byte. -/
def isCont (b : Nat) : Bool := decide (0x80 ≤ b ∧ b ≤ 0xBF)

/-- Go `utf8.DecodeRune`, reduced to the width it returns: the number of bytes of the
valid sequence at the head of the bytes, and 0 where Go returns `RuneError` with
width 1 (no valid sequence starts here).  Overlong forms, surrogates and values
above U+10FFFF are invalid. -/
def runeWidth : List Nat → Nat
  | [] => 0
  | b0 :: rest =>
    if b0 < 0x80 then 1
    else if 0xC2 ≤ b0 ∧ b0 ≤ 0xDF then
      match rest with
      | b1 :: _ => if isCont b1 then 2 else 0
      | _ => 0
    else if 0xE0 ≤ b0 ∧ b0 ≤ 0xEF then
      match rest with
      | b1 :: b2 :: _ =>
        let lo := if b0 = 0xE0 then 0xA0 else 0x80
        let hi := if b0 = 0xED then 0x9F else 0xBF
        if lo ≤ b1 ∧ b1 ≤ hi ∧ isCont b2 then 3 else 0
      | _ => 0
    else if 0xF0 ≤ b0 ∧ b0 ≤ 0xF4 then
      match rest with
      | b1 :: b2 :: b3 :: _ =>
        let lo := if b0 = 0xF0 then 0x90 else 0x80
        let hi := if b0 = 0xF4 then 0x8F else 0xBF
        if lo ≤ b1 ∧ b1 ≤ hi ∧ isCont b2 ∧ isCont b3 then 4 else 0
      | _ => 0
    else 0

end utf8

namespace json

/-- Worker of `coerce`; the counter is the number of bytes of the valid sequence in
progress that are still to be copied. -/
def coerceFrom : Nat → List Nat → List Nat
  | _, [] => []
  | skip + 1, b :: bs => b :: coerceFrom skip bs
  | 0, b :: bs =>
    match utf8.runeWidth (b :: bs) with
    | 0 => [0xEF, 0xBF, 0xBD] ++ coerceFrom 0 bs
    | n + 1 => b :: coerceFrom n bs

/-- The bytes `json.Unmarshal` reads back for a string that `json.Marshal` wrote:
every byte outside a valid UTF-8 sequence has become the three bytes of U+FFFD. -/
def coerce (bytes : List Nat) : List Nat := coerceFrom 0 bytes

end json

/-! ## The session state over byte strings

The functions of `state.go` once more, over Go strings as sequences of bytes and
with the JSON text of the session file made explicit, for the claim that speaks
of every environment: an environment may hold bytes that are not valid UTF-8,
which no string of characters can stand for. -/

namespace Raw

/-- Go `string`, as the sequence of its bytes; a byte is a natural number below 256. -/
abbrev Bytes := List Nat

/-- Go `map[string]string` over byte strings; the list order is the order a `range`
loop visits. -/
abbrev Map := List (Bytes × Bytes)

namespace Map

/-- Map lookup `v, ok := m[k]`. -/
def get? : Map → Bytes → Option Bytes
  | [], _ => none
  | (k', v) :: rest, k => if k' = k then some v else get? rest k

/-- Map assignment `m[k] = v`: replaces the entry of `k`, or adds a new one. -/
def set : Map → Bytes → Bytes → Map
  | [], k, v => [(k, v)]
  | (k', v') :: rest, k, v => if k' = k then (k, v) :: rest else (k', v') :: set rest k v

/-- Removal of every entry of `k`. -/
def delete (m : Map) (k : Bytes) : Map :=
  m.filter (fun p => decide (p.1 ≠ k))

/-- The keys of the map, in iteration order. -/
def keys (m : Map) : List Bytes := m.map Prod.fst

/-- The invariant of a Go map: no key occurs twice. -/
def WF (m : Map) : Prop := m.keys.Nodup

instance (m : Map) : Decidable m.WF := by
  unfold WF; infer_instance

/-- Assignment of the entries of a list, one after the other, to a map. -/
def setAll (dst : Map) (src : List (Bytes × Bytes)) : Map :=
  src.foldl (fun acc p => acc.set p.1 p.2) dst

end Map

/-- Go `os.Environ`: one string `key=value` per variable; the byte 61 is `=`. -/
def Environ (E : Map) : List Bytes := E.map (fun p => p.1 ++ 61 :: p.2)

/-- Go `os.Setenv`: fails (`none`) when the key is empty or holds `=` or NUL, or the
value holds NUL; otherwise the variable is set. -/
def Setenv (E : Map) (key value : Bytes) : Option Map :=
  if key = [] ∨ 61 ∈ key ∨ 0 ∈ key ∨ 0 ∈ value then none
  else some (E.set key value)

/-- Go `os.Unsetenv`; it never fails. -/
def Unsetenv (E : Map) (key : Bytes) : Map := E.delete key

/-- The parts of a string before and after its first `=`, if it has one. -/
def cutEq : Bytes → Option (Bytes × Bytes)
  | [] => none
  | b :: bs => if b = 61 then some ([], bs) else (cutEq bs).map (fun p => (b :: p.1, p.2))

/-- Go `strings.SplitN(env, "=", 2)`. -/
def splitEq (env : Bytes) : List Bytes :=
  match cutEq env with
  | some (k, v) => [k, v]
  | none => [env]

/-- The Go struct `env.State`. -/
structure State where
  Environment : Map
  Aliases : Map
  Directory : Bytes
  OnLeaveHook : Bytes
deriving DecidableEq, Repr

/-- The process environment together with the session file: the file is absent
(`none`) or holds the JSON text of a state, given as the state `json.Unmarshal`
reads from it. -/
structure World where
  env : Map
  stateFile : Option State
deriving DecidableEq, Repr

/-- The function `env.GetCurrentState`. -/
def GetCurrentState (w : World) : State :=
  let state : State := { Environment := [], Aliases := [], Directory := [], OnLeaveHook := [] }
  (Environ w.env).foldl
    (fun state env =>
      match splitEq env with
      | [k, v] => { state with Environment := state.Environment.set k v }
      | _ => state)
    state

/-- The order of byte strings, Go `<` on strings. -/
def bytesLess : Bytes → Bytes → Bool
  | _, [] => false
  | [], _ :: _ => true
  | a :: as, b :: bs => decide (a < b) || (decide (a = b) && bytesLess as bs)

/-- Insertion of an entry into a list that is ascending by key. -/
def insertByKey (p : Bytes × Bytes) : List (Bytes × Bytes) → List (Bytes × Bytes)
  | [] => [p]
  | q :: rest => if bytesLess q.1 p.1 then q :: insertByKey p rest else p :: q :: rest

/-- The entries of a map in ascending order of their keys, the order in which
`json.Marshal` writes them. -/
def sortedByKey (m : Map) : List (Bytes × Bytes) := m.foldr insertByKey []

/-- What `json.Unmarshal` reads back for a map that `json.Marshal` wrote: the
entries are written in ascending order of their keys, every key and value with
its bytes coerced to valid UTF-8, and are assigned to a fresh map one after the
other. -/
def jsonMap (m : Map) : Map :=
  Map.setAll [] ((sortedByKey m).map (fun p => (json.coerce p.1, json.coerce p.2)))

/-- What `json.Unmarshal` reads back for a state that `json.Marshal` wrote. -/
def jsonState (state : State) : State :=
  { Environment := jsonMap state.Environment
    Aliases := jsonMap state.Aliases
    Directory := json.coerce state.Directory
    OnLeaveHook := json.coerce state.OnLeaveHook }

/-- The function `env.SaveState`: the session file now holds the JSON text of the state. -/
def SaveState (state : State) (w : World) : World :=
  { w with stateFile := some (jsonState state) }

/-- The function `env.LoadSavedState`: `none` when the session file does not exist. -/
def LoadSavedState (w : World) : Option State := w.stateFile

/-- The function `env.HasSavedState`. -/
def HasSavedState (w : World) : Bool := w.stateFile.isSome

/-- First loop of `RestoreState`: every key of the current snapshot that the saved
environment lacks is unset. -/
def restoreUnset (saved : Map) : List (Bytes × Bytes) → Map → Map
  | [], E => E
  | (key, _) :: rest, E =>
    if (saved.get? key).isNone then restoreUnset saved rest (Unsetenv E key)
    else restoreUnset saved rest E

/-- Second loop of `RestoreState`: every saved variable is set; the loop stops at the
first `os.Setenv` that fails and reports the key. -/
def restoreSet : List (Bytes × Bytes) → Map → Map × Option Bytes
  | [], E => (E, none)
  | (key, value) :: rest, E =>
    match Setenv E key value with
    | none => (E, some key)
    | some E' => restoreSet rest E'

/-- The function `env.RestoreState`: the world after the call and the error it
returns (`none` for a nil error, otherwise the key that could not be set). -/
def RestoreState (w : World) : World × Option Bytes :=
  match LoadSavedState w with
  | none => (w, none)
  | some state =>
    let currentState := GetCurrentState w
    let E := restoreUnset state.Environment currentState.Environment w.env
    match restoreSet state.Environment E with
    | (E, some key) => ({ w with env := E }, some key)
    | (E, none) => ({ env := E, stateFile := none }, none)

/-- A process environment as the operating system keeps it, whose variables
`os.Setenv` accepts and whose text is valid UTF-8: no name occurs twice, every
name is non-empty and has no `=`, no name or value has a NUL byte, and the
session file gives every name and value back as it is. -/
def ValidEnv (E : Map) : Prop :=
  E.WF ∧ ∀ p ∈ E, p.1 ≠ [] ∧ 61 ∉ p.1 ∧ 0 ∉ p.1 ∧ 0 ∉ p.2 ∧
    json.coerce p.1 = p.1 ∧ json.coerce p.2 = p.2

instance (E : Map) : Decidable (ValidEnv E) := by
  unfold ValidEnv; infer_instance

end Raw


/-! ## Package `env`: the diff report -/

/-- Go `s < t` on strings: lexicographic order, character by character. -/
def strLess : Str → Str → Bool
  | [], [] => false
  | [], _ :: _ => true
  | _ :: _, [] => false
  | a :: as, b :: bs => if a < b then true else if b < a then false else strLess as bs

namespace sort

/-- Insertion of one element into a slice ordered by `less`. -/
def insertSorted {α : Type} (less : α → α → Bool) (x : α) : List α → List α
  | [] => [x]
  | y :: ys => if less x y then x :: y :: ys else y :: insertSorted less x ys

/-- Go `sort.Slice(x, less)`: the elements of `x` ordered by `less`.  Go leaves the
relative order of elements that `less` does not separate unspecified; the
embedded code sorts slices whose keys are pairwise distinct, for which the
ordered arrangement is unique. -/
def Slice {α : Type} (x : List α) (less : α → α → Bool) : List α :=
  x.foldr (insertSorted less) []

end sort

namespace unicode

/-- Go `unicode.IsSpace`: the characters with the Unicode White_Space property. -/
def IsSpace (c : Char) : Bool :=
  c.toNat ∈ [0x09, 0x0A, 0x0B, 0x0C, 0x0D, 0x20, 0x85, 0xA0, 0x1680, 0x2028, 0x2029, 0x202F,
    0x205F, 0x3000] || (0x2000 ≤ c.toNat && c.toNat ≤ 0x200A)

end unicode

namespace strings

/-- Go `strings.TrimSpace`: the string without its leading and trailing white space. -/
def TrimSpace (s : Str) : Str :=
  ((s.dropWhile unicode.IsSpace).reverse.dropWhile unicode.IsSpace).reverse

end strings

/-- The Go type `env.DiffType` with its four constants. -/
inductive DiffType where
  | Added
  | Modified
  | Removed
  | Unchanged
deriving DecidableEq, Repr

/-- The Go struct `env.EnvDiff`; the field `Kind` is the Go field `Type`. -/
structure EnvDiff where
  Key : Str
  OldValue : Str
  NewValue : Str
  Kind : DiffType
deriving DecidableEq, Repr

/-- The Go struct `env.AliasDiff`; the field `Kind` is the Go field `Type`. -/
structure AliasDiff where
  Name : Str
  OldValue : Str
  NewValue : Str
  Kind : DiffType
deriving DecidableEq, Repr

/-- The Go struct `env.ScriptDiff`; the field `Kind` is the Go field `Type`. -/
structure ScriptDiff where
  Name : Str
  Content : Str
  Kind : DiffType
deriving DecidableEq, Repr

/-- The Go struct `env.ConfigDiff`. -/
structure ConfigDiff where
  Environment : List EnvDiff
  Aliases : List AliasDiff
  Scripts : List ScriptDiff
deriving DecidableEq, Repr

/-- The map `currentEnv` of `GenerateDiff`: every `key=value` string of `os.Environ()`
that splits in two at its first `=`. -/
def currentEnvOf (E : GoMap) : GoMap :=
  (os.Environ E).foldl
    (fun m env =>
      match strings.SplitN env "=".toList 2 with
      | [k, v] => m.set k v
      | _ => m)
    []

/-- The map `targetEnv` of `GenerateDiff`: every configured key with its expanded value. -/
def targetEnvOf (E : GoMap) (cfg : Config) (baseDir : Str) : GoMap :=
  cfg.Environment.foldl
    (fun m p =>
      let expandedValue := expandEnvVar E p.2 baseDir
      m.set p.1 expandedValue)
    []

/-- The assignment `allEnvKeys[key] = true` on a set of keys kept as a list. -/
def addKey (keys : List Str) (key : Str) : List Str :=
  if key ∈ keys then keys else keys ++ [key]

/-- The set `allEnvKeys` of `GenerateDiff`: the keys of `currentEnv`, then those of
`targetEnv`. -/
def allEnvKeysOf (currentEnv targetEnv : GoMap) : List Str :=
  let allEnvKeys : List Str := []
  let allEnvKeys := currentEnv.foldl (fun s p => addKey s p.1) allEnvKeys
  let allEnvKeys := targetEnv.foldl (fun s p => addKey s p.1) allEnvKeys
  allEnvKeys

/-- The classification loop of `GenerateDiff` over the keys in the order `keys`:
a key only in the target is appended as Added, a key in both with different values
as Modified, every other key is skipped. -/
def envDiffLoop (currentEnv targetEnv : GoMap) (keys : List Str) : List EnvDiff :=
  keys.foldl
    (fun diff key =>
      match currentEnv.get? key, targetEnv.get? key with
      | none, some targetVal =>
        diff ++ [{ Key := key, OldValue := [], NewValue := targetVal, Kind := DiffType.Added }]
      | some currentVal, some targetVal =>
        if currentVal ≠ targetVal then
          diff ++ [{ Key := key, OldValue := currentVal, NewValue := targetVal,
                     Kind := DiffType.Modified }]
        else diff
      | _, none => diff)
    []

/-- The classification of one key by the loop of `GenerateDiff`: the entry it
appends, or none. -/
def classifyKey (currentEnv targetEnv : GoMap) (key : Str) : Option EnvDiff :=
  match currentEnv.get? key, targetEnv.get? key with
  | none, some targetVal =>
    some { Key := key, OldValue := [], NewValue := targetVal, Kind := DiffType.Added }
  | some currentVal, some targetVal =>
    if currentVal ≠ targetVal then
      some { Key := key, OldValue := currentVal, NewValue := targetVal,
             Kind := DiffType.Modified }
    else none
  | _, none => none

/-- The function `env.GenerateDiff`, run in the process environment `E`; its error
result is always nil. -/
def GenerateDiff (E : GoMap) (cfg : Config) (baseDir : Str) : ConfigDiff :=
  let currentEnv := currentEnvOf E
  let targetEnv := targetEnvOf E cfg baseDir
  let allEnvKeys := allEnvKeysOf currentEnv targetEnv
  let environment := envDiffLoop currentEnv targetEnv allEnvKeys
  let aliases : List AliasDiff :=
    cfg.Aliases.foldl
      (fun acc p =>
        acc ++ [{ Name := p.1, OldValue := [], NewValue := p.2, Kind := DiffType.Added }])
      []
  let scripts : List ScriptDiff :=
    cfg.Scripts.foldl
      (fun acc p => acc ++ [{ Name := p.1, Content := p.2, Kind := DiffType.Added }])
      []
  { Environment := sort.Slice environment (fun a b => strLess a.Key b.Key)
    Aliases := sort.Slice aliases (fun a b => strLess a.Name b.Name)
    Scripts := sort.Slice scripts (fun a b => strLess a.Name b.Name) }

/-- The line `Format` appends for one environment entry, if any.  The separator of a
Modified entry is written in the source file with the bytes `C3 A2 E2 80 A0 E2 80 99`,
the three characters U+00E2, U+2020, U+2019. -/
def envDiffLine (envDiff : EnvDiff) : List Str :=
  match envDiff.Kind with
  | DiffType.Added => ["  + ".toList ++ envDiff.Key ++ "=".toList ++ envDiff.NewValue]
  | DiffType.Modified =>
    ["  ~ ".toList ++ envDiff.Key ++ "=".toList ++ envDiff.OldValue ++
      " \u00e2\u2020\u2019 ".toList ++ envDiff.NewValue]
  | DiffType.Removed => ["  - ".toList ++ envDiff.Key ++ "=".toList ++ envDiff.OldValue]
  | DiffType.Unchanged => []

/-- The line `Format` appends for one alias entry. -/
def aliasDiffLine (aliasDiff : AliasDiff) : Str :=
  "  + alias ".toList ++ aliasDiff.Name ++ "=".toList ++ aliasDiff.NewValue

/-- The line `Format` appends for one script entry: the name and the trimmed first
line of the body, followed by dots when the body has more lines. -/
def scriptDiffLine (scriptDiff : ScriptDiff) : Str :=
  let lines := strings.Split scriptDiff.Content "\n".toList
  let firstLine := strings.TrimSpace (lines.headD [])
  if lines.length > 1 then
    "  + function ".toList ++ scriptDiff.Name ++ "() \x7b ".toList ++ firstLine ++
      "... \x7d".toList
  else
    "  + function ".toList ++ scriptDiff.Name ++ "() \x7b ".toList ++ firstLine ++
      " \x7d".toList

/-- The slice `output` that `Format` builds by successive `append`s. -/
def formatLines (d : ConfigDiff) : List Str :=
  let output : List Str := []
  let output :=
    if d.Environment.length > 0 then
      let output := output ++ ["Environment variables:".toList]
      let output := d.Environment.foldl (fun out envDiff => out ++ envDiffLine envDiff) output
      output ++ [[]]
    else output
  let output :=
    if d.Aliases.length > 0 then
      let output := output ++ ["Aliases:".toList]
      let output := d.Aliases.foldl (fun out aliasDiff => out ++ [aliasDiffLine aliasDiff]) output
      output ++ [[]]
    else output
  let output :=
    if d.Scripts.length > 0 then
      let output := output ++ ["Scripts (functions):".toList]
      d.Scripts.foldl (fun out scriptDiff => out ++ [scriptDiffLine scriptDiff]) output
    else output
  output

/-- The method `ConfigDiff.Format`. -/
def ConfigDiff.Format (d : ConfigDiff) : Str :=
  let output := formatLines d
  if output.length = 0 then "No changes would be made.\n".toList
  else strings.Join output "\n".toList ++ "\n".toList

/-- Every entry of the map is one `os.Setenv` accepts: a non-empty name without `=`
or NUL and a value without NUL. -/
def Settable (m : GoMap) : Prop :=
  ∀ p ∈ m, p.1 ≠ [] ∧ '=' ∉ p.1 ∧ Char.ofNat 0 ∉ p.1 ∧ Char.ofNat 0 ∉ p.2

instance (m : GoMap) : Decidable (Settable m) := by
  unfold Settable; infer_instance

/-! ## Sequences of save and restore -/

/-- One operation on the session state: `SaveState`, `SaveStateWithHook` (the write
path of apply) or `RestoreState`. -/
inductive SessionOp where
  | save (state : State)
  | saveWithHook (state : State) (directory onLeaveHook : Str)
  | restore
deriving DecidableEq, Repr

namespace SessionOp

/-- The operation is one of the two saves. -/
def isSave : SessionOp → Bool
  | save _ => true
  | saveWithHook _ _ _ => true
  | restore => false

/-- The operation is the restore. -/
def isRestore : SessionOp → Bool
  | restore => true
  | _ => false

/-- The world after the operation, or `none` when the operation returns an error. -/
def step (op : SessionOp) (w : World) : Option World :=
  match op with
  | save state => some (SaveState state w)
  | saveWithHook state directory onLeaveHook =>
    some (SaveStateWithHook state directory onLeaveHook w)
  | restore =>
    match RestoreState w with
    | (w', none) => some w'
    | (_, some _) => none

end SessionOp

/-- The world after a sequence of operations that all succeed; `none` when one fails. -/
def runOps : List SessionOp → World → Option World
  | [], w => some w
  | op :: rest, w =>
    match op.step w with
    | none => none
    | some w' => runOps rest w'

/-- Some save of the sequence has not been followed by a restore: the environment
mutation is still outstanding. -/
def outstanding : List SessionOp → Bool
  | [] => false
  | op :: rest => (op.isSave && !rest.any SessionOp.isRestore) || outstanding rest

/-! ## Package `env`: cleanup of orphaned state files -/

namespace strings

/-- Go `strings.HasPrefix`. -/
def HasPrefix (s pre : Str) : Bool := pre.isPrefixOf s

/-- Go `strings.HasSuffix`. -/
def HasSuffix (s suffix : Str) : Bool := suffix.isSuffixOf s

/-- Go `strings.TrimPrefix`. -/
def TrimPrefix (s pre : Str) : Str :=
  if HasPrefix s pre then s.drop pre.length else s

/-- Go `strings.TrimSuffix`. -/
def TrimSuffix (s suffix : Str) : Str :=
  if HasSuffix s suffix then s.take (s.length - suffix.length) else s

end strings

namespace strconv

/-- The value of a string of decimal digits; `none` for the empty string and for a
string with another character. -/
def parseDigits : Str → Option Nat
  | [] => none
  | cs =>
    cs.foldl
      (fun acc c =>
        match acc with
        | none => none
        | some n => if '0' ≤ c ∧ c ≤ '9' then some (n * 10 + (c.toNat - 48)) else none)
      (some 0)

/-- Go `strconv.Atoi` for a 64-bit `int`: an optional sign and decimal digits, the
value within the range of `int`; `none` stands for an error. -/
def Atoi (s : Str) : Option Int :=
  match s with
  | '-' :: rest =>
    match parseDigits rest with
    | none => none
    | some n => if n ≤ 2 ^ 63 then some (-(n : Int)) else none
  | '+' :: rest =>
    match parseDigits rest with
    | none => none
    | some n => if n < 2 ^ 63 then some (n : Int) else none
  | _ =>
    match parseDigits s with
    | none => none
    | some n => if n < 2 ^ 63 then some (n : Int) else none

end strconv

/-- The outcome of `CleanupOrphanedState`: the names left in the state directory,
the count `cleaned` and the returned error (`none` for nil). -/
structure CleanupResult where
  files : List Str
  cleaned : Nat
  err : Option Str
deriving DecidableEq, Repr

/-- Go `filepath.Glob` for the pattern `state_*.json` over the names of the state
directory: the names that start with `state_` and, after it, end with `.json`. -/
def globStateFiles (files : List Str) : List Str :=
  files.filter (fun f =>
    strings.HasPrefix f "state_".toList && strings.HasSuffix (f.drop 6) ".json".toList)

/-- The outcome of `process.Signal(syscall.Signal(0))` for a process id: the signal
can be sent (the error is nil), the process exists but the caller is not
permitted to signal it (`EPERM`, a process of another user), or there is no such
process (`ESRCH`). -/
inductive SignalResult where
  | sent
  | notPermitted
  | noProcess
deriving DecidableEq, Repr

/-- Whether a process exists, given the outcome of the zero signal: it does unless
the outcome is that there is no such process. -/
def SignalResult.processExists : SignalResult → Bool
  | .sent => true
  | .notPermitted => true
  | .noProcess => false

/-- The function `env.isProcessRunning`; `signal0` gives the outcome of the zero
signal for every process id.  `os.FindProcess` does not fail on Unix; the result
is `err == nil` for the error of `Signal`. -/
def isProcessRunning (signal0 : Int → SignalResult) (pid : Int) : Bool :=
  match signal0 pid with
  | .sent => true
  | .notPermitted => false
  | .noProcess => false

/-- One iteration of the loop of `CleanupOrphanedState` over a matched name; `os.Remove`
deletes the name from the directory. -/
def cleanupStep (signal0 : Int → SignalResult) (acc : List Str × Nat) (stateFile : Str) :
    List Str × Nat :=
  let base := stateFile
  if !strings.HasPrefix base "state_".toList || !strings.HasSuffix base ".json".toList then acc
  else
    let pidStr := strings.TrimPrefix base "state_".toList
    let pidStr := strings.TrimSuffix pidStr ".json".toList
    match strconv.Atoi pidStr with
    | none => acc
    | some pid =>
      if !isProcessRunning signal0 pid then
        (acc.1.filter (fun f => decide (f ≠ stateFile)), acc.2 + 1)
      else acc

/-- The function `env.CleanupOrphanedState` over the names `files` of the state
directory, with the outcomes `signal0` of the zero signal. -/
def CleanupOrphanedState (signal0 : Int → SignalResult) (files : List Str) : CleanupResult :=
  let matched := globStateFiles files
  let r := matched.foldl (cleanupStep signal0) (files, 0)
  { files := r.1, cleaned := r.2, err := none }

/-! ## Package `env`: the active environment -/

namespace filepath

/-- The elements of a cleaned path as the loop of `Rel` visits them: an absolute
path starts with an empty element. -/
def elements (p : Str) : List Str :=
  if p = [] then [] else if p = ['/'] then [[]] else strings.Split p ['/']

/-- The elements of the base and of the target after their common leading elements. -/
def stripCommon : List Str → List Str → List Str × List Str
  | b :: bs, t :: ts => if b = t then stripCommon bs ts else (b :: bs, t :: ts)
  | bs, ts => (bs, ts)

/-- Go `filepath.Rel(basepath, targpath)` on Unix for two cleaned paths (`Clean` leaves
them unchanged): the path that leads from the base to the target, `none` for an
error. -/
def Rel (basepath targpath : Str) : Option Str :=
  let base := basepath
  let targ := targpath
  if targ = base then some ".".toList
  else
    let base := if base = ".".toList then [] else base
    if decide (base.head? = some '/') ≠ decide (targ.head? = some '/') then none
    else
      match stripCommon (elements base) (elements targ) with
      | ([], rt) => some (strings.Join rt "/".toList)
      | (b :: rb, []) => some (strings.Join ((b :: rb).map (fun _ => "..".toList)) "/".toList)
      | (b :: rb, t :: rt) =>
        if b = "..".toList then none
        else
          some (strings.Join ((b :: rb).map (fun _ => "..".toList) ++ t :: rt) "/".toList)

/-- Go `filepath.IsAbs` on Unix. -/
def IsAbs (path : Str) : Bool := strings.HasPrefix path "/".toList

end filepath

/-- The function `env.GetActiveEnvironmentInfo`; `cwd` is the result of `os.Getwd`,
`none` when it fails. -/
def GetActiveEnvironmentInfo (w : World) (cwd : Option Str) : Str × Bool :=
  match LoadSavedState w with
  | none => ([], false)
  | some state =>
    if state.Directory = [] then ([], false)
    else
      match cwd with
      | none => (state.Directory, true)
      | some cwd =>
        match filepath.Rel state.Directory cwd with
        | none => (state.Directory, false)
        | some relPath =>
          if filepath.IsAbs relPath ∨ (relPath.length ≥ 2 ∧ relPath.take 2 = "..".toList) then
            (state.Directory, false)
          else (state.Directory, true)
/-! ## Package `env`: applying a configuration and running scripts -/

/-- The loop of `ApplyConfig` over the entries in iteration order: each value is
expanded in the process environment as the earlier iterations left it, then set;
the loop stops at the first `os.Setenv` that fails and reports the key. -/
def applyLoop (baseDir : Str) : List (Str × Str) → GoMap → GoMap × Option Str
  | [], E => (E, none)
  | (key, value) :: rest, E =>
    let expandedValue := expandEnvVar E value baseDir
    match os.Setenv E key expandedValue with
    | none => (E, some key)
    | some E' => applyLoop baseDir rest E'

/-- The function `env.ApplyConfig`, started in the process environment `E`: the
environment after the call and the error it returns (`none` for nil, otherwise
the key that could not be set). -/
def ApplyConfig (E : GoMap) (cfg : Config) (baseDir : Str) : GoMap × Option Str :=
  applyLoop baseDir cfg.Environment E

/-- The text `fullScript` that `ExecuteScript` builds and passes to the interpreter
after `-c`: `fmt.Sprintf("set -- %s\n%s", strings.Join(quotedArgs, " "), scriptContent)`
when there are arguments, the script itself otherwise. -/
def fullScript (scriptContent : Str) (args : List Str) : Str :=
  let fullScript := scriptContent
  if args.length > 0 then
    let quotedArgs := args.map shellQuote
    "set -- ".toList ++ strings.Join quotedArgs " ".toList ++ "\n".toList ++ scriptContent
  else fullScript

/-- The outcome of `cmd.Run()`: from the interpreter, the script text, the working
directory and the environment of the child process to whether it exits with
status zero.  A launch failure is a failure.  The child is a separate process:
it changes neither the environment of this process nor, in this model, the
session file. -/
abbrev Runner := Str → Str → Str → List Str → Bool

/-- The function `env.ExecuteScript`: the world after the call and the error it
returns.  The cause wrapped into the error text is left out. -/
def ExecuteScript (run : Runner) (w : World) (scriptName scriptContent baseDir : Str)
    (args : List Str) : World × Option Str :=
  let shell := os.Getenv w.env "SHELL".toList
  let shell := if shell = [] then "/bin/sh".toList else shell
  let script := fullScript scriptContent args
  let originalPwd := os.Getenv w.env "PWD".toList
  let cmdEnv := os.Environ w.env ++ ["PROJECT_ROOT=".toList ++ baseDir, "PWD=".toList ++ baseDir]
  if run shell script baseDir cmdEnv then
    if originalPwd ≠ [] then
      ({ w with env := (os.Setenv w.env "PWD".toList originalPwd).getD w.env }, none)
    else (w, none)
  else (w, some ("script '".toList ++ scriptName ++ "' failed".toList))

/-- The function `env.ExecuteOnLeaveHook`. -/
def ExecuteOnLeaveHook (run : Runner) (w : World) : World × Option Str :=
  match LoadSavedState w with
  | none => (w, none)
  | some state =>
    if state.OnLeaveHook ≠ [] ∧ state.Directory ≠ [] then
      match ExecuteScript run w "on_leave".toList state.OnLeaveHook state.Directory [] with
      | (w, some err) => (w, some ("on-leave hook failed: ".toList ++ err))
      | (w, none) => (w, none)
    else (w, none)

/-! ## Package `env`: the session identifier -/

namespace strconv

/-- Go `strconv.Itoa`, the text the verb `%d` prints for an `int`: the decimal
digits, after a minus sign for a negative number. -/
def Itoa (n : Int) : Str :=
  if n < 0 then '-' :: Nat.toDigits 10 n.natAbs else Nat.toDigits 10 n.toNat

end strconv

/-- The function `env.getShellPID`, in the process environment `E`; `ppid` is the
result of `os.Getppid()`. -/
def getShellPID (E : GoMap) (ppid : Int) : Int :=
  let shellPIDStr := os.Getenv E "DIRENV_SHELL_PID".toList
  if shellPIDStr ≠ [] then
    match strconv.Atoi shellPIDStr with
    | some shellPID => shellPID
    | none => ppid
  else ppid

/-! ## Package `cmd`: validation of a configuration -/

namespace strings

/-- Go `strings.Contains`. -/
def Contains (s substr : Str) : Bool := decide (substr <:+: s)

end strings

/-- First loop of `validateConfig`, over the environment entries in iteration order;
the result is the error text, `none` when the loop runs to its end. -/
def validateEnvironment : List (Str × Str) → Option Str
  | [] => none
  | (key, _) :: rest =>
    if key = [] then some "empty environment variable name".toList
    else if strings.Contains key " ".toList then
      some ("environment variable name contains spaces: ".toList ++ key)
    else validateEnvironment rest

/-- Second loop of `validateConfig`, over the aliases. -/
def validateAliases : List (Str × Str) → Option Str
  | [] => none
  | (name, command) :: rest =>
    if name = [] then some "empty alias name".toList
    else if command = [] then some ("empty alias command for: ".toList ++ name)
    else validateAliases rest

/-- Third loop of `validateConfig`, over the scripts. -/
def validateScripts : List (Str × Str) → Option Str
  | [] => none
  | (name, script) :: rest =>
    if name = [] then some "empty script name".toList
    else if script = [] then some ("empty script content for: ".toList ++ name)
    else validateScripts rest

/-- The function `validateConfig` of package `cmd`: the error it returns, `none` for nil. -/
def validateConfig (cfg : Config) : Option Str :=
  match validateEnvironment cfg.Environment with
  | some err => some err
  | none =>
    match validateAliases cfg.Aliases with
    | some err => some err
    | none => validateScripts cfg.Scripts

/-! ## Package `config`: finding the configuration file

Paths are Unix paths in cleaned form, as `os.Getwd` returns them: `filepath.Clean`
leaves them unchanged, so `Join` and `Dir` only add or cut the last element. -/

namespace filepath

/-- The part of a path up to and including its last separator, `path[:i+1]` in `Dir`. -/
def dirPart (path : Str) : Str :=
  (path.reverse.dropWhile (fun c => decide (c ≠ '/'))).reverse

/-- Go `filepath.Dir` on Unix: the cleaned form of the part before the last element,
that is `.` when the path has no separator, the root when that part is the root,
and otherwise that part without its closing separator. -/
def Dir (path : Str) : Str :=
  let dir := dirPart path
  if dir = [] then ".".toList
  else if dir = "/".toList then "/".toList
  else dir.dropLast

/-- Go `filepath.Join(dir, name)` on Unix for a cleaned directory and a plain file
name: an empty directory is ignored, the directory `.` disappears in cleaning,
and the root already ends in a separator. -/
def Join (dir name : Str) : Str :=
  if dir = [] ∨ dir = ".".toList then name
  else if dir.getLast? = some '/' then dir ++ name
  else dir ++ "/".toList ++ name

/-- Go `filepath.Base` on Unix: the last element of the path, closing separators
removed first. -/
def Base (path : Str) : Str :=
  if path = [] then ".".toList
  else
    let path := (path.reverse.dropWhile (fun c => decide (c = '/'))).reverse
    let path := (path.reverse.takeWhile (fun c => decide (c ≠ '/'))).reverse
    if path = [] then "/".toList else path

end filepath

/-- What `LoadConfig` finds at a path that exists: a TOML text that decodes to a
configuration (its nil maps already replaced by empty ones), a text that does
not decode, or something `os.ReadFile` cannot read (a directory, for example). -/
inductive File where
  | toml (cfg : Config)
  | malformed
  | unreadable
deriving DecidableEq, Repr

/-- The file system, as far as the search looks at it: the paths that exist and what
each holds.  The first entry of a path counts. -/
abbrev FileSystem := List (Str × File)

/-- The entry of a path, `none` when the path does not exist. -/
def FileSystem.lookup : FileSystem → Str → Option File
  | [], _ => none
  | (p, f) :: rest, path => if p = path then some f else FileSystem.lookup rest path

namespace os

/-- Go `os.Stat`, reduced to what the callers test: `true` when the error is nil. -/
def Stat (fs : FileSystem) (path : Str) : Bool := (fs.lookup path).isSome

end os

/-- The constant `config.ConfigFileName`. -/
def ConfigFileName : Str := ".direnv.toml".toList

/-- The constant `config.LocalConfigFileName`. -/
def LocalConfigFileName : Str := ".direnv.local.toml".toList

/-- The function `config.LoadConfig`: the configuration, or the error text without
the wrapped cause. -/
def LoadConfig (fs : FileSystem) (path : Str) : Except Str Config :=
  match fs.lookup path with
  | none => .error "failed to read config file".toList
  | some .unreadable => .error "failed to read config file".toList
  | some .malformed => .error "failed to parse TOML".toList
  | some (.toml cfg) => .ok cfg

/-- The branch of `FindConfig` taken in the directory where `os.Stat` finds the
configuration file: the three results `(cfg, configPath, err)` it returns. -/
def loadFound (fs : FileSystem) (dir : Str) : Option Config × Str × Option Str :=
  let configPath := filepath.Join dir ConfigFileName
  match LoadConfig fs configPath with
  | .error err => (none, [], some err)
  | .ok cfg =>
    let localConfigPath := filepath.Join dir LocalConfigFileName
    if os.Stat fs localConfigPath then
      match LoadConfig fs localConfigPath with
      | .error err => (none, [], some ("failed to load local config: ".toList ++ err))
      | .ok localCfg => (some (MergeConfigs cfg localCfg), configPath, none)
    else (some cfg, configPath, none)

/-- The loop of `FindConfig`, with a bound on the number of iterations: `none` when
the bound is reached before the loop returns or breaks. -/
def findLoop (fs : FileSystem) : Nat → Str → Option (Option Config × Str × Option Str)
  | 0, _ => none
  | fuel + 1, dir =>
    let configPath := filepath.Join dir ConfigFileName
    if os.Stat fs configPath then some (loadFound fs dir)
    else
      let parent := filepath.Dir dir
      if parent = dir then some (none, [], none)
      else findLoop fs fuel parent

/-- The function `config.FindConfig`: the loop, run with a bound that it never
reaches. -/
def FindConfig (fs : FileSystem) (startDir : Str) : Option (Option Config × Str × Option Str) :=
  findLoop fs (startDir.length + 2) startDir

namespace shell

/-- The function `shell.Detect`, in the process environment `E`; the result is the
string of the shell type. -/
def Detect (E : GoMap) : Str :=
  let shellEnv := os.Getenv E "SHELL".toList
  if shellEnv = [] then "unknown".toList
  else
    let shellName := filepath.Base shellEnv
    if strings.Contains shellName "bash".toList then "bash".toList
    else if strings.Contains shellName "zsh".toList then "zsh".toList
    else if strings.Contains shellName "fish".toList then "fish".toList
    else "unknown".toList

end shell

/-! ## Package `cmd`: the commands `apply` and `restore` -/

/-- The path `stateFile` that `init` of package `env` computes from the state
directory and the session identifier. -/
def stateFilePath (stateDir : Str) (shellPID : Int) : Str :=
  filepath.Join stateDir ("state_".toList ++ strconv.Itoa shellPID ++ ".json".toList)

/-- What a command leaves behind: the world, the text written to standard output and
to standard error by the command itself, and the error it returns. -/
structure CommandResult where
  world : World
  stdout : Str
  stderr : Str
  err : Option Str
deriving DecidableEq, Repr

/-- The warning both commands print when `ExecuteOnLeaveHook` returns an error. -/
def hookWarning : Option Str → Str
  | none => []
  | some err => "Warning: on-leave hook failed: ".toList ++ err ++ "\n".toList

/-- The function `restoreCommand` of package `cmd`. -/
def restoreCommand (run : Runner) (w : World) : CommandResult :=
  match ExecuteOnLeaveHook run w with
  | (w, hookErr) =>
    let stderr := hookWarning hookErr
    match RestoreState w with
    | (w, some err) =>
      { world := w, stdout := [], stderr := stderr,
        err := some ("failed to restore state: ".toList ++ err) }
    | (w, none) =>
      { world := w, stdout := "Environment restored\n".toList, stderr := stderr, err := none }

/-- The function `applyCommand` of package `cmd`; `cwd` is the result of `os.Getwd`
(`none` when it fails).  The result is `none` only if the search of `FindConfig`
did not end. -/
def applyCommand (run : Runner) (fs : FileSystem) (cwd : Option Str) (w : World) :
    Option CommandResult :=
  match cwd with
  | none =>
    some { world := w, stdout := [], stderr := [],
           err := some "failed to get current directory".toList }
  | some cwd =>
    match FindConfig fs cwd with
    | none => none
    | some (_, _, some err) =>
      some { world := w, stdout := [], stderr := [],
             err := some ("failed to find config: ".toList ++ err) }
    | some (none, _, none) =>
      some { world := w, stdout := [], stderr := [],
             err := some "no .direnv.toml found in current or parent directories".toList }
    | some (some cfg, configPath, none) =>
      let configDir := filepath.Dir configPath
      match ExecuteOnLeaveHook run w with
      | (w, hookErr) =>
        let stderr := hookWarning hookErr
        let state := GetCurrentState w
        let w := SaveStateWithHook state configDir cfg.Hooks.OnLeave w
        let shellType := shell.Detect w.env
        let output := ExportForShell w.env cfg configDir shellType
        some { world := w, stdout := output, stderr := stderr, err := none }


/-! ## `MergeConfigs` over an explicit memory

Go passes `*Config` pointers and maps are references, so whether a call leaves
its arguments alone is a statement about memory.  `Mem.MergeConfigs` is the same
source function with the allocations and the writes made explicit. -/

namespace Mem

/-- A `config.Config` struct in memory: a map-typed field holds the address of a map,
or nil (`none`). -/
structure ConfigCell where
  AutoApply : Bool
  Environment : Option Nat
  Aliases : Option Nat
  Scripts : Option Nat
  Hooks : Hooks
deriving DecidableEq, Repr

/-- The memory: the allocated maps and the allocated `Config` structs; an address
is an index. -/
structure Heap where
  maps : List GoMap
  cfgs : List ConfigCell
deriving DecidableEq, Repr

namespace Heap

/-- The contents of the map a field refers to; reading a nil map yields no entry. -/
def readMap (h : Heap) : Option Nat → GoMap
  | none => []
  | some a => h.maps.getD a []

/-- The struct at an address that has been checked to be allocated. -/
def cfg (h : Heap) (p : Nat) : ConfigCell :=
  h.cfgs.getD p { AutoApply := false, Environment := none, Aliases := none, Scripts := none,
                  Hooks := { PreApply := [], PostApply := [], OnLeave := [] } }

/-- The configuration value a pointer denotes: the struct with its maps dereferenced. -/
def load (h : Heap) (p : Nat) : Option Config :=
  (h.cfgs.get? p).map (fun c =>
    { AutoApply := c.AutoApply
      Environment := h.readMap c.Environment
      Aliases := h.readMap c.Aliases
      Scripts := h.readMap c.Scripts
      Hooks := c.Hooks })

/-- The map assignment `m[k] = v` through the address of `m`. -/
def assign (h : Heap) (a : Nat) (k v : Str) : Heap :=
  { h with maps := h.maps.set a ((h.maps.getD a []).set k v) }

/-- The loop `for k, v := range src { dst[k] = v }` with `dst` given by its address. -/
def copyLoop (h : Heap) (src : GoMap) (dst : Nat) : Heap :=
  src.foldl (fun h p => h.assign dst p.1 p.2) h

/-- A write to the `Hooks` field of the struct at address `p`. -/
def setHooks (h : Heap) (p : Nat) (f : Hooks → Hooks) : Heap :=
  { h with cfgs := h.cfgs.set p { h.cfg p with Hooks := f (h.cfg p).Hooks } }

/-- A map reference is nil or points to an allocated map. -/
def refOk (h : Heap) : Option Nat → Bool
  | none => true
  | some a => decide (a < h.maps.length)

/-- No struct holds a dangling map reference. -/
def WF (h : Heap) : Bool :=
  h.cfgs.all (fun c => h.refOk c.Environment && h.refOk c.Aliases && h.refOk c.Scripts)

end Heap

/-- The function `config.MergeConfigs` on pointers: the memory after the call and the
address of the merged struct; `none` when a pointer is nil or dangling (a panic). -/
def MergeConfigs (h : Heap) (base override : Nat) : Option (Heap × Nat) :=
  if base < h.cfgs.length ∧ override < h.cfgs.length then
    let envMap := h.maps.length
    let aliasMap := h.maps.length + 1
    let scriptMap := h.maps.length + 2
    let merged := h.cfgs.length
    let h : Heap :=
      { maps := h.maps ++ [[], [], []]
        cfgs := h.cfgs ++
          [{ AutoApply := (h.cfg override).AutoApply || (h.cfg base).AutoApply
             Environment := some envMap
             Aliases := some aliasMap
             Scripts := some scriptMap
             Hooks := (h.cfg base).Hooks }] }
    let h := h.copyLoop (h.readMap (h.cfg base).Environment) envMap
    let h := h.copyLoop (h.readMap (h.cfg base).Aliases) aliasMap
    let h := h.copyLoop (h.readMap (h.cfg base).Scripts) scriptMap
    let h := h.copyLoop (h.readMap (h.cfg override).Environment) envMap
    let h := h.copyLoop (h.readMap (h.cfg override).Aliases) aliasMap
    let h := h.copyLoop (h.readMap (h.cfg override).Scripts) scriptMap
    let h :=
      if (h.cfg override).Hooks.PreApply ≠ [] then
        h.setHooks merged (fun k => { k with PreApply := (h.cfg override).Hooks.PreApply })
      else h
    let h :=
      if (h.cfg override).Hooks.PostApply ≠ [] then
        h.setHooks merged (fun k => { k with PostApply := (h.cfg override).Hooks.PostApply })
      else h
    let h :=
      if (h.cfg override).Hooks.OnLeave ≠ [] then
        h.setHooks merged (fun k => { k with OnLeave := (h.cfg override).Hooks.OnLeave })
      else h
    some (h, merged)
  else none

end Mem

/-! ## Reading a text as POSIX shell words

The quoting round trip of `shellQuote` is stated against the quoting rules of the
POSIX shell (Shell Command Language, section 2.2): text between single quotes is
literal; between double quotes every character is literal except the dollar
sign, the backquote and the backslash; a backslash quotes the next character;
unquoted blanks separate words; adjacent quoted and unquoted pieces form one
word.  Texts that would need an expansion or an operator are outside the
fragment and have no reading. -/

namespace Posix

/-- The quoting state of the scanner. -/
inductive Mode where
  | plain
  | single
  | double
  | plainEsc
  | doubleEsc
deriving DecidableEq, Repr

/-- The characters that, unquoted, start an expansion, an operator, a pattern or a comment. -/
def isSpecial (c : Char) : Bool :=
  c ∈ "$\x60|&;<>()*?[#~=%!\x7b\x7d".toList

/-- The word in progress with one more character. -/
def push (cur : Option Str) (c : Char) : Option Str := some (cur.getD [] ++ [c])

/-- The list of finished words with the word in progress, if there is one. -/
def close (done : List Str) : Option Str → List Str
  | none => done
  | some w => done ++ [w]

/-- The scanner: the rest of the text, the quoting state, the word in progress
(`none` between words) and the words finished so far. -/
def scan : Str → Mode → Option Str → List Str → Option (List Str)
  | [], .plain, cur, done => some (close done cur)
  | [], _, _, _ => none
  | c :: cs, .plain, cur, done =>
    if c = ' ' ∨ c = '\t' ∨ c = '\n' then scan cs .plain none (close done cur)
    else if c = Char.ofNat 39 then scan cs .single (some (cur.getD [])) done
    else if c = Char.ofNat 34 then scan cs .double (some (cur.getD [])) done
    else if c = Char.ofNat 92 then scan cs .plainEsc cur done
    else if isSpecial c then none
    else scan cs .plain (push cur c) done
  | c :: cs, .plainEsc, cur, done =>
    if c = '\n' then scan cs .plain cur done else scan cs .plain (push cur c) done
  | c :: cs, .single, cur, done =>
    if c = Char.ofNat 39 then scan cs .plain cur done else scan cs .single (push cur c) done
  | c :: cs, .double, cur, done =>
    if c = Char.ofNat 34 then scan cs .plain cur done
    else if c = Char.ofNat 92 then scan cs .doubleEsc cur done
    else if c = '$' ∨ c = Char.ofNat 96 then none
    else scan cs .double (push cur c) done
  | c :: cs, .doubleEsc, cur, done =>
    if c = '$' ∨ c = Char.ofNat 96 ∨ c = Char.ofNat 34 ∨ c = Char.ofNat 92 then
      scan cs .double (push cur c) done
    else if c = '\n' then scan cs .double cur done
    else scan cs .double (push (push cur (Char.ofNat 92)) c) done

/-- The words a text denotes, when it lies in the fragment. -/
def words (s : Str) : Option (List Str) := scan s .plain none []

end Posix

/-! ## Concrete configurations, taken from the test suite -/

/-- The base configuration of `TestLocalConfigMerging`. -/
def exBase : Config :=
  { AutoApply := false
    Environment := [("CC".toList, "gcc".toList), ("CXX".toList, "g++".toList)]
    Aliases := [("build".toList, "make build".toList), ("test".toList, "make test".toList)]
    Scripts := []
    Hooks := { PreApply := [], PostApply := [], OnLeave := [] } }

/-- The local override of `TestLocalConfigMerging`. -/
def exLocal : Config :=
  { AutoApply := true
    Environment := [("CC".toList, "gcc-11".toList), ("DEBUG".toList, "true".toList)]
    Aliases := [("test".toList, "go test ./...".toList)]
    Scripts := [("setup".toList, "echo local setup".toList)]
    Hooks := { PreApply := [], PostApply := [], OnLeave := [] } }

/-- The base configuration of `TestMergeConfigsWithHooks`. -/
def exHookBase : Config :=
  { AutoApply := false
    Environment := [("BASE".toList, "value".toList)]
    Aliases := []
    Scripts := []
    Hooks := { PreApply := "echo base pre".toList, PostApply := "echo base post".toList,
               OnLeave := [] } }

/-- The override of `TestMergeConfigsWithHooks`. -/
def exHookOverride : Config :=
  { AutoApply := true
    Environment := [("OVERRIDE".toList, "value".toList)]
    Aliases := []
    Scripts := []
    Hooks := { PreApply := "echo override pre".toList, PostApply := [],
               OnLeave := "echo override leave".toList } }

/-- The memory of `TestMergeConfigsWithHooks` before the call: the base struct at
address 0 and the override at address 1, each with one map and two nil maps. -/
def exHookHeap : Mem.Heap :=
  { maps := [exHookBase.Environment, exHookOverride.Environment]
    cfgs :=
      [{ AutoApply := false, Environment := some 0, Aliases := none, Scripts := none,
         Hooks := exHookBase.Hooks },
       { AutoApply := true, Environment := some 1, Aliases := none, Scripts := none,
         Hooks := exHookOverride.Hooks }] }

/-- The snapshot `TestStateOperations` saves: `TEST_VAR` has its original value. -/
def exSaved : State :=
  { Environment := [("HOME".toList, "/home/dev".toList),
                    ("TEST_VAR".toList, "original_value".toList)]
    Aliases := []
    Directory := []
    OnLeaveHook := [] }

/-- The world of `TestStateOperations` just before it calls `RestoreState`:
`TEST_VAR` has been modified and `NEW_VAR` added since the snapshot was saved. -/
def exWorld : World :=
  { env := [("HOME".toList, "/home/dev".toList),
            ("TEST_VAR".toList, "modified_value".toList),
            ("NEW_VAR".toList, "new_value".toList)]
    stateFile := some exSaved }

/-- The world of `TestStateOperations` when it captures the state: nothing saved yet. -/
def exClean : World :=
  { env := [("HOME".toList, "/home/dev".toList),
            ("TEST_VAR".toList, "original_value".toList)]
    stateFile := none }

/-- The configuration of the `plan` scenario of the specification. -/
def exPlan : Config :=
  { AutoApply := false
    Environment := [("CC".toList, "gcc-11".toList)]
    Aliases := [("ll".toList, "ls -la".toList)]
    Scripts := [("build".toList, "echo hi".toList)]
    Hooks := { PreApply := [], PostApply := [], OnLeave := [] } }

/-- The environment table of `TestExportForShell`, iterated `TEST_VAR` first. -/
def exOrderA : Config :=
  { AutoApply := false
    Environment := [("TEST_VAR".toList, "value".toList), ("PATH".toList, "$PATH:/test".toList)]
    Aliases := [("ll".toList, "ls -la".toList)]
    Scripts := [("build".toList, "echo Building...".toList)]
    Hooks := { PreApply := [], PostApply := [], OnLeave := [] } }

/-- The same configuration as `exOrderA`, its environment map iterated `PATH` first. -/
def exOrderB : Config :=
  { AutoApply := false
    Environment := [("PATH".toList, "$PATH:/test".toList), ("TEST_VAR".toList, "value".toList)]
    Aliases := [("ll".toList, "ls -la".toList)]
    Scripts := [("build".toList, "echo Building...".toList)]
    Hooks := { PreApply := [], PostApply := [], OnLeave := [] } }

/-- A configuration whose alias mentions the project root and a variable. -/
def exAlias : Config :=
  { AutoApply := false
    Environment := []
    Aliases := [("ll".toList, "ls -la".toList),
                ("root".toList, "cd $PROJECT_ROOT/$NAME".toList)]
    Scripts := []
    Hooks := { PreApply := [], PostApply := [], OnLeave := [] } }

/-- The configuration of `TestGenerateDiff`. -/
def exDiffCfg : Config :=
  { AutoApply := false
    Environment := [("TEST_EXISTING".toList, "new_value".toList),
                    ("TEST_NEW".toList, "added_value".toList)]
    Aliases := [("test_alias".toList, "echo test".toList)]
    Scripts := [("test_script".toList, "echo script".toList)]
    Hooks := { PreApply := [], PostApply := [], OnLeave := [] } }

/-- The process environment of `TestGenerateDiff`, reduced to the variable it sets. -/
def exDiffEnv : GoMap := [("TEST_EXISTING".toList, "old_value".toList)]

/-- A configuration with two aliases and two scripts, listed in descending order of name. -/
def exTwoAliases : Config :=
  { AutoApply := false
    Environment := []
    Aliases := [("test".toList, "go test ./...".toList), ("build".toList, "make build".toList)]
    Scripts := [("setup".toList, "echo setup".toList), ("clean".toList, "rm -rf out".toList)]
    Hooks := { PreApply := [], PostApply := [], OnLeave := [] } }

/-- The diff of `TestDiffFormat`. -/
def exFormatDiff : ConfigDiff :=
  { Environment :=
      [{ Key := "NEW_VAR".toList, OldValue := [], NewValue := "value".toList,
         Kind := DiffType.Added },
       { Key := "MOD_VAR".toList, OldValue := "old".toList, NewValue := "new".toList,
         Kind := DiffType.Modified }]
    Aliases :=
      [{ Name := "test".toList, OldValue := [], NewValue := "echo test".toList,
         Kind := DiffType.Added }]
    Scripts :=
      [{ Name := "build".toList, Content := "make build".toList, Kind := DiffType.Added }] }

/-- A diff with no environment entry and one alias whose command spans two lines,
the second being the text of the environment header. -/
def exFakeHeader : ConfigDiff :=
  { Environment := []
    Aliases :=
      [{ Name := "note".toList, OldValue := [],
         NewValue := "echo\nEnvironment variables:".toList, Kind := DiffType.Added }]
    Scripts := [] }

/-- No key, name or value that `Format` prints in full holds a newline. -/
def ConfigDiff.SingleLine (d : ConfigDiff) : Prop :=
  (∀ e ∈ d.Environment, '\n' ∉ e.Key ∧ '\n' ∉ e.OldValue ∧ '\n' ∉ e.NewValue) ∧
  (∀ a ∈ d.Aliases, '\n' ∉ a.Name ∧ '\n' ∉ a.NewValue) ∧
  (∀ s ∈ d.Scripts, '\n' ∉ s.Name)

instance (d : ConfigDiff) : Decidable d.SingleLine := by
  unfold ConfigDiff.SingleLine; infer_instance

/-- The saved snapshot of `exExtra`. -/
def exExtraSaved : State :=
  { Environment := [("HOME".toList, "/home/dev".toList), ("CC".toList, "gcc".toList)]
    Aliases := []
    Directory := "/project".toList
    OnLeaveHook := [] }

/-- A world whose environment is the snapshot `exExtraSaved` plus the variable `NEW_VAR`. -/
def exExtra : World :=
  { env := [("HOME".toList, "/home/dev".toList), ("NEW_VAR".toList, "new_value".toList),
            ("CC".toList, "gcc".toList)]
    stateFile := some exExtraSaved }

/-- The sequence of `TestStateOperations` followed by a second restore and a new
apply: save, restore, restore, save with hook. -/
def exOps : List SessionOp :=
  [SessionOp.save exSaved, SessionOp.restore, SessionOp.restore,
   SessionOp.saveWithHook exSaved "/project".toList "echo bye".toList]

/-- The state directory of `TestCleanupOrphanedState`, with further names that are
not session files. -/
def exStateDir : List Str :=
  ["state_99999.json".toList, "state_12345.json".toList, "state_abc.json".toList,
   "state_.json".toList, "notes.txt".toList, "state_7.json.bak".toList, "state_1.json".toList]

/-- The zero signal as a user other than root sees it when two processes exist: the
signal can be sent to the user's own process 12345, it is refused for process 1,
which belongs to root, and every other process id has no process. -/
def exSignal (pid : Int) : SignalResult :=
  if pid = 12345 then SignalResult.sent
  else if pid = 1 then SignalResult.notPermitted
  else SignalResult.noProcess

/-- A world whose saved state was captured for the directory `/project`. -/
def exActive : World :=
  { env := [("HOME".toList, "/home/dev".toList)]
    stateFile := some
      { Environment := [("HOME".toList, "/home/dev".toList)]
        Aliases := []
        Directory := "/project".toList
        OnLeaveHook := [] } }
/-- A configuration whose only environment key holds a tab. -/
def exTabKey : Config :=
  { AutoApply := false
    Environment := [("MY\tVAR".toList, "1".toList)]
    Aliases := []
    Scripts := []
    Hooks := { PreApply := [], PostApply := [], OnLeave := [] } }

/-- A configuration with a space in its second environment key. -/
def exSpaceKey : Config :=
  { AutoApply := false
    Environment := [("CC".toList, "gcc".toList), ("MY VAR".toList, "1".toList)]
    Aliases := []
    Scripts := []
    Hooks := { PreApply := [], PostApply := [], OnLeave := [] } }

/-- A configuration with an empty environment value and nothing else unusual. -/
def exEmptyValue : Config :=
  { AutoApply := false
    Environment := [("CC".toList, "gcc".toList), ("EMPTY".toList, [])]
    Aliases := [("ll".toList, "ls -la".toList)]
    Scripts := [("build".toList, "make".toList)]
    Hooks := { PreApply := [], PostApply := [], OnLeave := [] } }

/-- Script arguments with blanks, quotes and shell metacharacters, and an empty one. -/
def exArgs : List Str :=
  ["hello world".toList, "it's".toList, "$HOME; rm -rf *".toList, [], "a\"b\\c".toList]

/-- The configuration of `TestApplyConfig`, iterated `CC` first. -/
def exApply : Config :=
  { AutoApply := false
    Environment := [("CC".toList, "gcc-11".toList),
                    ("PATH".toList, "$PATH:$PROJECT_ROOT/bin".toList)]
    Aliases := []
    Scripts := []
    Hooks := { PreApply := [], PostApply := [], OnLeave := [] } }

/-- The configuration of `TestApplyConfig`, iterated `PATH` first. -/
def exApplyRev : Config :=
  { exApply with Environment := exApply.Environment.reverse }

/-- A configuration in which the value of `B` refers to the configured variable `A`,
iterated `A` first. -/
def exCross : Config :=
  { AutoApply := false
    Environment := [("A".toList, "1".toList), ("B".toList, "$A".toList)]
    Aliases := []
    Scripts := []
    Hooks := { PreApply := [], PostApply := [], OnLeave := [] } }

/-- The same configuration as `exCross`, iterated `B` first. -/
def exCrossRev : Config :=
  { exCross with Environment := exCross.Environment.reverse }

/-- A file system in the shape of `TestFindConfig` and `TestLocalConfigMerging`: the
project directory has a configuration and a local override, its parent has
both files too, and the search starts two levels below the project. -/
def exTree : FileSystem :=
  [("/work/.direnv.toml".toList, File.toml exHookBase),
   ("/work/.direnv.local.toml".toList, File.toml exHookOverride),
   ("/work/proj/.direnv.toml".toList, File.toml exBase),
   ("/work/proj/.direnv.local.toml".toList, File.toml exLocal),
   ("/work/proj/sub/.direnv.local.toml".toList, File.toml exHookOverride)]

/-- The file system `exTree` without the local override of the project directory
and with other files in the parent. -/
def exTreePlain : FileSystem :=
  [("/work/.direnv.toml".toList, File.malformed),
   ("/work/proj/.direnv.toml".toList, File.toml exBase)]

/-- A world whose saved state carries an on-leave hook for `/project`. -/
def exHooked : World :=
  { env := [("HOME".toList, "/home/dev".toList), ("PWD".toList, "/elsewhere".toList),
            ("SHELL".toList, "/bin/bash".toList), ("CC".toList, "gcc-11".toList)]
    stateFile := some
      { Environment := [("HOME".toList, "/home/dev".toList), ("PWD".toList, "/project".toList),
                        ("SHELL".toList, "/bin/bash".toList)]
        Aliases := []
        Directory := "/project".toList
        OnLeaveHook := "exit 1".toList } }

/-- An interpreter under which every script fails. -/
def exFail : Runner := fun _ _ _ _ => false

/-- An interpreter under which every script succeeds. -/
def exSucceed : Runner := fun _ _ _ _ => true

/-- A process environment in which the shell integration has exported the session
identifier. -/
def exSession : GoMap :=
  [("HOME".toList, "/home/dev".toList), ("DIRENV_SHELL_PID".toList, "12345".toList)]

/-- A configuration with both apply hooks, one entry in every map, a hook of two
lines and a script with an empty line. -/
def exFull : Config :=
  { AutoApply := false
    Environment := [("CC".toList, "gcc-11".toList)]
    Aliases := [("ll".toList, "ls -la".toList)]
    Scripts := [("build".toList, "echo one\n\necho two".toList)]
    Hooks := { PreApply := "echo pre\necho start".toList, PostApply := "echo post".toList,
               OnLeave := "echo bye".toList } }
/-- The bytes of a string of characters. -/
def exBytes (s : String) : Raw.Bytes := utf8.encode s.toList

/-- The environment `TestStateOperations` captures, byte by byte. -/
def exRawClean : Raw.World :=
  { env := [(exBytes "HOME", exBytes "/home/dev"), (exBytes "TEST_VAR", exBytes "original_value"),
            (exBytes "GREETING", exBytes "grüß dich, 世界")]
    stateFile := none }

/-- An environment with a variable of the empty name, as the string `=x` of
`os.Environ` gives it. -/
def exRawEmptyName : Raw.World :=
  { env := [(exBytes "HOME", exBytes "/home/dev"), ([], exBytes "x")]
    stateFile := none }

/-- An environment in which the value of `RAW` is the single byte `FF`, which is not
valid UTF-8. -/
def exRawInvalid : Raw.World :=
  { env := [(exBytes "HOME", exBytes "/home/dev"), (exBytes "RAW", [0xFF])]
    stateFile := none }


/-! ## Lemmas on maps -/

namespace GoMap

theorem get?_cons (p : Str × Str) (m : GoMap) (k : Str) :
    get? (p :: m) k = if p.1 = k then some p.2 else get? m k := by
  cases p; rfl

theorem get?_eq_none_of_not_mem_keys (m : GoMap) (k : Str) (h : k ∉ m.keys) :
    m.get? k = none := by
  induction m with
  | nil => rfl
  | cons p m ih =>
    simp only [keys, List.map_cons, List.mem_cons, not_or] at h
    rw [get?_cons, if_neg (fun e => h.1 e.symm)]
    exact ih h.2

theorem mem_keys_of_get?_eq_some (m : GoMap) (k v : Str) (h : m.get? k = some v) :
    k ∈ m.keys := by
  by_contra hk
  rw [get?_eq_none_of_not_mem_keys m k hk] at h
  cases h

theorem get?_set (m : GoMap) (k v k' : Str) :
    (m.set k v).get? k' = if k = k' then some v else m.get? k' := by
  induction m with
  | nil => simp [set, get?]
  | cons p m ih =>
    obtain ⟨a, b⟩ := p
    by_cases hak : a = k
    · subst hak
      by_cases hk : a = k' <;> simp [set, get?, hk]
    · by_cases hk : k = k'
      · subst hk
        simp [set, get?, hak, ih]
      · simp [set, get?, hak, ih, hk]

theorem get?_copyInto (src : GoMap) (hsrc : src.WF) (dst : GoMap) (k : Str) :
    (copyInto dst src).get? k =
      match src.get? k with
      | some v => some v
      | none => dst.get? k := by
  induction src generalizing dst with
  | nil => rfl
  | cons p src ih =>
    obtain ⟨a, b⟩ := p
    have hnd : a ∉ keys src ∧ WF src := by
      simpa [WF, keys] using hsrc
    have step : copyInto dst ((a, b) :: src) = copyInto (dst.set a b) src := rfl
    rw [step, ih hnd.2, get?_set, get?_cons]
    by_cases hk : a = k
    · subst hk
      simp [get?_eq_none_of_not_mem_keys src a hnd.1]
    · simp [hk]

end GoMap

/-! ## Configuration merging -/

/-- C3. In each of the maps Environment, Aliases and Scripts, the merged
configuration maps a key to the value of the override when the override has the
key, otherwise to the value of the base when the base has it, and has no entry
for the key when neither has. -/
theorem MergeConfigs_lookup (base override : Config) (hb : base.WF) (ho : override.WF)
    (k : Str) :
    ((MergeConfigs base override).Environment.get? k =
        match override.Environment.get? k with
        | some v => some v
        | none => base.Environment.get? k) ∧
    ((MergeConfigs base override).Aliases.get? k =
        match override.Aliases.get? k with
        | some v => some v
        | none => base.Aliases.get? k) ∧
    ((MergeConfigs base override).Scripts.get? k =
        match override.Scripts.get? k with
        | some v => some v
        | none => base.Scripts.get? k) := by
  obtain ⟨hb1, hb2, hb3⟩ := hb
  obtain ⟨ho1, ho2, ho3⟩ := ho
  refine ⟨?_, ?_, ?_⟩
  · show ((GoMap.copyInto [] base.Environment).copyInto override.Environment).get? k = _
    rw [GoMap.get?_copyInto _ ho1, GoMap.get?_copyInto _ hb1]
    cases base.Environment.get? k <;> rfl
  · show ((GoMap.copyInto [] base.Aliases).copyInto override.Aliases).get? k = _
    rw [GoMap.get?_copyInto _ ho2, GoMap.get?_copyInto _ hb2]
    cases base.Aliases.get? k <;> rfl
  · show ((GoMap.copyInto [] base.Scripts).copyInto override.Scripts).get? k = _
    rw [GoMap.get?_copyInto _ ho3, GoMap.get?_copyInto _ hb3]
    cases base.Scripts.get? k <;> rfl

/-- Witness of C3 on the configurations of `TestLocalConfigMerging`: the merged
value of `CC` is the override's `gcc-11`. -/
theorem MergeConfigs_lookup_witness :
    exBase.WF ∧ exLocal.WF ∧
      (MergeConfigs exBase exLocal).Environment.get? "CC".toList = some "gcc-11".toList :=
  ⟨by decide, by decide,
    (MergeConfigs_lookup exBase exLocal (by decide) (by decide) "CC".toList).1.trans (by decide)⟩

/-! ## `MergeConfigs` leaves its arguments alone -/

namespace Mem

theorem set_getD_same (l : List GoMap) (n : Nat) : l.set n (l.getD n []) = l := by
  induction l generalizing n with
  | nil => rfl
  | cons a l ih =>
    cases n with
    | zero => rfl
    | succ n => simpa using ih n

theorem getD_set_same (l : List GoMap) (n : Nat) (x : GoMap) (hn : n < l.length) :
    (l.set n x).getD n [] = x := by
  simp [hn]

theorem copyLoop_eq (src : GoMap) (h : Heap) (dst : Nat) (hd : dst < h.maps.length) :
    h.copyLoop src dst =
      { h with maps := h.maps.set dst (GoMap.copyInto (h.maps.getD dst []) src) } := by
  induction src generalizing h with
  | nil =>
    show h = { h with maps := h.maps.set dst (h.maps.getD dst []) }
    rw [set_getD_same]
  | cons p src ih =>
    have step : h.copyLoop (p :: src) dst = (h.assign dst p.1 p.2).copyLoop src dst := rfl
    have hd' : dst < (h.assign dst p.1 p.2).maps.length := by
      simpa [Heap.assign] using hd
    rw [step, ih _ hd']
    show ({ maps := (h.maps.set dst ((h.maps.getD dst []).set p.1 p.2)).set dst
              (GoMap.copyInto ((h.maps.set dst ((h.maps.getD dst []).set p.1 p.2)).getD dst []) src),
            cfgs := h.cfgs } : Heap) = _
    rw [getD_set_same _ _ _ hd, List.set_set]
    rfl

theorem cfg_append (M M' : List GoMap) (C T : List ConfigCell) (p : Nat) (hp : p < C.length) :
    ({ maps := M, cfgs := C ++ T } : Heap).cfg p = ({ maps := M', cfgs := C } : Heap).cfg p := by
  simp [Heap.cfg, List.getElem?_append_left hp]

theorem readMap_append (L T : List GoMap) (C C' : List ConfigCell) (r : Option Nat)
    (hr : ({ maps := L, cfgs := C } : Heap).refOk r = true) :
    ({ maps := L ++ T, cfgs := C' } : Heap).readMap r = ({ maps := L, cfgs := C } : Heap).readMap r := by
  cases r with
  | none => rfl
  | some a =>
    have ha : a < L.length := by simpa [Heap.refOk] using hr
    simp [Heap.readMap, List.getElem?_append_left ha]

theorem copyLoop_fresh0 (L : List GoMap) (X Y Z : GoMap) (C : List ConfigCell) (src : GoMap) :
    ({ maps := L ++ [X, Y, Z], cfgs := C } : Heap).copyLoop src L.length =
      { maps := L ++ [GoMap.copyInto X src, Y, Z], cfgs := C } := by
  rw [copyLoop_eq _ _ _ (by simp)]
  simp [List.getElem_append_right]

theorem copyLoop_fresh1 (L : List GoMap) (X Y Z : GoMap) (C : List ConfigCell) (src : GoMap) :
    ({ maps := L ++ [X, Y, Z], cfgs := C } : Heap).copyLoop src (L.length + 1) =
      { maps := L ++ [X, GoMap.copyInto Y src, Z], cfgs := C } := by
  rw [copyLoop_eq _ _ _ (by simp)]
  simp [List.getElem_append_right]

theorem copyLoop_fresh2 (L : List GoMap) (X Y Z : GoMap) (C : List ConfigCell) (src : GoMap) :
    ({ maps := L ++ [X, Y, Z], cfgs := C } : Heap).copyLoop src (L.length + 2) =
      { maps := L ++ [X, Y, GoMap.copyInto Z src], cfgs := C } := by
  rw [copyLoop_eq _ _ _ (by simp)]
  simp [List.getElem_append_right]

theorem cfg_alloc (h : Heap) (M : List GoMap) (T : List ConfigCell) (p : Nat)
    (hp : p < h.cfgs.length) :
    ({ maps := M, cfgs := h.cfgs ++ T } : Heap).cfg p = h.cfg p :=
  cfg_append M h.maps h.cfgs T p hp

theorem readMap_alloc (h : Heap) (T : List GoMap) (C : List ConfigCell) (r : Option Nat)
    (hr : h.refOk r = true) :
    ({ maps := h.maps ++ T, cfgs := C } : Heap).readMap r = h.readMap r :=
  readMap_append h.maps T h.cfgs C r hr

theorem refOk_of_WF (h : Heap) (hwf : h.WF = true) (p : Nat) (hp : p < h.cfgs.length) :
    h.refOk (h.cfg p).Environment = true ∧ h.refOk (h.cfg p).Aliases = true ∧
      h.refOk (h.cfg p).Scripts = true := by
  have hmem : h.cfg p ∈ h.cfgs := by
    simp only [Heap.cfg, List.getD_eq_getElem?_getD, List.getElem?_eq_getElem hp, Option.getD_some]
    exact List.getElem_mem hp
  have := (List.all_eq_true.mp hwf) _ hmem
  simpa [Bool.and_eq_true, and_assoc] using this

theorem setHooks_fresh (M : List GoMap) (C : List ConfigCell) (cell : ConfigCell)
    (f : Hooks → Hooks) :
    ({ maps := M, cfgs := C ++ [cell] } : Heap).setHooks C.length f =
      { maps := M, cfgs := C ++ [{ cell with Hooks := f cell.Hooks }] } := by
  simp [Heap.setHooks, Heap.cfg]

/-- The memory `MergeConfigs` returns, in closed form: three new maps and one new
struct behind the old contents. -/
theorem MergeConfigs_eq (h : Heap) (base override : Nat) (hwf : h.WF = true)
    (hb : base < h.cfgs.length) (ho : override < h.cfgs.length) :
    MergeConfigs h base override =
      some ({ maps := h.maps ++
                [(GoMap.copyInto [] (h.readMap (h.cfg base).Environment)).copyInto
                    (h.readMap (h.cfg override).Environment),
                 (GoMap.copyInto [] (h.readMap (h.cfg base).Aliases)).copyInto
                    (h.readMap (h.cfg override).Aliases),
                 (GoMap.copyInto [] (h.readMap (h.cfg base).Scripts)).copyInto
                    (h.readMap (h.cfg override).Scripts)]
              cfgs := h.cfgs ++
                [{ AutoApply := (h.cfg override).AutoApply || (h.cfg base).AutoApply
                   Environment := some h.maps.length
                   Aliases := some (h.maps.length + 1)
                   Scripts := some (h.maps.length + 2)
                   Hooks := mergeHooks (h.cfg base).Hooks (h.cfg override).Hooks }] },
            h.cfgs.length) := by
  obtain ⟨b1, b2, b3⟩ := refOk_of_WF h hwf base hb
  obtain ⟨o1, o2, o3⟩ := refOk_of_WF h hwf override ho
  unfold MergeConfigs
  rw [if_pos ⟨hb, ho⟩]
  simp only [cfg_alloc h _ _ _ hb, cfg_alloc h _ _ _ ho, readMap_alloc h _ _ _ b1,
    readMap_alloc h _ _ _ b2, readMap_alloc h _ _ _ b3, readMap_alloc h _ _ _ o1,
    readMap_alloc h _ _ _ o2, readMap_alloc h _ _ _ o3, copyLoop_fresh0, copyLoop_fresh1,
    copyLoop_fresh2]
  by_cases h1 : (h.cfg override).Hooks.PreApply = [] <;>
  by_cases h2 : (h.cfg override).Hooks.PostApply = [] <;>
  by_cases h3 : (h.cfg override).Hooks.OnLeave = [] <;>
  simp [h1, h2, h3, mergeHooks, setHooks_fresh, cfg_alloc h _ _ _ ho]

end Mem

theorem mergeHooks_fields (b o : Hooks) :
    (mergeHooks b o).PreApply = (if o.PreApply ≠ [] then o.PreApply else b.PreApply) ∧
    (mergeHooks b o).PostApply = (if o.PostApply ≠ [] then o.PostApply else b.PostApply) ∧
    (mergeHooks b o).OnLeave = (if o.OnLeave ≠ [] then o.OnLeave else b.OnLeave) := by
  unfold mergeHooks
  by_cases h1 : o.PreApply = [] <;> by_cases h2 : o.PostApply = [] <;>
    by_cases h3 : o.OnLeave = [] <;> simp [h1, h2, h3]

namespace Mem

theorem load_lt (h : Heap) (p : Nat) (c : Config) (hp : h.load p = some c) :
    p < h.cfgs.length := by
  by_contra hlt
  have hnone : h.cfgs[p]? = none := List.getElem?_eq_none (Nat.le_of_not_lt hlt)
  simp [Heap.load, hnone] at hp

theorem load_eq (h : Heap) (p : Nat) (hp : p < h.cfgs.length) :
    h.load p = some
      { AutoApply := (h.cfg p).AutoApply
        Environment := h.readMap (h.cfg p).Environment
        Aliases := h.readMap (h.cfg p).Aliases
        Scripts := h.readMap (h.cfg p).Scripts
        Hooks := (h.cfg p).Hooks } := by
  simp [Heap.load, Heap.cfg, List.getElem?_eq_getElem hp]

theorem load_alloc (h : Heap) (T : List GoMap) (U : List ConfigCell) (hwf : h.WF = true)
    (p : Nat) (hp : p < h.cfgs.length) :
    ({ maps := h.maps ++ T, cfgs := h.cfgs ++ U } : Heap).load p = h.load p := by
  obtain ⟨r1, r2, r3⟩ := refOk_of_WF h hwf p hp
  rw [load_eq h p hp, load_eq _ p (by simp; omega)]
  simp only [cfg_alloc h _ _ _ hp, readMap_alloc h _ _ _ r1, readMap_alloc h _ _ _ r2,
    readMap_alloc h _ _ _ r3]

end Mem

/-- C4. Run on pointers into a memory without dangling references, `MergeConfigs`
returns a new struct whose value is the merge of the two argument values; each of
its hook fields is the override's when that is a non-empty string and the base's
otherwise; and every configuration that existed before the call, the base and
the override among them, has the same value after it. -/
theorem MergeConfigs_hooks_frame (h : Mem.Heap) (base override : Nat) (b o : Config)
    (hwf : h.WF = true) (hb : h.load base = some b) (ho : h.load override = some o) :
    ∃ h' merged c,
      Mem.MergeConfigs h base override = some (h', merged) ∧
      h'.load merged = some c ∧ c = MergeConfigs b o ∧
      c.Hooks.PreApply = (if o.Hooks.PreApply ≠ [] then o.Hooks.PreApply else b.Hooks.PreApply) ∧
      c.Hooks.PostApply =
        (if o.Hooks.PostApply ≠ [] then o.Hooks.PostApply else b.Hooks.PostApply) ∧
      c.Hooks.OnLeave = (if o.Hooks.OnLeave ≠ [] then o.Hooks.OnLeave else b.Hooks.OnLeave) ∧
      h'.load base = some b ∧ h'.load override = some o ∧
      ∀ p x, h.load p = some x → h'.load p = some x := by
  have hbl := Mem.load_lt h base b hb
  have hol := Mem.load_lt h override o ho
  rw [Mem.load_eq h base hbl] at hb
  rw [Mem.load_eq h override hol] at ho
  have hb' := Option.some.inj hb
  have ho' := Option.some.inj ho
  have hframe : ∀ T U p x, h.load p = some x →
      ({ maps := h.maps ++ T, cfgs := h.cfgs ++ U } : Mem.Heap).load p = some x := by
    intro T U p x hx
    rw [Mem.load_alloc h T U hwf p (Mem.load_lt h p x hx)]
    exact hx
  refine ⟨_, _, MergeConfigs b o, Mem.MergeConfigs_eq h base override hwf hbl hol, ?_, rfl,
    (mergeHooks_fields b.Hooks o.Hooks).1, (mergeHooks_fields b.Hooks o.Hooks).2.1,
    (mergeHooks_fields b.Hooks o.Hooks).2.2, ?_, ?_, ?_⟩
  · rw [Mem.load_eq _ _ (by simp)]
    subst hb' ho'
    simp [Mem.Heap.cfg, Mem.Heap.readMap, MergeConfigs, List.getElem?_append_right,
      List.getElem_append_right]
  · exact hframe _ _ base b (by rw [Mem.load_eq h base hbl, hb'])
  · exact hframe _ _ override o (by rw [Mem.load_eq h override hol, ho'])
  · intro p x hx
    exact hframe _ _ p x hx

/-- Witness of C4 on the memory of `TestMergeConfigsWithHooks`. -/
theorem MergeConfigs_hooks_frame_witness :
    exHookHeap.WF = true ∧ exHookHeap.load 0 = some exHookBase ∧
      exHookHeap.load 1 = some exHookOverride ∧
      ∃ h' merged c,
        Mem.MergeConfigs exHookHeap 0 1 = some (h', merged) ∧
        h'.load merged = some c ∧ c = MergeConfigs exHookBase exHookOverride ∧
        c.Hooks.PreApply =
          (if exHookOverride.Hooks.PreApply ≠ [] then exHookOverride.Hooks.PreApply
            else exHookBase.Hooks.PreApply) ∧
        c.Hooks.PostApply =
          (if exHookOverride.Hooks.PostApply ≠ [] then exHookOverride.Hooks.PostApply
            else exHookBase.Hooks.PostApply) ∧
        c.Hooks.OnLeave =
          (if exHookOverride.Hooks.OnLeave ≠ [] then exHookOverride.Hooks.OnLeave
            else exHookBase.Hooks.OnLeave) ∧
        h'.load 0 = some exHookBase ∧ h'.load 1 = some exHookOverride ∧
        ∀ p x, exHookHeap.load p = some x → h'.load p = some x :=
  ⟨by decide, by decide, by decide,
    MergeConfigs_hooks_frame exHookHeap 0 1 exHookBase exHookOverride (by decide) (by decide)
      (by decide)⟩

/-! ## Shell quoting -/

theorem replaceFrom_quote_nil (new : Str) :
    strings.replaceFrom [Char.ofNat 39] new 0 [] = [] := rfl

theorem replaceFrom_quote_cons (new : Str) (c : Char) (cs : Str) :
    strings.replaceFrom [Char.ofNat 39] new 0 (c :: cs) =
      if c = Char.ofNat 39 then new ++ strings.replaceFrom [Char.ofNat 39] new 0 cs
      else c :: strings.replaceFrom [Char.ofNat 39] new 0 cs := by
  by_cases hc : c = Char.ofNat 39
  · subst hc
    simp [strings.replaceFrom]
  · have hc' : ¬ Char.ofNat 39 = c := fun e => hc e.symm
    simp [strings.replaceFrom, hc, hc']

/-- Inside single quotes, the scanner reads the quoted form of `s` followed by the
closing quote as `s` itself, appended to the word in progress. -/
theorem scan_quoted (s : Str) (w : Str) :
    Posix.scan
        (strings.replaceFrom [Char.ofNat 39]
          [Char.ofNat 39, Char.ofNat 34, Char.ofNat 39, Char.ofNat 34, Char.ofNat 39] 0 s ++
          [Char.ofNat 39])
        Posix.Mode.single (some w) [] = some [w ++ s] := by
  induction s generalizing w with
  | nil =>
    simp [replaceFrom_quote_nil, Posix.scan, Posix.close]
  | cons c cs ih =>
    rw [replaceFrom_quote_cons]
    by_cases hc : c = Char.ofNat 39
    · subst hc
      have h1 : ¬ (Char.ofNat 34 = ' ' ∨ Char.ofNat 34 = '\t' ∨ Char.ofNat 34 = '\n') := by decide
      have h2 : ¬ (Char.ofNat 34 = Char.ofNat 39) := by decide
      have h3 : ¬ (Char.ofNat 39 = ' ' ∨ Char.ofNat 39 = '\t' ∨ Char.ofNat 39 = '\n') := by decide
      have h4 : ¬ (Char.ofNat 39 = Char.ofNat 34) := by decide
      have h5 : ¬ (Char.ofNat 39 = Char.ofNat 92) := by decide
      have h6 : ¬ (Char.ofNat 39 = '$' ∨ Char.ofNat 39 = Char.ofNat 96) := by decide
      rw [if_pos rfl]
      simp only [List.cons_append, List.nil_append, Posix.scan, if_true, if_pos, h1, h2, h3, h4,
        h5, h6, if_false, Option.getD_some, Posix.push]
      exact (ih (w ++ [Char.ofNat 39])).trans (by simp)
    · rw [if_neg hc]
      simp only [List.cons_append, Posix.scan, if_neg hc, Posix.push, Option.getD_some]
      exact (ih (w ++ [c])).trans (by simp)

/-- C5. Read by the POSIX quoting rules, the quoted form of every string is exactly
one word, and that word is the string itself; the four quoted forms checked by
`TestShellQuote` are the ones the test expects. -/
theorem shellQuote_roundtrip :
    (∀ s : Str, Posix.words (shellQuote s) = some [s]) ∧
    shellQuote "".toList = "''".toList ∧
    shellQuote "simple".toList = "'simple'".toList ∧
    shellQuote "with spaces".toList = "'with spaces'".toList ∧
    shellQuote "with'quote".toList = "'with'\"'\"'quote'".toList := by
  refine ⟨?_, by decide, by decide, by decide, by decide⟩
  intro s
  have h3 : ¬ (Char.ofNat 39 = ' ' ∨ Char.ofNat 39 = '\t' ∨ Char.ofNat 39 = '\n') := by decide
  have hq : shellQuote s =
      Char.ofNat 39 :: (strings.replaceFrom [Char.ofNat 39]
          [Char.ofNat 39, Char.ofNat 34, Char.ofNat 39, Char.ofNat 34, Char.ofNat 39] 0 s ++
        [Char.ofNat 39]) := rfl
  rw [hq]
  unfold Posix.words
  simp only [Posix.scan, h3, if_false, if_true, Option.getD_none]
  exact (scan_quoted s []).trans (by simp)

/-! ## Saving and restoring the session state -/

namespace GoMap

theorem delete_cons (x y : Str) (m : GoMap) (a : Str) :
    delete ((x, y) :: m) a = if x = a then delete m a else (x, y) :: delete m a := by
  by_cases hx : x = a <;> simp [delete, hx]

theorem get?_delete (m : GoMap) (a k : Str) :
    (m.delete a).get? k = if a = k then none else m.get? k := by
  induction m with
  | nil => simp [delete, get?]
  | cons p m ih =>
    obtain ⟨x, y⟩ := p
    rw [delete_cons]
    by_cases hx : x = a
    · subst hx
      rw [if_pos rfl, ih, get?_cons]
      by_cases hk : x = k <;> simp [hk]
    · rw [if_neg hx, get?_cons, get?_cons, ih]
      by_cases hk : a = k
      · subst hk
        simp [hx]
      · simp [hk]

theorem keys_set (m : GoMap) (k v x : Str) :
    x ∈ (m.set k v).keys ↔ x = k ∨ x ∈ m.keys := by
  induction m with
  | nil => simp [set, keys]
  | cons p m ih =>
    obtain ⟨a, b⟩ := p
    by_cases hak : a = k
    · subst hak
      simp [set, keys]
    · have ih' : x ∈ List.map Prod.fst (set m k v) ↔ x = k ∨ x ∈ List.map Prod.fst m := ih
      simp only [set, if_neg hak, keys, List.map_cons, List.mem_cons, ih']
      tauto

theorem keys_copyInto (src dst : GoMap) (x : Str) :
    x ∈ (copyInto dst src).keys ↔ x ∈ dst.keys ∨ x ∈ src.keys := by
  induction src generalizing dst with
  | nil => simp [copyInto, keys]
  | cons p src ih =>
    have step : copyInto dst (p :: src) = copyInto (dst.set p.1 p.2) src := rfl
    rw [step, ih, keys_set]
    simp only [keys, List.map_cons, List.mem_cons]
    tauto

end GoMap

theorem cut_eq_of_not_mem (k v : Str) (hk : '=' ∉ k) :
    strings.cut ['='] (k ++ '=' :: v) = some (k, v) := by
  induction k with
  | nil => simp [strings.cut]
  | cons c k ih =>
    have hc : c ≠ '=' := fun e => hk (by simp [e])
    have hk' : '=' ∉ k := fun e => hk (by simp [e])
    have hc' : ¬ '=' = c := fun e => hc e.symm
    simp [strings.cut, hc', ih hk']

theorem SplitN_entry (k v : Str) (hk : '=' ∉ k) :
    strings.SplitN (k ++ '=' :: v) "=".toList 2 = [k, v] := by
  show (match strings.cut ['='] (k ++ '=' :: v) with
    | none => [k ++ '=' :: v]
    | some (a, b) => a :: strings.SplitN b ['='] 1) = [k, v]
  rw [cut_eq_of_not_mem k v hk]
  rfl

/-- The capture loop of `GetCurrentState` stores every variable whose name has no `=`. -/
theorem capture_fold (E : GoMap) (hE : ∀ p ∈ E, '=' ∉ p.1) (st : State) :
    (os.Environ E).foldl
        (fun state env =>
          match strings.SplitN env "=".toList 2 with
          | [k, v] => { state with Environment := state.Environment.set k v }
          | _ => state)
        st =
      { st with Environment := GoMap.copyInto st.Environment E } := by
  induction E generalizing st with
  | nil => rfl
  | cons p E ih =>
    have hp : '=' ∉ p.1 := hE p (List.mem_cons_self _ _)
    have hE' : ∀ q ∈ E, '=' ∉ q.1 := fun q hq => hE q (List.mem_cons_of_mem _ hq)
    simp only [os.Environ, List.map_cons, List.foldl_cons, SplitN_entry p.1 p.2 hp]
    exact (ih hE' _).trans rfl

theorem GetCurrentState_env (w : World) (hE : ∀ p ∈ w.env, '=' ∉ p.1) :
    (GetCurrentState w).Environment = GoMap.copyInto [] w.env := by
  unfold GetCurrentState
  rw [capture_fold w.env hE]

theorem restoreUnset_get? (saved : GoMap) (L : List (Str × Str)) (E : GoMap) (k : Str) :
    GoMap.get? (restoreUnset saved L E) k =
      if k ∈ GoMap.keys L ∧ saved.get? k = none then none else E.get? k := by
  induction L generalizing E with
  | nil => simp [restoreUnset, GoMap.keys]
  | cons p L ih =>
    obtain ⟨a, b⟩ := p
    have hkeys : k ∈ GoMap.keys ((a, b) :: L) ↔ k = a ∨ k ∈ GoMap.keys L := by
      simp [GoMap.keys]
    by_cases hs : saved.get? a = none
    · have step : restoreUnset saved ((a, b) :: L) E = restoreUnset saved L (os.Unsetenv E a) := by
        simp [restoreUnset, hs]
      rw [step, ih, os.Unsetenv, GoMap.get?_delete]
      by_cases hak : a = k
      · subst hak
        simp [hs, hkeys]
      · have hka : ¬ k = a := fun e => hak e.symm
        simp [hak, hka, hkeys]
    · have step : restoreUnset saved ((a, b) :: L) E = restoreUnset saved L E := by
        cases hsa : saved.get? a with
        | none => exact absurd hsa hs
        | some v => simp [restoreUnset, hsa]
      rw [step, ih]
      by_cases hak : k = a
      · subst hak
        simp [hs, hkeys]
      · simp [hak, hkeys]

theorem restoreSet_get? (L : GoMap) (hL : L.WF) (E E' : GoMap)
    (h : restoreSet L E = (E', none)) (k : Str) :
    E'.get? k =
      match L.get? k with
      | some v => some v
      | none => E.get? k := by
  induction L generalizing E with
  | nil =>
    have : E = E' := by simpa [restoreSet] using h
    subst this
    rfl
  | cons p L ih =>
    obtain ⟨a, b⟩ := p
    have hnd : a ∉ GoMap.keys L ∧ GoMap.WF L := by
      simpa [GoMap.WF, GoMap.keys] using hL
    cases hset : os.Setenv E a b with
    | none => simp [restoreSet, hset] at h
    | some E1 =>
      have hE1 : E1 = E.set a b := by
        unfold os.Setenv at hset
        split at hset
        · cases hset
        · exact (Option.some.inj hset).symm
      have h' : restoreSet L E1 = (E', none) := by
        simpa [restoreSet, hset] using h
      rw [ih hnd.2 E1 h', hE1, GoMap.get?_set, GoMap.get?_cons]
      by_cases hk : a = k
      · subst hk
        simp [GoMap.get?_eq_none_of_not_mem_keys L a hnd.1]
      · simp [hk]

/-- C1. When the session file holds the snapshot `S` and `RestoreState` returns no
error, the environment after the call is `S.Environment` exactly: every name has
the value `S` gives it and no value when `S` gives none; and the session file is
gone, so `HasSavedState` is false. -/
theorem RestoreState_restores (w : World) (S : State) (hfile : w.stateFile = some S)
    (hS : S.Environment.WF) (hE : ∀ p ∈ w.env, '=' ∉ p.1)
    (hok : (RestoreState w).2 = none) :
    (∀ k, (RestoreState w).1.env.get? k = S.Environment.get? k) ∧
    (RestoreState w).1.stateFile = none ∧
    HasSavedState (RestoreState w).1 = false := by
  have hcur := GetCurrentState_env w hE
  cases hr : restoreSet S.Environment
      (restoreUnset S.Environment (GetCurrentState w).Environment w.env) with
  | mk E' err =>
    have hrs : RestoreState w =
        match err with
        | some key => ({ w with env := E' }, some key)
        | none => ({ env := E', stateFile := none }, none) := by
      unfold RestoreState LoadSavedState
      rw [hfile]
      simp only [hr]
      cases err <;> rfl
    cases err with
    | some key =>
      rw [hrs] at hok
      cases hok
    | none =>
      rw [hrs]
      refine ⟨?_, rfl, rfl⟩
      intro k
      show E'.get? k = S.Environment.get? k
      rw [restoreSet_get? S.Environment hS _ E' hr k]
      cases hsk : S.Environment.get? k with
      | some v => rfl
      | none =>
        show GoMap.get? (restoreUnset S.Environment (GetCurrentState w).Environment w.env) k = none
        rw [restoreUnset_get?, hcur]
        by_cases hmem : k ∈ GoMap.keys w.env
        · have : k ∈ GoMap.keys (GoMap.copyInto [] w.env) :=
            (GoMap.keys_copyInto w.env [] k).mpr (Or.inr hmem)
          simp [this, hsk]
        · simp [GoMap.get?_eq_none_of_not_mem_keys w.env k hmem]

/-- Witness of C1 on the world of `TestStateOperations`: the call succeeds,
`TEST_VAR` is back to its original value, `NEW_VAR` is unset and the session
file is gone. -/
theorem RestoreState_restores_witness :
    exWorld.stateFile = some exSaved ∧ exSaved.Environment.WF ∧
      (∀ p ∈ exWorld.env, '=' ∉ p.1) ∧ (RestoreState exWorld).2 = none ∧
      (RestoreState exWorld).1.env.get? "TEST_VAR".toList = some "original_value".toList ∧
      (RestoreState exWorld).1.env.get? "NEW_VAR".toList = none ∧
      HasSavedState (RestoreState exWorld).1 = false :=
  have h := RestoreState_restores exWorld exSaved rfl (by decide) (by decide) (by decide)
  ⟨rfl, by decide, by decide, by decide, (h.1 _).trans (by decide), (h.1 _).trans (by decide),
    h.2.2⟩

namespace GoMap

theorem set_of_not_mem (m : GoMap) (k v : Str) (hk : k ∉ m.keys) :
    m.set k v = m ++ [(k, v)] := by
  induction m with
  | nil => rfl
  | cons p m ih =>
    obtain ⟨a, b⟩ := p
    have h : ¬ a = k ∧ k ∉ keys m := by
      simp only [keys, List.map_cons, List.mem_cons, not_or] at hk
      exact ⟨fun e => hk.1 e.symm, hk.2⟩
    simp only [set, if_neg h.1, List.cons_append, ih h.2]

theorem copyInto_append (src dst : GoMap) (hsrc : src.WF)
    (hdis : ∀ k ∈ src.keys, k ∉ dst.keys) :
    copyInto dst src = dst ++ src := by
  induction src generalizing dst with
  | nil => simp [copyInto]
  | cons p src ih =>
    obtain ⟨a, b⟩ := p
    have hnd : a ∉ keys src ∧ WF src := by
      simpa [WF, keys] using hsrc
    have ha : a ∉ keys dst := hdis a (by simp [keys])
    have step : copyInto dst ((a, b) :: src) = copyInto (dst.set a b) src := rfl
    rw [step, set_of_not_mem dst a b ha, ih _ hnd.2]
    · simp
    · intro k hk
      have hk1 : k ∉ keys dst := hdis k (by simp [keys] at hk ⊢; exact Or.inr hk)
      have hk2 : k ≠ a := fun e => hnd.1 (e ▸ hk)
      simp only [keys, List.map_append, List.map_cons, List.map_nil, List.mem_append,
        List.mem_singleton, not_or]
      exact ⟨hk1, hk2⟩

theorem get?_ne_none_of_mem (m : GoMap) (p : Str × Str) (hp : p ∈ m) : m.get? p.1 ≠ none := by
  induction m with
  | nil => cases hp
  | cons q m ih =>
    rw [get?_cons]
    by_cases hq : q.1 = p.1
    · simp [hq]
    · rw [if_neg hq]
      rcases List.mem_cons.mp hp with h | h
      · exact absurd (h ▸ rfl) hq
      · exact ih h

theorem set_of_mem (m : GoMap) (hm : m.WF) (k v : Str) (hp : (k, v) ∈ m) :
    m.set k v = m := by
  induction m with
  | nil => cases hp
  | cons q m ih =>
    obtain ⟨a, b⟩ := q
    have hnd : a ∉ keys m ∧ WF m := by
      simpa [WF, keys] using hm
    by_cases hak : a = k
    · subst hak
      rcases List.mem_cons.mp hp with h | h
      · cases h
        simp [set]
      · exact absurd (List.mem_map_of_mem Prod.fst h) hnd.1
    · rcases List.mem_cons.mp hp with h | h
      · cases h
        exact absurd rfl hak
      · simp only [set, if_neg hak, ih hnd.2 h]

end GoMap

theorem restoreUnset_noop (saved : GoMap) (L : List (Str × Str)) (E : GoMap)
    (hL : ∀ p ∈ L, saved.get? p.1 ≠ none) : restoreUnset saved L E = E := by
  induction L generalizing E with
  | nil => rfl
  | cons p L ih =>
    obtain ⟨a, b⟩ := p
    have ha : saved.get? a ≠ none := hL (a, b) (List.mem_cons_self _ _)
    have step : restoreUnset saved ((a, b) :: L) E = restoreUnset saved L E := by
      cases hsa : saved.get? a with
      | none => exact absurd hsa ha
      | some v => simp [restoreUnset, hsa]
    rw [step]
    exact ih E (fun q hq => hL q (List.mem_cons_of_mem _ hq))

theorem restoreSet_noop (L : List (Str × Str)) (E : GoMap) (hE : ValidEnv E)
    (hL : ∀ p ∈ L, p ∈ E) : restoreSet L E = (E, none) := by
  induction L with
  | nil => rfl
  | cons p L ih =>
    obtain ⟨a, b⟩ := p
    have hmem : (a, b) ∈ E := hL (a, b) (List.mem_cons_self _ _)
    obtain ⟨h1, h2, h3, h4⟩ := hE.2 (a, b) hmem
    have hset : os.Setenv E a b = some E := by
      unfold os.Setenv
      rw [if_neg (by simp only [not_or]; exact ⟨h1, h2, h3, h4⟩),
        GoMap.set_of_mem E hE.1 a b hmem]
    simp only [restoreSet, hset]
    exact ih (fun q hq => hL q (List.mem_cons_of_mem _ hq))

/-! ## The session file returns every string of characters unchanged -/

theorem Char_toNat_valid (c : Char) : c.toNat < 0xD800 ∨ (0xDFFF < c.toNat ∧ c.toNat < 0x110000) :=
  c.valid

/-- The encoding of a character is a valid sequence of the width of the encoding. -/
theorem runeWidth_encodeRune (c : Char) (rest : List Nat) :
    utf8.runeWidth (utf8.encodeRune c ++ rest) = (utf8.encodeRune c).length := by
  have hv := Char_toNat_valid c
  unfold utf8.encodeRune
  simp only
  generalize c.toNat = n at hv
  by_cases h1 : n < 0x80
  · simp [h1, utf8.runeWidth]
  · by_cases h2 : n < 0x800
    · have a1 : ¬ (0xC0 + n / 64 < 0x80) := by omega
      have a2 : 0xC2 ≤ 0xC0 + n / 64 ∧ 0xC0 + n / 64 ≤ 0xDF := by omega
      have a3 : 0x80 ≤ 0x80 + n % 64 ∧ 0x80 + n % 64 ≤ 0xBF := by omega
      simp [h1, h2, utf8.runeWidth, utf8.isCont, a1, a2, a3]
    · by_cases h3 : n < 0x10000
      · have a1 : ¬ (0xE0 + n / 4096 < 0x80) := by omega
        have a2 : ¬ (0xC2 ≤ 0xE0 + n / 4096 ∧ 0xE0 + n / 4096 ≤ 0xDF) := by omega
        have a3 : 0xE0 ≤ 0xE0 + n / 4096 ∧ 0xE0 + n / 4096 ≤ 0xEF := by omega
        have a4 : (if 0xE0 + n / 4096 = 0xE0 then 0xA0 else 0x80) ≤ 0x80 + n / 64 % 64 := by
          split <;> omega
        have a5 : 0x80 + n / 64 % 64 ≤ (if 0xE0 + n / 4096 = 0xED then 0x9F else 0xBF) := by
          split <;> omega
        have a6 : 0x80 ≤ 0x80 + n % 64 ∧ 0x80 + n % 64 ≤ 0xBF := by omega
        simp only [h1, h2, h3, if_false, if_true, List.cons_append, List.nil_append,
          utf8.runeWidth, a1, a2, a3, a4, a5, utf8.isCont, a6, decide_True, and_self,
          List.length_cons, List.length_nil]
      · have a1 : ¬ (0xF0 + n / 262144 < 0x80) := by omega
        have a2 : ¬ (0xC2 ≤ 0xF0 + n / 262144 ∧ 0xF0 + n / 262144 ≤ 0xDF) := by omega
        have a3 : ¬ (0xE0 ≤ 0xF0 + n / 262144 ∧ 0xF0 + n / 262144 ≤ 0xEF) := by omega
        have a3' : 0xF0 ≤ 0xF0 + n / 262144 ∧ 0xF0 + n / 262144 ≤ 0xF4 := by omega
        have a4 : (if 0xF0 + n / 262144 = 0xF0 then 0x90 else 0x80) ≤ 0x80 + n / 4096 % 64 := by
          split <;> omega
        have a5 : 0x80 + n / 4096 % 64 ≤ (if 0xF0 + n / 262144 = 0xF4 then 0x8F else 0xBF) := by
          split <;> omega
        have a6 : 0x80 ≤ 0x80 + n / 64 % 64 ∧ 0x80 + n / 64 % 64 ≤ 0xBF := by omega
        have a7 : 0x80 ≤ 0x80 + n % 64 ∧ 0x80 + n % 64 ≤ 0xBF := by omega
        simp only [h1, h2, h3, if_false, if_true, List.cons_append, List.nil_append,
          utf8.runeWidth, a1, a2, a3, a3', a4, a5, utf8.isCont, a6, a7, decide_True, and_self,
          List.length_cons, List.length_nil]

theorem encodeRune_ne_nil (c : Char) : utf8.encodeRune c ≠ [] := by
  unfold utf8.encodeRune
  simp only
  split_ifs <;> simp

/-- Inside a valid sequence the bytes are copied. -/
theorem coerceFrom_copy (l rest : List Nat) :
    json.coerceFrom l.length (l ++ rest) = l ++ json.coerceFrom 0 rest := by
  induction l with
  | nil => rfl
  | cons b l ih =>
    show json.coerceFrom (l.length + 1) (b :: (l ++ rest)) = _
    rw [json.coerceFrom, ih]
    rfl

theorem coerceFrom_encodeRune (c : Char) (rest : List Nat) :
    json.coerceFrom 0 (utf8.encodeRune c ++ rest) = utf8.encodeRune c ++ json.coerceFrom 0 rest := by
  have hw := runeWidth_encodeRune c rest
  cases he : utf8.encodeRune c with
  | nil => exact absurd he (encodeRune_ne_nil c)
  | cons b l =>
    rw [he] at hw
    have hw' : utf8.runeWidth (b :: (l ++ rest)) = l.length + 1 := hw
    show json.coerceFrom 0 (b :: (l ++ rest)) = b :: (l ++ json.coerceFrom 0 rest)
    rw [json.coerceFrom, hw']
    simp only
    rw [coerceFrom_copy]

/-- The session file gives back every string of characters as it was written. -/
theorem coerce_encode (s : Str) : json.coerce (utf8.encode s) = utf8.encode s := by
  unfold json.coerce
  induction s with
  | nil => rfl
  | cons c cs ih =>
    show json.coerceFrom 0 (utf8.encodeRune c ++ utf8.encode cs) = _
    rw [coerceFrom_encodeRune, ih]
    rfl

/-- On strings of characters: in a valid process environment, saving the captured
state and restoring it at once succeeds, leaves the environment exactly as it
was (the same variables with the same values) and leaves no session file. -/
theorem SaveRestore_roundtrip (w : World) (hE : ValidEnv w.env) :
    (RestoreState (SaveState (GetCurrentState w) w)).2 = none ∧
    (RestoreState (SaveState (GetCurrentState w) w)).1.env = w.env ∧
    (∀ k, (RestoreState (SaveState (GetCurrentState w) w)).1.env.get? k = w.env.get? k) ∧
    (RestoreState (SaveState (GetCurrentState w) w)).1.stateFile = none ∧
    HasSavedState (RestoreState (SaveState (GetCurrentState w) w)).1 = false := by
  have hkeys : ∀ p ∈ w.env, '=' ∉ p.1 := fun p hp => (hE.2 p hp).2.1
  have hcap : (GetCurrentState w).Environment = w.env := by
    rw [GetCurrentState_env w hkeys, GoMap.copyInto_append w.env [] hE.1 (by simp [GoMap.keys])]
    rfl
  have hcap' : (GetCurrentState (SaveState (GetCurrentState w) w)).Environment = w.env := by
    rw [GetCurrentState_env (SaveState (GetCurrentState w) w) hkeys]
    exact (GoMap.copyInto_append w.env [] hE.1 (by simp [GoMap.keys])).trans rfl
  have hres : RestoreState (SaveState (GetCurrentState w) w) =
      ({ env := w.env, stateFile := none }, none) := by
    unfold RestoreState LoadSavedState
    simp only [SaveState, hcap]
    have h0 : (GetCurrentState { env := w.env, stateFile := some (GetCurrentState w) }).Environment
        = w.env := hcap'
    rw [h0, restoreUnset_noop w.env w.env w.env (fun p hp => GoMap.get?_ne_none_of_mem _ p hp),
      restoreSet_noop w.env w.env hE (fun p hp => hp)]
  rw [hres]
  exact ⟨rfl, rfl, fun _ => rfl, rfl, rfl⟩
/-! ## Saving and restoring over byte strings -/

namespace Raw

theorem rawGet?_cons (p : Bytes × Bytes) (m : Map) (k : Bytes) :
    Map.get? (p :: m) k = if p.1 = k then some p.2 else Map.get? m k := by
  cases p; rfl

theorem rawGet?_ne_none_of_mem (m : Map) (p : Bytes × Bytes) (hp : p ∈ m) :
    Map.get? m p.1 ≠ none := by
  induction m with
  | nil => cases hp
  | cons q m ih =>
    rw [rawGet?_cons]
    by_cases hq : q.1 = p.1
    · simp [hq]
    · rw [if_neg hq]
      rcases List.mem_cons.mp hp with h | h
      · exact absurd (h ▸ rfl) hq
      · exact ih h

theorem rawSet_of_not_mem (m : Map) (k v : Bytes) (hk : k ∉ Map.keys m) :
    Map.set m k v = m ++ [(k, v)] := by
  induction m with
  | nil => rfl
  | cons p m ih =>
    obtain ⟨a, b⟩ := p
    have h : ¬ a = k ∧ k ∉ Map.keys m := by
      simp only [Map.keys, List.map_cons, List.mem_cons, not_or] at hk
      exact ⟨fun e => hk.1 e.symm, hk.2⟩
    simp only [Map.set, if_neg h.1, List.cons_append, ih h.2]

theorem rawSet_of_mem (m : Map) (hm : Map.WF m) (k v : Bytes) (hp : (k, v) ∈ m) :
    Map.set m k v = m := by
  induction m with
  | nil => cases hp
  | cons q m ih =>
    obtain ⟨a, b⟩ := q
    have hnd : a ∉ Map.keys m ∧ Map.WF m := by
      simpa [Map.WF, Map.keys] using hm
    by_cases hak : a = k
    · subst hak
      rcases List.mem_cons.mp hp with h | h
      · cases h
        simp [Map.set]
      · exact absurd (List.mem_map_of_mem Prod.fst h) hnd.1
    · rcases List.mem_cons.mp hp with h | h
      · cases h
        exact absurd rfl hak
      · simp only [Map.set, if_neg hak, ih hnd.2 h]

/-- Assigning the entries of a map with distinct keys to a map that has none of
them appends them. -/
theorem rawSetAll_append (src dst : Map) (hsrc : Map.WF src)
    (hdis : ∀ k ∈ Map.keys src, k ∉ Map.keys dst) :
    Map.setAll dst src = dst ++ src := by
  induction src generalizing dst with
  | nil => simp [Map.setAll]
  | cons p src ih =>
    obtain ⟨a, b⟩ := p
    have hnd : a ∉ Map.keys src ∧ Map.WF src := by
      simpa [Map.WF, Map.keys] using hsrc
    have ha : a ∉ Map.keys dst := hdis a (by simp [Map.keys])
    have step : Map.setAll dst ((a, b) :: src) = Map.setAll (Map.set dst a b) src := rfl
    rw [step, rawSet_of_not_mem dst a b ha, ih _ hnd.2]
    · simp
    · intro k hk
      have hk1 : k ∉ Map.keys dst := hdis k (by simp [Map.keys] at hk ⊢; exact Or.inr hk)
      have hk2 : k ≠ a := fun e => hnd.1 (e ▸ hk)
      simp only [Map.keys, List.map_append, List.map_cons, List.map_nil, List.mem_append,
        List.mem_singleton, not_or]
      exact ⟨hk1, hk2⟩

theorem rawCutEq (k v : Bytes) (hk : 61 ∉ k) : cutEq (k ++ 61 :: v) = some (k, v) := by
  induction k with
  | nil => simp [cutEq]
  | cons c k ih =>
    have hc : ¬ c = 61 := fun e => hk (by simp [e])
    have hk' : 61 ∉ k := fun e => hk (by simp [e])
    simp [cutEq, hc, ih hk']

/-- The capture loop of `GetCurrentState` stores every variable whose name has no `=`. -/
theorem rawCapture_fold (E : Map) (hE : ∀ p ∈ E, 61 ∉ p.1) (st : State) :
    (Environ E).foldl
        (fun state env =>
          match splitEq env with
          | [k, v] => { state with Environment := Map.set state.Environment k v }
          | _ => state)
        st =
      { st with Environment := Map.setAll st.Environment E } := by
  induction E generalizing st with
  | nil => rfl
  | cons p E ih =>
    have hp : 61 ∉ p.1 := hE p (List.mem_cons_self _ _)
    have hE' : ∀ q ∈ E, 61 ∉ q.1 := fun q hq => hE q (List.mem_cons_of_mem _ hq)
    have hsplit : splitEq (p.1 ++ 61 :: p.2) = [p.1, p.2] := by
      unfold splitEq
      rw [rawCutEq p.1 p.2 hp]
    simp only [Environ, List.map_cons, List.foldl_cons, hsplit]
    exact (ih hE' _).trans rfl

theorem rawGetCurrentState_env (w : World) (hwf : Map.WF w.env) (hE : ∀ p ∈ w.env, 61 ∉ p.1) :
    (GetCurrentState w).Environment = w.env := by
  have h : GetCurrentState w = _ :=
    rawCapture_fold w.env hE
      { Environment := [], Aliases := [], Directory := [], OnLeaveHook := [] }
  rw [h]
  exact (rawSetAll_append w.env [] hwf (by simp [Map.keys])).trans (by simp)

theorem rawRestoreUnset_noop (saved : Map) (L : List (Bytes × Bytes)) (E : Map)
    (hL : ∀ p ∈ L, Map.get? saved p.1 ≠ none) : restoreUnset saved L E = E := by
  induction L generalizing E with
  | nil => rfl
  | cons p L ih =>
    obtain ⟨a, b⟩ := p
    have ha : Map.get? saved a ≠ none := hL (a, b) (List.mem_cons_self _ _)
    have step : restoreUnset saved ((a, b) :: L) E = restoreUnset saved L E := by
      cases hsa : Map.get? saved a with
      | none => exact absurd hsa ha
      | some v => simp [restoreUnset, hsa]
    rw [step]
    exact ih E (fun q hq => hL q (List.mem_cons_of_mem _ hq))

theorem rawRestoreSet_noop (L : List (Bytes × Bytes)) (E : Map) (hE : ValidEnv E)
    (hL : ∀ p ∈ L, p ∈ E) : restoreSet L E = (E, none) := by
  induction L with
  | nil => rfl
  | cons p L ih =>
    obtain ⟨a, b⟩ := p
    have hmem : (a, b) ∈ E := hL (a, b) (List.mem_cons_self _ _)
    obtain ⟨h1, h2, h3, h4, _, _⟩ := hE.2 (a, b) hmem
    have hset : Setenv E a b = some E := by
      unfold Setenv
      rw [if_neg (by simp only [not_or]; exact ⟨h1, h2, h3, h4⟩),
        rawSet_of_mem E hE.1 a b hmem]
    simp only [restoreSet, hset]
    exact ih (fun q hq => hL q (List.mem_cons_of_mem _ hq))

theorem perm_insertByKey (p : Bytes × Bytes) (l : List (Bytes × Bytes)) :
    (insertByKey p l).Perm (p :: l) := by
  induction l with
  | nil => exact List.Perm.refl _
  | cons q l ih =>
    unfold insertByKey
    split
    · exact (List.Perm.cons q ih).trans (List.Perm.swap p q l)
    · exact List.Perm.refl _

theorem perm_sortedByKey (m : Map) : (sortedByKey m).Perm m := by
  induction m with
  | nil => exact List.Perm.refl _
  | cons p m ih =>
    show (insertByKey p (sortedByKey m)).Perm (p :: m)
    exact (perm_insertByKey p _).trans (List.Perm.cons p ih)

/-- For a valid environment the session file holds the entries themselves, in
ascending order of their keys. -/
theorem jsonMap_of_valid (E : Map) (hE : ValidEnv E) : jsonMap E = sortedByKey E := by
  have hperm := perm_sortedByKey E
  have hfix : (sortedByKey E).map (fun p => (json.coerce p.1, json.coerce p.2)) =
      sortedByKey E := by
    have : ∀ p ∈ sortedByKey E, (fun p : Bytes × Bytes => (json.coerce p.1, json.coerce p.2)) p
        = id p := by
      intro p hp
      obtain ⟨_, _, _, _, h5, h6⟩ := hE.2 p (hperm.mem_iff.mp hp)
      show (json.coerce p.1, json.coerce p.2) = p
      rw [h5, h6]
    rw [List.map_congr_left this, List.map_id]
  have hwf : Map.WF (sortedByKey E) := by
    unfold Map.WF Map.keys
    exact (hperm.map Prod.fst).nodup_iff.mpr hE.1
  unfold jsonMap
  rw [hfix]
  exact (rawSetAll_append (sortedByKey E) [] hwf (by simp [Map.keys])).trans (by simp)

end Raw

/-! ## Strings of characters as byte strings -/

theorem Char_eq_of_toNat (c d : Char) (h : c.toNat = d.toNat) : c = d := by
  have h1 : Char.ofNat c.toNat = Char.ofNat d.toNat := by rw [h]
  simpa using h1

theorem encodeRune_inj (c d : Char) (h : utf8.encodeRune c = utf8.encodeRune d) : c = d := by
  apply Char_eq_of_toNat
  unfold utf8.encodeRune at h
  simp only at h
  split_ifs at h <;> simp only [List.cons.injEq, and_true, List.cons_ne_nil, and_false,
    List.nil_eq, reduceCtorEq] at h <;> omega

/-- The encoding of an ASCII character is its code; every byte of another encoding
is 128 or more. -/
theorem encodeRune_bytes (c : Char) :
    (c.toNat < 0x80 ∧ utf8.encodeRune c = [c.toNat]) ∨
      (0x80 ≤ c.toNat ∧ ∀ b ∈ utf8.encodeRune c, 0x80 ≤ b) := by
  unfold utf8.encodeRune
  simp only
  split_ifs with h1 h2 h3
  · exact Or.inl ⟨h1, rfl⟩
  · refine Or.inr ⟨by omega, ?_⟩
    intro b hb
    simp only [List.mem_cons, List.mem_singleton, List.not_mem_nil, or_false] at hb
    omega
  · refine Or.inr ⟨by omega, ?_⟩
    intro b hb
    simp only [List.mem_cons, List.mem_singleton, List.not_mem_nil, or_false] at hb
    omega
  · refine Or.inr ⟨by omega, ?_⟩
    intro b hb
    simp only [List.mem_cons, List.mem_singleton, List.not_mem_nil, or_false] at hb
    omega

/-- Two strings of characters with the same bytes are the same string. -/
theorem encode_inj (s t : Str) (h : utf8.encode s = utf8.encode t) : s = t := by
  induction s generalizing t with
  | nil =>
    cases t with
    | nil => rfl
    | cons d t =>
      exfalso
      have h' : [] = utf8.encodeRune d ++ utf8.encode t := h
      have hnil := (List.append_eq_nil.mp h'.symm).1
      exact encodeRune_ne_nil d hnil
  | cons c s ih =>
    cases t with
    | nil =>
      exfalso
      have h' : utf8.encodeRune c ++ utf8.encode s = [] := h
      exact encodeRune_ne_nil c (List.append_eq_nil.mp h').1
    | cons d t =>
      have h' : utf8.encodeRune c ++ utf8.encode s = utf8.encodeRune d ++ utf8.encode t := h
      have hc := runeWidth_encodeRune c (utf8.encode s)
      have hd := runeWidth_encodeRune d (utf8.encode t)
      rw [h'] at hc
      have hlen : (utf8.encodeRune c).length = (utf8.encodeRune d).length := hc.symm.trans hd
      obtain ⟨h1, h2⟩ := List.append_inj h' hlen
      rw [encodeRune_inj c d h1, ih t h2]

/-- An ASCII byte occurs in the bytes of a string only as the character of that code. -/
theorem not_mem_encode (a : Char) (ha : a.toNat < 0x80) (s : Str) (hs : a ∉ s) :
    a.toNat ∉ utf8.encode s := by
  induction s with
  | nil => simp [utf8.encode]
  | cons c s ih =>
    have hc : a ≠ c := fun e => hs (by simp [e])
    have hs' : a ∉ s := fun e => hs (by simp [e])
    show a.toNat ∉ utf8.encodeRune c ++ utf8.encode s
    rw [List.mem_append, not_or]
    refine ⟨?_, ih hs'⟩
    rcases encodeRune_bytes c with ⟨_, h2⟩ | ⟨_, h2⟩
    · rw [h2, List.mem_singleton]
      exact fun e => hc (Char_eq_of_toNat a c e)
    · intro hmem
      have := h2 _ hmem
      omega

theorem encode_ne_nil (s : Str) (hs : s ≠ []) : utf8.encode s ≠ [] := by
  cases s with
  | nil => exact absurd rfl hs
  | cons c s =>
    intro h
    have h' : utf8.encodeRune c ++ utf8.encode s = [] := h
    exact encodeRune_ne_nil c (List.append_eq_nil.mp h').1

/-- A valid environment of strings of characters, byte by byte, is a valid
environment of byte strings. -/
theorem ValidEnv_encode (E : GoMap) (hE : ValidEnv E) :
    Raw.ValidEnv (E.map (fun p => (utf8.encode p.1, utf8.encode p.2))) := by
  constructor
  · unfold Raw.Map.WF Raw.Map.keys
    rw [List.map_map]
    have hkeys : (E.map (Prod.fst ∘ fun p : Str × Str => (utf8.encode p.1, utf8.encode p.2))) =
        (GoMap.keys E).map utf8.encode := by
      unfold GoMap.keys
      rw [List.map_map]
      rfl
    rw [hkeys]
    exact List.Nodup.map (fun s t h => encode_inj s t h) hE.1
  · intro p hp
    obtain ⟨q, hq, rfl⟩ := List.mem_map.mp hp
    obtain ⟨h1, h2, h3, h4⟩ := hE.2 q hq
    exact ⟨encode_ne_nil q.1 h1, not_mem_encode '=' (by decide) q.1 h2,
      not_mem_encode (Char.ofNat 0) (by decide) q.1 h3,
      not_mem_encode (Char.ofNat 0) (by decide) q.2 h4, coerce_encode q.1, coerce_encode q.2⟩

/-- C2, the claim as stated fails, in two ways.  In the environment `exRawEmptyName`,
which has a variable with the empty name, saving the captured state and
restoring it at once returns an error (`os.Setenv` refuses the empty name) and
leaves the session file behind.  In the environment `exRawInvalid`, where the
value of `RAW` is the byte `FF`, the restore returns no error and removes the
file, and `RAW` is left with the three bytes `EF BF BD` that the session file
gave back. -/
theorem SaveRestore_not_every_environment :
    Raw.Map.WF exRawEmptyName.env ∧
    (Raw.RestoreState (Raw.SaveState (Raw.GetCurrentState exRawEmptyName) exRawEmptyName)).2 =
      some [] ∧
    Raw.HasSavedState
      (Raw.RestoreState (Raw.SaveState (Raw.GetCurrentState exRawEmptyName) exRawEmptyName)).1 =
      true ∧
    Raw.Map.WF exRawInvalid.env ∧
    Raw.Map.get? exRawInvalid.env (exBytes "RAW") = some [0xFF] ∧
    (Raw.RestoreState (Raw.SaveState (Raw.GetCurrentState exRawInvalid) exRawInvalid)).2 = none ∧
    Raw.Map.get?
      (Raw.RestoreState (Raw.SaveState (Raw.GetCurrentState exRawInvalid) exRawInvalid)).1.env
      (exBytes "RAW") = some [0xEF, 0xBF, 0xBD] ∧
    (∀ s : Str, utf8.encode s ≠ [0xFF]) := by
  refine ⟨by decide, by decide, by decide, by decide, by decide, by decide, by decide, ?_⟩
  intro s hs
  have h := coerce_encode s
  rw [hs] at h
  revert h
  decide

/-- C2, amended. For every environment in which no variable has the empty name
and every name and value is valid UTF-8 (an environment as the operating system
keeps it: no name twice, no `=` in a name, no NUL byte): saving the captured
state and restoring it at once returns no error, leaves the environment exactly
as it was, the same variables with the same values, and leaves no session
file.  The environments whose names and values are strings of characters, with
non-empty names free of `=` and NUL and values free of NUL, are of this kind. -/
theorem SaveRestore_roundtrip_bytes (w : Raw.World) (hE : Raw.ValidEnv w.env) :
    (Raw.RestoreState (Raw.SaveState (Raw.GetCurrentState w) w)).2 = none ∧
    (Raw.RestoreState (Raw.SaveState (Raw.GetCurrentState w) w)).1.env = w.env ∧
    (∀ k, Raw.Map.get? (Raw.RestoreState (Raw.SaveState (Raw.GetCurrentState w) w)).1.env k =
      Raw.Map.get? w.env k) ∧
    (Raw.RestoreState (Raw.SaveState (Raw.GetCurrentState w) w)).1.stateFile = none ∧
    Raw.HasSavedState (Raw.RestoreState (Raw.SaveState (Raw.GetCurrentState w) w)).1 = false ∧
    (∀ E : GoMap, ValidEnv E →
      Raw.ValidEnv (E.map (fun p => (utf8.encode p.1, utf8.encode p.2)))) := by
  have hkeys : ∀ p ∈ w.env, 61 ∉ p.1 := fun p hp => (hE.2 p hp).2.1
  have hcap : (Raw.GetCurrentState w).Environment = w.env :=
    Raw.rawGetCurrentState_env w hE.1 hkeys
  have hperm := Raw.perm_sortedByKey w.env
  have hres : Raw.RestoreState (Raw.SaveState (Raw.GetCurrentState w) w) =
      ({ env := w.env, stateFile := none }, none) := by
    have hcap' : ∀ st : Raw.State,
        (Raw.GetCurrentState { env := w.env, stateFile := some st }).Environment = w.env :=
      fun st => Raw.rawGetCurrentState_env { env := w.env, stateFile := some st } hE.1 hkeys
    unfold Raw.RestoreState Raw.LoadSavedState
    simp only [Raw.SaveState, Raw.jsonState, hcap, Raw.jsonMap_of_valid w.env hE, hcap']
    rw [Raw.rawRestoreUnset_noop (Raw.sortedByKey w.env) w.env w.env
        (fun p hp => Raw.rawGet?_ne_none_of_mem _ p (hperm.mem_iff.mpr hp)),
      Raw.rawRestoreSet_noop (Raw.sortedByKey w.env) w.env hE (fun p hp => hperm.mem_iff.mp hp)]
  rw [hres]
  exact ⟨rfl, rfl, fun _ => rfl, rfl, rfl, ValidEnv_encode⟩

/-- Witness of C2 (amended) on the environment `TestStateOperations` captures, with
a value outside ASCII added. -/
theorem SaveRestore_roundtrip_bytes_witness :
    Raw.ValidEnv exRawClean.env ∧
      (Raw.RestoreState (Raw.SaveState (Raw.GetCurrentState exRawClean) exRawClean)).2 = none ∧
      (Raw.RestoreState (Raw.SaveState (Raw.GetCurrentState exRawClean) exRawClean)).1.env =
        exRawClean.env ∧
      Raw.HasSavedState
        (Raw.RestoreState (Raw.SaveState (Raw.GetCurrentState exRawClean) exRawClean)).1 = false :=
  have h := SaveRestore_roundtrip_bytes exRawClean (by decide)
  ⟨by decide, h.1, h.2.1, h.2.2.2.2.1⟩


/-! ## Expansion of configured values -/

theorem expandFrom_of_no_dollar (mapping : Str → Str) (s : Str) (hs : '$' ∉ s) :
    os.expandFrom mapping 0 s = s := by
  induction s with
  | nil => rfl
  | cons c cs ih =>
    have hc : ¬ c = '$' := fun e => hs (by simp [e])
    have hcs : '$' ∉ cs := fun e => hs (by simp [e])
    simp [os.expandFrom, hc, ih hcs]

theorem ExpandEnv_of_no_dollar (E : GoMap) (s : Str) (hs : '$' ∉ s) :
    os.ExpandEnv E s = s :=
  expandFrom_of_no_dollar _ s hs

theorem replaceFrom_of_no_dollar (old new s : Str) (hs : '$' ∉ s) :
    strings.replaceFrom ('$' :: old) new 0 s = s := by
  induction s with
  | nil => simp [strings.replaceFrom]
  | cons c cs ih =>
    have hc : ¬ '$' = c := fun e => hs (List.mem_cons.mpr (Or.inl e))
    have hcs : '$' ∉ cs := fun e => hs (List.mem_cons_of_mem _ e)
    simp [strings.replaceFrom, hc, ih hcs]

/-- C6, the claim as stated fails: with the base directory `/opt/$USER` the result
is not the base directory followed by `/x`, and it differs between a process
environment where `USER` is `dev` and one where it is `ops`. -/
theorem expandEnvVar_baseDir_dollar :
    expandEnvVar [("USER".toList, "dev".toList)] "$PROJECT_ROOT/x".toList "/opt/$USER".toList
        = "/opt/dev/x".toList ∧
    expandEnvVar [("USER".toList, "dev".toList)] "$PROJECT_ROOT/x".toList "/opt/$USER".toList
        ≠ "/opt/$USER".toList ++ "/x".toList ∧
    expandEnvVar [("USER".toList, "dev".toList)] "$PROJECT_ROOT/x".toList "/opt/$USER".toList
        ≠ expandEnvVar [("USER".toList, "ops".toList)] "$PROJECT_ROOT/x".toList
            "/opt/$USER".toList := by
  decide

/-- C6, amended. For every base directory without a dollar sign,
`expandEnvVar("$PROJECT_ROOT/x", baseDir)` is the base directory followed by `/x`,
in every process environment; so it is the same in any two of them. -/
theorem expandEnvVar_project_root (E E' : GoMap) (baseDir : Str) (hb : '$' ∉ baseDir) :
    expandEnvVar E "$PROJECT_ROOT/x".toList baseDir = baseDir ++ "/x".toList ∧
    expandEnvVar E "$PROJECT_ROOT/x".toList baseDir =
      expandEnvVar E' "$PROJECT_ROOT/x".toList baseDir := by
  have hrep : strings.ReplaceAll "$PROJECT_ROOT/x".toList "$PROJECT_ROOT".toList baseDir =
      baseDir ++ "/x".toList := rfl
  have hnd : '$' ∉ baseDir ++ "/x".toList := by
    intro h
    rcases List.mem_append.mp h with h | h
    · exact hb h
    · revert h; decide
  have key : ∀ F : GoMap, expandEnvVar F "$PROJECT_ROOT/x".toList baseDir =
      baseDir ++ "/x".toList := by
    intro F
    unfold expandEnvVar
    simp only [hrep]
    exact ExpandEnv_of_no_dollar F _ hnd
  exact ⟨key E, (key E).trans (key E').symm⟩

/-- Witness of C6 (amended) on the base directory of `TestExpandEnvVar`. -/
theorem expandEnvVar_project_root_witness :
    '$' ∉ "/test/project".toList ∧
      expandEnvVar [("PATH".toList, "/usr/bin:/bin".toList)] "$PROJECT_ROOT/x".toList
        "/test/project".toList = "/test/project/x".toList :=
  ⟨by decide,
    (expandEnvVar_project_root [("PATH".toList, "/usr/bin:/bin".toList)] [] "/test/project".toList
      (by decide)).1⟩

/-- C7. The project root is substituted before the remaining references are resolved
against the process environment: when `PATH` is `P` and the base directory has no
dollar sign, `$PATH:$PROJECT_ROOT/bin` expands to `P:baseDir/bin`, whatever the
environment holds for `PROJECT_ROOT` (and whatever characters `P` has); and a value
without a dollar sign is returned unchanged. -/
theorem expandEnvVar_order (E : GoMap) (P baseDir : Str)
    (hP : E.get? "PATH".toList = some P) (hb : '$' ∉ baseDir) :
    expandEnvVar E "$PATH:$PROJECT_ROOT/bin".toList baseDir =
        P ++ ":".toList ++ baseDir ++ "/bin".toList ∧
    ∀ value dir : Str, '$' ∉ value → expandEnvVar E value dir = value := by
  constructor
  · have hrep : strings.ReplaceAll "$PATH:$PROJECT_ROOT/bin".toList "$PROJECT_ROOT".toList baseDir
        = '$' :: ("PATH".toList ++ (':' :: (baseDir ++ "/bin".toList))) := rfl
    have hnd : '$' ∉ ':' :: (baseDir ++ "/bin".toList) := by
      intro h
      rcases List.mem_cons.mp h with h | h
      · revert h; decide
      · rcases List.mem_append.mp h with h | h
        · exact hb h
        · revert h; decide
    have hget : os.Getenv E "PATH".toList = P := by
      unfold os.Getenv os.LookupEnv
      rw [if_neg (by decide), hP]
      rfl
    unfold expandEnvVar
    simp only [hrep]
    show os.expandFrom (os.Getenv E) 0
        ('$' :: ("PATH".toList ++ (':' :: (baseDir ++ "/bin".toList)))) = _
    have hstep : os.expandFrom (os.Getenv E) 0
        ('$' :: ("PATH".toList ++ (':' :: (baseDir ++ "/bin".toList)))) =
        os.Getenv E "PATH".toList ++
          os.expandFrom (os.Getenv E) 0 (':' :: (baseDir ++ "/bin".toList)) := rfl
    rw [hstep, hget, expandFrom_of_no_dollar _ _ hnd]
    simp
  · intro value dir hv
    unfold expandEnvVar
    have hrep : strings.ReplaceAll value "$PROJECT_ROOT".toList dir = value :=
      replaceFrom_of_no_dollar "PROJECT_ROOT".toList dir value hv
    simp only [hrep]
    exact ExpandEnv_of_no_dollar E value hv

/-- Witness of C7 on the environment of `TestExpandEnvVar`, with `PROJECT_ROOT` set
to another directory in the process environment. -/
theorem expandEnvVar_order_witness :
    GoMap.get? [("PROJECT_ROOT".toList, "/elsewhere".toList),
        ("PATH".toList, "/usr/bin:/bin".toList)] "PATH".toList = some "/usr/bin:/bin".toList ∧
      '$' ∉ "/test/project".toList ∧
      expandEnvVar [("PROJECT_ROOT".toList, "/elsewhere".toList),
          ("PATH".toList, "/usr/bin:/bin".toList)] "$PATH:$PROJECT_ROOT/bin".toList
        "/test/project".toList = "/usr/bin:/bin:/test/project/bin".toList :=
  ⟨by decide, by decide,
    (expandEnvVar_order _ "/usr/bin:/bin".toList "/test/project".toList (by decide)
      (by decide)).1.trans (by decide)⟩

/-! ## The text `ExportForShell` emits -/

theorem foldl_append_map (f : Str × Str → Str) (L : List (Str × Str)) (init : List Str) :
    L.foldl (fun acc p => acc ++ [f p]) init = init ++ L.map f := by
  induction L generalizing init with
  | nil => simp
  | cons p L ih => simp [ih]

theorem Join_cons (a : Str) (l : List Str) (sep : Str) :
    strings.Join (a :: l) sep = a ++ (if l = [] then [] else sep ++ strings.Join l sep) := by
  cases l with
  | nil => simp [strings.Join]
  | cons b l => simp [strings.Join]

theorem infix_Join_of_mem (x : Str) (l : List Str) (sep : Str) (hx : x ∈ l) :
    x <:+: strings.Join l sep := by
  induction l with
  | nil => cases hx
  | cons a l ih =>
    rw [Join_cons]
    rcases List.mem_cons.mp hx with h | h
    · subst h
      exact ⟨[], (if l = [] then [] else sep ++ strings.Join l sep), by simp⟩
    · have hne : l ≠ [] := List.ne_nil_of_mem h
      rw [if_neg hne]
      obtain ⟨s, t, hst⟩ := ih h
      exact ⟨a ++ sep ++ s, t, by simp [← hst]⟩

/-- The slice `exports` at the end of `ExportForShell`, category by category. -/
theorem exportList_eq (E : GoMap) (cfg : Config) (baseDir shellType : Str) :
    exportList E cfg baseDir shellType =
      (if cfg.Hooks.PreApply ≠ [] then [hookBlock baseDir cfg.Hooks.PreApply] else []) ++
      cfg.Environment.map (fun p => exportLine E baseDir shellType p.1 p.2) ++
      cfg.Aliases.map (fun p => aliasLine p.1 p.2) ++
      cfg.Scripts.map (fun p => funcDef baseDir p.1 p.2) ++
      (if cfg.Hooks.PostApply ≠ [] then [hookBlock baseDir cfg.Hooks.PostApply] else []) := by
  unfold exportList
  simp only [foldl_append_map]
  by_cases h1 : cfg.Hooks.PreApply = [] <;> by_cases h2 : cfg.Hooks.PostApply = [] <;>
    simp [h1, h2]

theorem exportLine_mem (E : GoMap) (cfg : Config) (baseDir shellType k v : Str)
    (hkv : (k, v) ∈ cfg.Environment) :
    exportLine E baseDir shellType k v ∈ exportList E cfg baseDir shellType := by
  rw [exportList_eq]
  have : exportLine E baseDir shellType k v ∈
      cfg.Environment.map (fun p => exportLine E baseDir shellType p.1 p.2) :=
    List.mem_map.mpr ⟨(k, v), hkv, rfl⟩
  simp only [List.mem_append]
  exact Or.inl (Or.inl (Or.inl (Or.inr this)))

/-- C8. For every entry `(k, v)` of the environment table, the slice that
`ExportForShell` joins with newlines holds the assignment of `k` to
`Q = shellQuote(expandEnvVar(v, baseDir))`, in the form `set -gx k Q` for the
shell `fish` and `export k=Q` for every other shell, so the returned text
contains it; for the `plan` scenario and `bash` the text contains
`export CC='gcc-11'`. -/
theorem ExportForShell_assignment (E : GoMap) (cfg : Config) (baseDir shellType k v : Str)
    (hkv : (k, v) ∈ cfg.Environment) :
    (shellType = "fish".toList →
      ("set -gx ".toList ++ k ++ " ".toList ++ shellQuote (expandEnvVar E v baseDir))
          ∈ exportList E cfg baseDir shellType ∧
      ("set -gx ".toList ++ k ++ " ".toList ++ shellQuote (expandEnvVar E v baseDir))
          <:+: ExportForShell E cfg baseDir shellType) ∧
    (shellType ≠ "fish".toList →
      ("export ".toList ++ k ++ "=".toList ++ shellQuote (expandEnvVar E v baseDir))
          ∈ exportList E cfg baseDir shellType ∧
      ("export ".toList ++ k ++ "=".toList ++ shellQuote (expandEnvVar E v baseDir))
          <:+: ExportForShell E cfg baseDir shellType) ∧
    "export CC='gcc-11'".toList <:+: ExportForShell E exPlan baseDir "bash".toList := by
  have hmem := exportLine_mem E cfg baseDir shellType k v hkv
  refine ⟨fun hf => ?_, fun hf => ?_, ?_⟩
  · have hl : exportLine E baseDir shellType k v =
        "set -gx ".toList ++ k ++ " ".toList ++ shellQuote (expandEnvVar E v baseDir) := by
      simp only [exportLine, if_pos hf]
    rw [← hl]
    exact ⟨hmem, infix_Join_of_mem _ _ _ hmem⟩
  · have hl : exportLine E baseDir shellType k v =
        "export ".toList ++ k ++ "=".toList ++ shellQuote (expandEnvVar E v baseDir) := by
      simp only [exportLine, if_neg hf]
    rw [← hl]
    exact ⟨hmem, infix_Join_of_mem _ _ _ hmem⟩
  · have hcc : exportLine E baseDir "bash".toList "CC".toList "gcc-11".toList =
        "export CC='gcc-11'".toList := rfl
    rw [← hcc]
    exact infix_Join_of_mem _ _ _
      (exportLine_mem E exPlan baseDir "bash".toList "CC".toList "gcc-11".toList (by decide))

/-- Witness of C8 on the `plan` scenario, under `bash` and under `fish`. -/
theorem ExportForShell_assignment_witness :
    ("CC".toList, "gcc-11".toList) ∈ exPlan.Environment ∧
      "export CC='gcc-11'".toList <:+:
        ExportForShell [("PATH".toList, "/usr/bin".toList)] exPlan "/project".toList "bash".toList ∧
      "set -gx CC 'gcc-11'".toList ∈
        exportList [("PATH".toList, "/usr/bin".toList)] exPlan "/project".toList "fish".toList :=
  ⟨by decide,
    (ExportForShell_assignment [("PATH".toList, "/usr/bin".toList)] exPlan "/project".toList
      "bash".toList "CC".toList "gcc-11".toList (by decide)).2.2,
    ((ExportForShell_assignment [("PATH".toList, "/usr/bin".toList)] exPlan "/project".toList
      "fish".toList "CC".toList "gcc-11".toList (by decide)).1 rfl).1⟩

set_option maxRecDepth 16384 in
/-- C9. The returned text is the newline-joined concatenation of, in this order:
the pre-apply hook block, which is `(`, a line `cd` to the quoted base directory,
the indented hook and `)`, present exactly when the hook is non-empty; one
assignment per environment entry; one alias definition per alias; one function
definition per script, which is `name() {`, the line that sets `PROJECT_ROOT`,
a subshell that changes to the project root, passes the arguments on and runs
the indented script, and `}`; and the post-apply hook block, present exactly
when the hook is non-empty.  The categories are contiguous and in this order,
so no assignment follows an alias or a function definition and no alias follows
a function definition.  A configuration with no entries and no pre- or
post-apply hook yields the empty string.  The whole text is evaluated on the
configuration `exFull`, for `bash` and for `fish`. -/
theorem ExportForShell_layout (E : GoMap) (cfg : Config) (baseDir shellType : Str) :
    ExportForShell E cfg baseDir shellType =
      strings.Join
        ((if cfg.Hooks.PreApply ≠ [] then
            ["(\n    cd ".toList ++ shellQuote baseDir ++ "\n".toList ++
              indent cfg.Hooks.PreApply "    ".toList ++ "\n)".toList]
          else []) ++
          cfg.Environment.map (fun p =>
            if shellType = "fish".toList then
              "set -gx ".toList ++ p.1 ++ " ".toList ++ shellQuote (expandEnvVar E p.2 baseDir)
            else
              "export ".toList ++ p.1 ++ "=".toList ++ shellQuote (expandEnvVar E p.2 baseDir)) ++
          cfg.Aliases.map (fun p => "alias ".toList ++ p.1 ++ "=".toList ++ shellQuote p.2) ++
          cfg.Scripts.map (fun p =>
            p.1 ++ "() \x7b\n    local PROJECT_ROOT=".toList ++ shellQuote baseDir ++
              "\n    (\n        cd \"$PROJECT_ROOT\"\n        set -- \"$@\"\n".toList ++
              indent p.2 "        ".toList ++ "\n    )\n\x7d".toList) ++
          (if cfg.Hooks.PostApply ≠ [] then
            ["(\n    cd ".toList ++ shellQuote baseDir ++ "\n".toList ++
              indent cfg.Hooks.PostApply "    ".toList ++ "\n)".toList]
          else []))
        "\n".toList ∧
    (∀ s pre : Str, indent s pre =
      strings.Join
        ((strings.Split s "\n".toList).map (fun line => if line ≠ [] then pre ++ line else line))
        "\n".toList) ∧
    (∀ (autoApply : Bool) (onLeave : Str),
      ExportForShell E
        { AutoApply := autoApply, Environment := [], Aliases := [], Scripts := [],
          Hooks := { PreApply := [], PostApply := [], OnLeave := onLeave } }
        baseDir shellType = []) ∧
    ExportForShell [("PATH".toList, "/usr/bin".toList)] exFull "/project".toList "bash".toList =
      ("(\n    cd '/project'\n    echo pre\n    echo start\n)\n" ++
        "export CC='gcc-11'\n" ++
        "alias ll='ls -la'\n" ++
        "build() \x7b\n    local PROJECT_ROOT='/project'\n    (\n" ++
        "        cd \"$PROJECT_ROOT\"\n        set -- \"$@\"\n" ++
        "        echo one\n\n        echo two\n    )\n\x7d\n" ++
        "(\n    cd '/project'\n    echo post\n)").toList ∧
    ExportForShell [("PATH".toList, "/usr/bin".toList)]
        { exFull with Scripts := [], Hooks := { PreApply := [], PostApply := [], OnLeave := [] } }
        "/project".toList "fish".toList =
      "set -gx CC 'gcc-11'\nalias ll='ls -la'".toList := by
  refine ⟨?_, fun _ _ => rfl, fun _ _ => rfl, by decide, by decide⟩
  unfold ExportForShell
  rw [exportList_eq]
  rfl

/-- C10, the claim as stated fails: `exOrderA` and `exOrderB` are the same
configuration (the same entries in every map, the same hooks) visited in two
iteration orders, and `ExportForShell` returns two different texts for them. -/
theorem ExportForShell_order_dependent :
    exOrderA.WF ∧ exOrderB.WF ∧
    exOrderA.Environment.Perm exOrderB.Environment ∧
    exOrderA.Aliases = exOrderB.Aliases ∧ exOrderA.Scripts = exOrderB.Scripts ∧
    exOrderA.Hooks = exOrderB.Hooks ∧
    ExportForShell [("PATH".toList, "/usr/bin".toList)] exOrderA "/project".toList "bash".toList ≠
      ExportForShell [("PATH".toList, "/usr/bin".toList)] exOrderB "/project".toList
        "bash".toList := by
  decide

/-- C10, amended. The text is determined up to the order of the entries inside
each category: two iteration orders of the same three maps (with the same
hooks) give the same hook blocks around, category by category, the same
assignments, alias definitions and function definitions, in the order in which
each map was iterated. -/
theorem ExportForShell_up_to_order (E : GoMap) (cfg cfg' : Config) (baseDir shellType : Str)
    (hEnv : cfg.Environment.Perm cfg'.Environment) (hAl : cfg.Aliases.Perm cfg'.Aliases)
    (hSc : cfg.Scripts.Perm cfg'.Scripts) (hH : cfg.Hooks = cfg'.Hooks) :
    exportList E cfg baseDir shellType =
      (if cfg.Hooks.PreApply ≠ [] then [hookBlock baseDir cfg.Hooks.PreApply] else []) ++
      cfg.Environment.map (fun p => exportLine E baseDir shellType p.1 p.2) ++
      cfg.Aliases.map (fun p => aliasLine p.1 p.2) ++
      cfg.Scripts.map (fun p => funcDef baseDir p.1 p.2) ++
      (if cfg.Hooks.PostApply ≠ [] then [hookBlock baseDir cfg.Hooks.PostApply] else []) ∧
    exportList E cfg' baseDir shellType =
      (if cfg.Hooks.PreApply ≠ [] then [hookBlock baseDir cfg.Hooks.PreApply] else []) ++
      cfg'.Environment.map (fun p => exportLine E baseDir shellType p.1 p.2) ++
      cfg'.Aliases.map (fun p => aliasLine p.1 p.2) ++
      cfg'.Scripts.map (fun p => funcDef baseDir p.1 p.2) ++
      (if cfg.Hooks.PostApply ≠ [] then [hookBlock baseDir cfg.Hooks.PostApply] else []) ∧
    (cfg.Environment.map (fun p => exportLine E baseDir shellType p.1 p.2)).Perm
      (cfg'.Environment.map (fun p => exportLine E baseDir shellType p.1 p.2)) ∧
    (cfg.Aliases.map (fun p => aliasLine p.1 p.2)).Perm
      (cfg'.Aliases.map (fun p => aliasLine p.1 p.2)) ∧
    (cfg.Scripts.map (fun p => funcDef baseDir p.1 p.2)).Perm
      (cfg'.Scripts.map (fun p => funcDef baseDir p.1 p.2)) ∧
    (exportList E cfg baseDir shellType).Perm (exportList E cfg' baseDir shellType) := by
  have e1 := hEnv.map (fun p : Str × Str => exportLine E baseDir shellType p.1 p.2)
  have e2 := hAl.map (fun p : Str × Str => aliasLine p.1 p.2)
  have e3 := hSc.map (fun p : Str × Str => funcDef baseDir p.1 p.2)
  refine ⟨exportList_eq E cfg baseDir shellType, ?_, e1, e2, e3, ?_⟩
  · rw [exportList_eq, hH]
  · rw [exportList_eq, exportList_eq, hH]
    exact ((((List.Perm.refl _).append e1).append e2).append e3).append (List.Perm.refl _)

/-- Witness of C10 (amended) on the two iteration orders of `TestExportForShell`. -/
theorem ExportForShell_up_to_order_witness :
    exOrderA.Environment.Perm exOrderB.Environment ∧ exOrderA.Aliases.Perm exOrderB.Aliases ∧
      exOrderA.Scripts.Perm exOrderB.Scripts ∧ exOrderA.Hooks = exOrderB.Hooks ∧
      (exportList [("PATH".toList, "/usr/bin".toList)] exOrderA "/project".toList
          "bash".toList).Perm
        (exportList [("PATH".toList, "/usr/bin".toList)] exOrderB "/project".toList
          "bash".toList) :=
  ⟨by decide, by decide, by decide, by decide,
    (ExportForShell_up_to_order [("PATH".toList, "/usr/bin".toList)] exOrderA exOrderB
      "/project".toList "bash".toList (by decide) (by decide) (by decide)
      (by decide)).2.2.2.2.2⟩

/-- Read by the POSIX quoting rules, the quoted form of a string is that one string. -/
theorem words_shellQuote (s : Str) : Posix.words (shellQuote s) = some [s] := by
  have h3 : ¬ (Char.ofNat 39 = ' ' ∨ Char.ofNat 39 = '\t' ∨ Char.ofNat 39 = '\n') := by decide
  have hq : shellQuote s =
      Char.ofNat 39 :: (strings.replaceFrom [Char.ofNat 39]
          [Char.ofNat 39, Char.ofNat 34, Char.ofNat 39, Char.ofNat 34, Char.ofNat 39] 0 s ++
        [Char.ofNat 39]) := rfl
  rw [hq]
  unfold Posix.words
  simp only [Posix.scan, h3, if_false, if_true, Option.getD_none]
  exact (scan_quoted s []).trans (by simp)

theorem aliasLine_mem (E : GoMap) (cfg : Config) (baseDir shellType name command : Str)
    (h : (name, command) ∈ cfg.Aliases) :
    aliasLine name command ∈ exportList E cfg baseDir shellType := by
  rw [exportList_eq]
  have : aliasLine name command ∈ cfg.Aliases.map (fun p => aliasLine p.1 p.2) :=
    List.mem_map.mpr ⟨(name, command), h, rfl⟩
  simp only [List.mem_append]
  exact Or.inl (Or.inl (Or.inr this))

/-- C11. For every alias `(name, command)` of the configuration, the slice that
`ExportForShell` joins with newlines holds `alias name=` followed by
`shellQuote(command)`, so the returned text contains it.  The command is the
configured string itself: the shell reads the quoted word back as `command`, for
every process environment and base directory, so `$PROJECT_ROOT` and `$NAME`
inside it are emitted unchanged; `ll = "ls -la"` yields `alias ll='ls -la'`. -/
theorem ExportForShell_alias (E : GoMap) (cfg : Config) (baseDir shellType name command : Str)
    (h : (name, command) ∈ cfg.Aliases) :
    ("alias ".toList ++ name ++ "=".toList ++ shellQuote command)
        ∈ exportList E cfg baseDir shellType ∧
    ("alias ".toList ++ name ++ "=".toList ++ shellQuote command)
        <:+: ExportForShell E cfg baseDir shellType ∧
    Posix.words (shellQuote command) = some [command] ∧
    "alias ll='ls -la'".toList <:+: ExportForShell E exAlias baseDir shellType ∧
    "alias root='cd $PROJECT_ROOT/$NAME'".toList <:+: ExportForShell E exAlias baseDir shellType := by
  have hmem := aliasLine_mem E cfg baseDir shellType name command h
  have h1 : aliasLine "ll".toList "ls -la".toList = "alias ll='ls -la'".toList := by decide
  have h2 : aliasLine "root".toList "cd $PROJECT_ROOT/$NAME".toList =
      "alias root='cd $PROJECT_ROOT/$NAME'".toList := by decide
  refine ⟨hmem, infix_Join_of_mem _ _ _ hmem, words_shellQuote command, ?_, ?_⟩
  · rw [← h1]
    exact infix_Join_of_mem _ _ _
      (aliasLine_mem E exAlias baseDir shellType _ _ (by decide))
  · rw [← h2]
    exact infix_Join_of_mem _ _ _
      (aliasLine_mem E exAlias baseDir shellType _ _ (by decide))

/-- Witness of C11 on the alias of `TestExportForShell`, in an environment where
`NAME` and `PROJECT_ROOT` are set. -/
theorem ExportForShell_alias_witness :
    ("root".toList, "cd $PROJECT_ROOT/$NAME".toList) ∈ exAlias.Aliases ∧
      "alias root='cd $PROJECT_ROOT/$NAME'".toList <:+:
        ExportForShell [("NAME".toList, "x".toList), ("PROJECT_ROOT".toList, "/other".toList)]
          exAlias "/project".toList "bash".toList :=
  ⟨by decide,
    (ExportForShell_alias [("NAME".toList, "x".toList), ("PROJECT_ROOT".toList, "/other".toList)]
      exAlias "/project".toList "bash".toList "root".toList "cd $PROJECT_ROOT/$NAME".toList
      (by decide)).2.1⟩

/-! ## Ordering of strings and sorted slices -/

theorem strLess_irrefl (a : Str) : strLess a a = false := by
  induction a with
  | nil => rfl
  | cons c cs ih => simp [strLess, ih]

theorem strLess_trans (a b c : Str) (hab : strLess a b = true) (hbc : strLess b c = true) :
    strLess a c = true := by
  induction a generalizing b c with
  | nil =>
    cases b with
    | nil => simp [strLess] at hab
    | cons y ys =>
      cases c with
      | nil => simp [strLess] at hbc
      | cons z zs => rfl
  | cons x xs ih =>
    cases b with
    | nil => simp [strLess] at hab
    | cons y ys =>
      cases c with
      | nil => simp [strLess] at hbc
      | cons z zs =>
        simp only [strLess] at hab hbc ⊢
        rcases lt_trichotomy x y with hxy | hxy | hxy
        · rcases lt_trichotomy y z with hyz | hyz | hyz
          · simp [lt_trans hxy hyz]
          · subst hyz; simp [hxy]
          · simp [hyz, not_lt_of_gt hyz] at hbc
        · subst hxy
          rcases lt_trichotomy x z with hyz | hyz | hyz
          · simp [hyz]
          · subst hyz
            simp only [lt_irrefl, if_false] at hab hbc ⊢
            exact ih ys zs hab hbc
          · simp [hyz, not_lt_of_gt hyz] at hbc
        · simp [hxy, not_lt_of_gt hxy] at hab

theorem strLess_total (a b : Str) (hne : a ≠ b) (hab : strLess a b = false) :
    strLess b a = true := by
  induction a generalizing b with
  | nil =>
    cases b with
    | nil => exact absurd rfl hne
    | cons y ys => simp [strLess] at hab
  | cons x xs ih =>
    cases b with
    | nil => rfl
    | cons y ys =>
      simp only [strLess] at hab ⊢
      rcases lt_trichotomy x y with hxy | hxy | hxy
      · simp [hxy] at hab
      · subst hxy
        simp only [lt_irrefl, if_false] at hab ⊢
        exact ih ys (fun e => hne (by rw [e])) hab
      · simp [hxy]

namespace sort

theorem perm_insertSorted {α : Type} (less : α → α → Bool) (x : α) (l : List α) :
    (insertSorted less x l).Perm (x :: l) := by
  induction l with
  | nil => exact List.Perm.refl _
  | cons y ys ih =>
    by_cases h : less x y = true
    · simp [insertSorted, h]
    · simp only [insertSorted, h]
      exact (List.Perm.cons y ih).trans (List.Perm.swap x y ys)

theorem perm_Slice {α : Type} (less : α → α → Bool) (l : List α) : (Slice l less).Perm l := by
  induction l with
  | nil => exact List.Perm.refl _
  | cons x xs ih =>
    exact (perm_insertSorted less x (Slice xs less)).trans (List.Perm.cons x ih)

theorem pairwise_insertSorted {α : Type} (key : α → Str) (x : α) (l : List α)
    (hl : l.Pairwise (fun a b => strLess (key a) (key b) = true))
    (hx : ∀ y ∈ l, key x ≠ key y) :
    (insertSorted (fun a b => strLess (key a) (key b)) x l).Pairwise
      (fun a b => strLess (key a) (key b) = true) := by
  induction l with
  | nil => simp [insertSorted]
  | cons y ys ih =>
    have hy := List.pairwise_cons.mp hl
    by_cases h : strLess (key x) (key y) = true
    · simp only [insertSorted, h, if_true]
      refine List.pairwise_cons.mpr ⟨?_, hl⟩
      intro z hz
      rcases List.mem_cons.mp hz with e | hz'
      · rw [e]; exact h
      · exact strLess_trans _ _ _ h (hy.1 z hz')
    · simp only [insertSorted, h]
      have hyx : strLess (key y) (key x) = true :=
        strLess_total (key x) (key y) (hx y (List.mem_cons_self _ _)) (by simpa using h)
      refine List.pairwise_cons.mpr ⟨?_, ih hy.2 (fun z hz => hx z (List.mem_cons_of_mem _ hz))⟩
      intro z hz
      have hz' : z ∈ x :: ys := (perm_insertSorted _ x ys).subset hz
      rcases List.mem_cons.mp hz' with e | hz''
      · rw [e]; exact hyx
      · exact hy.1 z hz''

/-- Sorting a slice with pairwise distinct keys yields a strictly ascending slice. -/
theorem pairwise_Slice {α : Type} (key : α → Str) (l : List α) (hl : (l.map key).Nodup) :
    (Slice l (fun a b => strLess (key a) (key b))).Pairwise
      (fun a b => strLess (key a) (key b) = true) := by
  induction l with
  | nil => exact List.Pairwise.nil
  | cons x xs ih =>
    have hnd := List.nodup_cons.mp hl
    refine pairwise_insertSorted key x _ (ih hnd.2) ?_
    intro y hy e
    have hy' : y ∈ xs := (perm_Slice _ xs).subset hy
    exact hnd.1 (e ▸ List.mem_map_of_mem key hy')

/-- Two strictly ascending arrangements of the same elements are equal. -/
theorem eq_of_perm_of_ascending {α : Type} (key : α → Str) (l₁ l₂ : List α)
    (hp : l₁.Perm l₂)
    (h₁ : l₁.Pairwise (fun a b => strLess (key a) (key b) = true))
    (h₂ : l₂.Pairwise (fun a b => strLess (key a) (key b) = true)) : l₁ = l₂ := by
  haveI : IsAntisymm α (fun a b => strLess (key a) (key b) = true) :=
    ⟨fun a b hab hba => by
      have := strLess_trans _ _ _ hab hba
      rw [strLess_irrefl] at this
      cases this⟩
  exact List.eq_of_perm_of_sorted hp h₁ h₂

/-- The sorted slice does not depend on the order of the input when the keys are
pairwise distinct. -/
theorem Slice_perm_eq {α : Type} (key : α → Str) (l₁ l₂ : List α) (hp : l₁.Perm l₂)
    (hl : (l₁.map key).Nodup) :
    Slice l₁ (fun a b => strLess (key a) (key b)) =
      Slice l₂ (fun a b => strLess (key a) (key b)) := by
  have hl₂ : (l₂.map key).Nodup := (hp.map key).nodup_iff.mp hl
  exact eq_of_perm_of_ascending key _ _
    (((perm_Slice _ l₁).trans hp).trans (perm_Slice _ l₂).symm)
    (pairwise_Slice key l₁ hl) (pairwise_Slice key l₂ hl₂)

end sort

/-! ## The diff report -/

theorem foldl_append_singleton {α β : Type} (f : α → β) (L : List α) (init : List β) :
    L.foldl (fun acc p => acc ++ [f p]) init = init ++ L.map f := by
  induction L generalizing init with
  | nil => simp
  | cons p L ih => simp [ih]

theorem GenerateDiff_Aliases (E : GoMap) (cfg : Config) (baseDir : Str) :
    (GenerateDiff E cfg baseDir).Aliases =
      sort.Slice
        (cfg.Aliases.map (fun p =>
          ({ Name := p.1, OldValue := [], NewValue := p.2, Kind := DiffType.Added } : AliasDiff)))
        (fun a b => strLess a.Name b.Name) := by
  unfold GenerateDiff
  simp only [foldl_append_singleton, List.nil_append]

theorem GenerateDiff_Scripts (E : GoMap) (cfg : Config) (baseDir : Str) :
    (GenerateDiff E cfg baseDir).Scripts =
      sort.Slice
        (cfg.Scripts.map (fun p =>
          ({ Name := p.1, Content := p.2, Kind := DiffType.Added } : ScriptDiff)))
        (fun a b => strLess a.Name b.Name) := by
  unfold GenerateDiff
  simp only [foldl_append_singleton, List.nil_append]

/-- C13. `GenerateDiff` returns in `Aliases` exactly one entry per configured alias,
an Added entry whose `NewValue` is the configured command, in strictly ascending
order of `Name`, and in `Scripts` exactly one entry per configured script, an
Added entry whose `Content` is the configured body, in strictly ascending order
of `Name`.  Both lists are the same in every process environment, for every base
directory and for every order in which the two maps are iterated. -/
theorem GenerateDiff_aliases_scripts (E : GoMap) (cfg : Config) (baseDir : Str)
    (hA : cfg.Aliases.WF) (hS : cfg.Scripts.WF) :
    ((GenerateDiff E cfg baseDir).Aliases.Perm
      (cfg.Aliases.map (fun p =>
        ({ Name := p.1, OldValue := [], NewValue := p.2, Kind := DiffType.Added } : AliasDiff)))) ∧
    (GenerateDiff E cfg baseDir).Aliases.Pairwise (fun a b => strLess a.Name b.Name = true) ∧
    ((GenerateDiff E cfg baseDir).Scripts.Perm
      (cfg.Scripts.map (fun p =>
        ({ Name := p.1, Content := p.2, Kind := DiffType.Added } : ScriptDiff)))) ∧
    (GenerateDiff E cfg baseDir).Scripts.Pairwise (fun a b => strLess a.Name b.Name = true) ∧
    (∀ (E' : GoMap) (cfg' : Config) (baseDir' : Str),
      cfg'.Aliases.Perm cfg.Aliases → cfg'.Scripts.Perm cfg.Scripts →
      (GenerateDiff E' cfg' baseDir').Aliases = (GenerateDiff E cfg baseDir).Aliases ∧
      (GenerateDiff E' cfg' baseDir').Scripts = (GenerateDiff E cfg baseDir).Scripts) := by
  have kA : ∀ c : Config, (c.Aliases.map (fun p =>
      ({ Name := p.1, OldValue := [], NewValue := p.2, Kind := DiffType.Added } : AliasDiff))).map
        (fun a => a.Name) = c.Aliases.keys := by
    intro c; simp [GoMap.keys, List.map_map, Function.comp_def]
  have kS : ∀ c : Config, (c.Scripts.map (fun p =>
      ({ Name := p.1, Content := p.2, Kind := DiffType.Added } : ScriptDiff))).map
        (fun a => a.Name) = c.Scripts.keys := by
    intro c; simp [GoMap.keys, List.map_map, Function.comp_def]
  have nA : ((cfg.Aliases.map (fun p =>
      ({ Name := p.1, OldValue := [], NewValue := p.2, Kind := DiffType.Added } : AliasDiff))).map
        (fun a => a.Name)).Nodup := by rw [kA]; exact hA
  have nS : ((cfg.Scripts.map (fun p =>
      ({ Name := p.1, Content := p.2, Kind := DiffType.Added } : ScriptDiff))).map
        (fun a => a.Name)).Nodup := by rw [kS]; exact hS
  refine ⟨?_, ?_, ?_, ?_, ?_⟩
  · rw [GenerateDiff_Aliases]; exact sort.perm_Slice _ _
  · rw [GenerateDiff_Aliases]; exact sort.pairwise_Slice (fun a : AliasDiff => a.Name) _ nA
  · rw [GenerateDiff_Scripts]; exact sort.perm_Slice _ _
  · rw [GenerateDiff_Scripts]; exact sort.pairwise_Slice (fun a : ScriptDiff => a.Name) _ nS
  · intro E' cfg' baseDir' pA pS
    constructor
    · rw [GenerateDiff_Aliases, GenerateDiff_Aliases]
      exact (sort.Slice_perm_eq (fun a : AliasDiff => a.Name) _ _ ((pA.map _).symm) nA).symm
    · rw [GenerateDiff_Scripts, GenerateDiff_Scripts]
      exact (sort.Slice_perm_eq (fun a : ScriptDiff => a.Name) _ _ ((pS.map _).symm) nS).symm

/-- Witness of C13: two aliases and two scripts configured in descending order of
name are reported in ascending order. -/
theorem GenerateDiff_aliases_scripts_witness :
    exTwoAliases.Aliases.WF ∧ exTwoAliases.Scripts.WF ∧
      (GenerateDiff exDiffEnv exTwoAliases "/test".toList).Aliases =
        [{ Name := "build".toList, OldValue := [], NewValue := "make build".toList,
           Kind := DiffType.Added },
         { Name := "test".toList, OldValue := [], NewValue := "go test ./...".toList,
           Kind := DiffType.Added }] ∧
      (GenerateDiff exDiffEnv exTwoAliases "/test".toList).Scripts.Pairwise
        (fun a b => strLess a.Name b.Name = true) :=
  ⟨by decide, by decide, by decide,
    (GenerateDiff_aliases_scripts exDiffEnv exTwoAliases "/test".toList (by decide)
      (by decide)).2.2.2.1⟩

/-- The classification loop of `GenerateDiff` keeps, in order, the entries of the
keys that classify. -/
theorem envDiffLoop_eq (currentEnv targetEnv : GoMap) (keys : List Str) :
    envDiffLoop currentEnv targetEnv keys = keys.filterMap (classifyKey currentEnv targetEnv) := by
  unfold envDiffLoop
  suffices h : ∀ init : List EnvDiff,
      keys.foldl
        (fun diff key =>
          match currentEnv.get? key, targetEnv.get? key with
          | none, some targetVal =>
            diff ++ [{ Key := key, OldValue := [], NewValue := targetVal, Kind := DiffType.Added }]
          | some currentVal, some targetVal =>
            if currentVal ≠ targetVal then
              diff ++ [{ Key := key, OldValue := currentVal, NewValue := targetVal,
                         Kind := DiffType.Modified }]
            else diff
          | _, none => diff)
        init =
      init ++ keys.filterMap (classifyKey currentEnv targetEnv) by
    simpa using h []
  induction keys with
  | nil => intro init; simp
  | cons k ks ih =>
    intro init
    rw [List.foldl_cons, ih, List.filterMap_cons]
    unfold classifyKey
    cases hc : currentEnv.get? k <;> cases ht : targetEnv.get? k <;> simp
    split <;> simp

theorem currentEnv_fold (E : GoMap) (hN : ∀ p ∈ E, '=' ∉ p.1) (m : GoMap) :
    (os.Environ E).foldl
        (fun m env =>
          match strings.SplitN env "=".toList 2 with
          | [k, v] => GoMap.set m k v
          | _ => m)
        m =
      GoMap.copyInto m E := by
  induction E generalizing m with
  | nil => rfl
  | cons p E ih =>
    have hp : '=' ∉ p.1 := hN p (List.mem_cons_self _ _)
    have hE' : ∀ q ∈ E, '=' ∉ q.1 := fun q hq => hN q (List.mem_cons_of_mem _ hq)
    simp only [os.Environ, List.map_cons, List.foldl_cons, SplitN_entry p.1 p.2 hp]
    exact (ih hE' _).trans rfl

/-- The map `currentEnv` of `GenerateDiff` is the process environment. -/
theorem currentEnvOf_eq (E : GoMap) (hE : E.WF) (hN : ∀ p ∈ E, '=' ∉ p.1) :
    currentEnvOf E = E := by
  unfold currentEnvOf
  rw [currentEnv_fold E hN, GoMap.copyInto_append E [] hE (by simp [GoMap.keys])]
  rfl

theorem get?_map_values (f : Str → Str) (m : GoMap) (k : Str) :
    GoMap.get? (m.map (fun p => (p.1, f p.2))) k = (GoMap.get? m k).map f := by
  induction m with
  | nil => rfl
  | cons p m ih =>
    rw [List.map_cons, GoMap.get?_cons, GoMap.get?_cons]
    by_cases h : p.1 = k
    · simp [h]
    · simp [h, ih]

theorem targetEnv_fold (f : Str → Str) (L : GoMap) (m : GoMap) :
    L.foldl (fun m p => GoMap.set m p.1 (f p.2)) m =
      GoMap.copyInto m (L.map (fun p => (p.1, f p.2))) := by
  induction L generalizing m with
  | nil => rfl
  | cons p L ih =>
    rw [List.foldl_cons, ih]
    rfl

/-- The map `targetEnv` of `GenerateDiff` holds every configured key with its
expanded value. -/
theorem targetEnvOf_get? (E : GoMap) (cfg : Config) (baseDir : Str) (hC : cfg.Environment.WF)
    (k : Str) :
    (targetEnvOf E cfg baseDir).get? k =
      (cfg.Environment.get? k).map (fun v => expandEnvVar E v baseDir) := by
  have hwf : GoMap.WF (cfg.Environment.map (fun p => (p.1, expandEnvVar E p.2 baseDir))) := by
    unfold GoMap.WF GoMap.keys
    rw [List.map_map]
    exact hC
  have hfold : targetEnvOf E cfg baseDir =
      GoMap.copyInto [] (cfg.Environment.map (fun p => (p.1, expandEnvVar E p.2 baseDir))) :=
    targetEnv_fold (fun v => expandEnvVar E v baseDir) cfg.Environment []
  rw [hfold, GoMap.get?_copyInto _ hwf,
    get?_map_values (fun v => expandEnvVar E v baseDir) cfg.Environment k]
  cases cfg.Environment.get? k <;> rfl

theorem mem_addKey (keys : List Str) (key x : Str) :
    x ∈ addKey keys key ↔ x ∈ keys ∨ x = key := by
  unfold addKey
  by_cases h : key ∈ keys
  · rw [if_pos h]
    constructor
    · exact Or.inl
    · rintro (h' | h')
      · exact h'
      · rw [h']; exact h
  · rw [if_neg h]; simp

theorem nodup_addKey (keys : List Str) (key : Str) (hk : keys.Nodup) :
    (addKey keys key).Nodup := by
  unfold addKey
  by_cases h : key ∈ keys
  · rw [if_pos h]; exact hk
  · rw [if_neg h]
    exact List.nodup_append.mpr ⟨hk, List.nodup_singleton _, by
      intro a ha hb
      rw [List.mem_singleton.mp hb] at ha
      exact h ha⟩

theorem mem_foldl_addKey (m : GoMap) (init : List Str) (x : Str) :
    x ∈ m.foldl (fun s p => addKey s p.1) init ↔ x ∈ init ∨ x ∈ m.keys := by
  induction m generalizing init with
  | nil => simp [GoMap.keys]
  | cons p m ih =>
    rw [List.foldl_cons, ih, mem_addKey]
    simp only [GoMap.keys, List.map_cons, List.mem_cons]
    tauto

theorem nodup_foldl_addKey (m : GoMap) (init : List Str) (hi : init.Nodup) :
    (m.foldl (fun s p => addKey s p.1) init).Nodup := by
  induction m generalizing init with
  | nil => exact hi
  | cons p m ih =>
    rw [List.foldl_cons]
    exact ih _ (nodup_addKey init p.1 hi)

theorem mem_allEnvKeysOf (currentEnv targetEnv : GoMap) (x : Str) :
    x ∈ allEnvKeysOf currentEnv targetEnv ↔ x ∈ currentEnv.keys ∨ x ∈ targetEnv.keys := by
  unfold allEnvKeysOf
  simp only [mem_foldl_addKey]
  simp

theorem nodup_allEnvKeysOf (currentEnv targetEnv : GoMap) :
    (allEnvKeysOf currentEnv targetEnv).Nodup := by
  unfold allEnvKeysOf
  exact nodup_foldl_addKey _ _ (nodup_foldl_addKey _ _ List.nodup_nil)

theorem classifyKey_key (currentEnv targetEnv : GoMap) (key : Str) (d : EnvDiff)
    (h : classifyKey currentEnv targetEnv key = some d) : d.Key = key := by
  unfold classifyKey at h
  cases hc : currentEnv.get? key <;> cases ht : targetEnv.get? key <;> simp [hc, ht] at h
  · rw [← h]
  · rw [← h.2]

theorem nodup_keys_filterMap_classify (currentEnv targetEnv : GoMap) (keys : List Str)
    (hk : keys.Nodup) :
    ((keys.filterMap (classifyKey currentEnv targetEnv)).map (fun d => d.Key)).Nodup := by
  induction keys with
  | nil => exact List.nodup_nil
  | cons k ks ih =>
    have hnd := List.nodup_cons.mp hk
    rw [List.filterMap_cons]
    cases hc : classifyKey currentEnv targetEnv k with
    | none => exact ih hnd.2
    | some d =>
      simp only [List.map_cons]
      refine List.nodup_cons.mpr ⟨?_, ih hnd.2⟩
      intro hmem
      obtain ⟨d', hd', hkey⟩ := List.mem_map.mp hmem
      obtain ⟨k', hk', hcl⟩ := List.mem_filterMap.mp hd'
      have e1 := classifyKey_key _ _ _ _ hcl
      have e2 := classifyKey_key _ _ _ _ hc
      have : k' = k := by rw [← e1, hkey, e2]
      exact hnd.1 (this ▸ hk')

/-- The classification of a key in terms of the process environment and the
configured table. -/
theorem classifyKey_iff (E : GoMap) (cfg : Config) (baseDir : Str) (hC : cfg.Environment.WF)
    (k : Str) (d : EnvDiff) :
    classifyKey E (targetEnvOf E cfg baseDir) k = some d ↔
      ∃ v, cfg.Environment.get? k = some v ∧
        ((E.get? k = none ∧
            d = { Key := k, OldValue := [], NewValue := expandEnvVar E v baseDir,
                  Kind := DiffType.Added }) ∨
          (∃ c, E.get? k = some c ∧ c ≠ expandEnvVar E v baseDir ∧
            d = { Key := k, OldValue := c, NewValue := expandEnvVar E v baseDir,
                  Kind := DiffType.Modified })) := by
  unfold classifyKey
  rw [targetEnvOf_get? E cfg baseDir hC k]
  cases hc : E.get? k <;> cases ht : cfg.Environment.get? k
  · simp
  · simp [eq_comm]
  · simp
  · rename_i c v
    by_cases hcv : c = expandEnvVar E v baseDir
    · simp [hcv]
    · simp [hcv, eq_comm]

/-- C12. In a process environment `E` and for a configuration with table
`cfg.Environment`, the `Environment` list of `GenerateDiff` is strictly ascending
in `Key` (so no key is repeated) and holds exactly: an Added entry with
`NewValue = t` for each configured key that `E` does not set, and a Modified entry
with `OldValue` the current value and `NewValue = t` for each configured key that
`E` sets to a value other than `t`, where `t` is the expanded configured value.
So a configured key whose current value is `t` and a key only `E` has get no
entry, and no entry is Removed or Unchanged.  The list is the same for every order
in which the key set is iterated.  On the data of `TestGenerateDiff` the list is
Modified `TEST_EXISTING`, then Added `TEST_NEW`. -/
theorem GenerateDiff_environment (E : GoMap) (cfg : Config) (baseDir : Str)
    (hE : E.WF) (hN : ∀ p ∈ E, '=' ∉ p.1) (hC : cfg.Environment.WF) :
    (GenerateDiff E cfg baseDir).Environment.Pairwise (fun a b => strLess a.Key b.Key = true) ∧
    (∀ d : EnvDiff, d ∈ (GenerateDiff E cfg baseDir).Environment ↔
      ∃ k v, cfg.Environment.get? k = some v ∧
        ((E.get? k = none ∧
            d = { Key := k, OldValue := [], NewValue := expandEnvVar E v baseDir,
                  Kind := DiffType.Added }) ∨
          (∃ c, E.get? k = some c ∧ c ≠ expandEnvVar E v baseDir ∧
            d = { Key := k, OldValue := c, NewValue := expandEnvVar E v baseDir,
                  Kind := DiffType.Modified }))) ∧
    (∀ d ∈ (GenerateDiff E cfg baseDir).Environment,
      d.Kind ≠ DiffType.Removed ∧ d.Kind ≠ DiffType.Unchanged) ∧
    (∀ keys : List Str,
      keys.Perm (allEnvKeysOf (currentEnvOf E) (targetEnvOf E cfg baseDir)) →
      sort.Slice (envDiffLoop (currentEnvOf E) (targetEnvOf E cfg baseDir) keys)
          (fun a b => strLess a.Key b.Key) =
        (GenerateDiff E cfg baseDir).Environment) ∧
    (GenerateDiff exDiffEnv exDiffCfg "/test".toList).Environment =
      [{ Key := "TEST_EXISTING".toList, OldValue := "old_value".toList,
         NewValue := "new_value".toList, Kind := DiffType.Modified },
       { Key := "TEST_NEW".toList, OldValue := [], NewValue := "added_value".toList,
         Kind := DiffType.Added }] := by
  have hcur := currentEnvOf_eq E hE hN
  have hD : (GenerateDiff E cfg baseDir).Environment =
      sort.Slice ((allEnvKeysOf E (targetEnvOf E cfg baseDir)).filterMap
          (classifyKey E (targetEnvOf E cfg baseDir)))
        (fun a b => strLess a.Key b.Key) := by
    show sort.Slice (envDiffLoop (currentEnvOf E) (targetEnvOf E cfg baseDir)
        (allEnvKeysOf (currentEnvOf E) (targetEnvOf E cfg baseDir))) _ = _
    rw [hcur, envDiffLoop_eq]
  have hnd := nodup_keys_filterMap_classify E (targetEnvOf E cfg baseDir) _
    (nodup_allEnvKeysOf E (targetEnvOf E cfg baseDir))
  have hmem : ∀ d : EnvDiff, d ∈ (GenerateDiff E cfg baseDir).Environment ↔
      ∃ k v, cfg.Environment.get? k = some v ∧
        ((E.get? k = none ∧
            d = { Key := k, OldValue := [], NewValue := expandEnvVar E v baseDir,
                  Kind := DiffType.Added }) ∨
          (∃ c, E.get? k = some c ∧ c ≠ expandEnvVar E v baseDir ∧
            d = { Key := k, OldValue := c, NewValue := expandEnvVar E v baseDir,
                  Kind := DiffType.Modified })) := by
    intro d
    rw [hD, (sort.perm_Slice _ _).mem_iff, List.mem_filterMap]
    constructor
    · rintro ⟨k, _, hk⟩
      exact ⟨k, (classifyKey_iff E cfg baseDir hC k d).mp hk⟩
    · rintro ⟨k, hk⟩
      have hcl := (classifyKey_iff E cfg baseDir hC k d).mpr hk
      obtain ⟨v, hv, _⟩ := hk
      have ht : (targetEnvOf E cfg baseDir).get? k = some (expandEnvVar E v baseDir) := by
        rw [targetEnvOf_get? E cfg baseDir hC k, hv]; rfl
      exact ⟨k, (mem_allEnvKeysOf _ _ k).mpr
        (Or.inr (GoMap.mem_keys_of_get?_eq_some _ _ _ ht)), hcl⟩
  refine ⟨?_, hmem, ?_, ?_, by decide⟩
  · rw [hD]
    exact sort.pairwise_Slice (fun d : EnvDiff => d.Key) _ hnd
  · intro d hd
    obtain ⟨k, v, _, ⟨_, h⟩ | ⟨c, _, _, h⟩⟩ := (hmem d).mp hd <;> rw [h] <;> simp
  · intro keys hp
    rw [hD, hcur, envDiffLoop_eq]
    rw [hcur] at hp
    exact (sort.Slice_perm_eq (fun d : EnvDiff => d.Key) _ _
      ((hp.filterMap _).symm) hnd).symm

/-- Witness of C12 on the environment and the configuration of `TestGenerateDiff`. -/
theorem GenerateDiff_environment_witness :
    GoMap.WF exDiffEnv ∧ (∀ p ∈ exDiffEnv, '=' ∉ p.1) ∧ exDiffCfg.Environment.WF ∧
      (GenerateDiff exDiffEnv exDiffCfg "/test".toList).Environment.Pairwise
        (fun a b => strLess a.Key b.Key = true) ∧
      ({ Key := "TEST_NEW".toList, OldValue := [], NewValue := "added_value".toList,
         Kind := DiffType.Added } : EnvDiff) ∈
        (GenerateDiff exDiffEnv exDiffCfg "/test".toList).Environment :=
  have h := GenerateDiff_environment exDiffEnv exDiffCfg "/test".toList (by decide) (by decide)
    (by decide)
  ⟨by decide, by decide, by decide, h.1,
    (h.2.1 _).mpr ⟨"TEST_NEW".toList, "added_value".toList, by decide, Or.inl ⟨by decide, by decide⟩⟩⟩

/-! ## The rendering of the diff report -/

theorem foldl_append_flatMap {α β : Type} (f : α → List β) (L : List α) (init : List β) :
    L.foldl (fun acc p => acc ++ f p) init = init ++ L.flatMap f := by
  induction L generalizing init with
  | nil => simp
  | cons p L ih => simp [ih]

theorem flatMap_singleton_eq_map {α β : Type} (f : α → β) (L : List α) :
    L.flatMap (fun p => [f p]) = L.map f := by
  induction L with
  | nil => rfl
  | cons p L ih => simp [List.flatMap_cons, ih]

/-- The slice `output` of `Format`, section by section. -/
theorem formatLines_eq (d : ConfigDiff) :
    formatLines d =
      (if d.Environment ≠ [] then
          "Environment variables:".toList :: (d.Environment.flatMap envDiffLine ++ [[]])
        else []) ++
      (if d.Aliases ≠ [] then
          "Aliases:".toList :: (d.Aliases.map aliasDiffLine ++ [[]])
        else []) ++
      (if d.Scripts ≠ [] then
          "Scripts (functions):".toList :: d.Scripts.map scriptDiffLine
        else []) := by
  unfold formatLines
  simp only [foldl_append_flatMap, foldl_append_singleton]
  have l1 : (d.Environment.length > 0) ↔ d.Environment ≠ [] := List.length_pos
  have l2 : (d.Aliases.length > 0) ↔ d.Aliases ≠ [] := List.length_pos
  have l3 : (d.Scripts.length > 0) ↔ d.Scripts ≠ [] := List.length_pos
  by_cases h1 : d.Environment = [] <;> by_cases h2 : d.Aliases = [] <;>
    by_cases h3 : d.Scripts = [] <;>
    simp [h1, h2, h3, l1, l2, l3, flatMap_singleton_eq_map]

theorem splitFrom_newline_cons (c : Char) (cs : Str) :
    strings.splitFrom ['\n'] 0 (c :: cs) =
      if c = '\n' then [] :: strings.splitFrom ['\n'] 0 cs
      else
        match strings.splitFrom ['\n'] 0 cs with
        | [] => [[c]]
        | l :: ls => (c :: l) :: ls := by
  by_cases hc : c = '\n'
  · subst hc
    simp [strings.splitFrom]
  · have hc' : ¬ '\n' = c := fun e => hc e.symm
    simp [strings.splitFrom, hc, hc']

theorem splitFrom_of_no_newline (p : Str) (hp : '\n' ∉ p) :
    strings.splitFrom ['\n'] 0 p = [p] := by
  induction p with
  | nil => rfl
  | cons c cs ih =>
    have hc : c ≠ '\n' := fun e => hp (by rw [e]; exact List.mem_cons_self _ _)
    have hcs : '\n' ∉ cs := fun e => hp (List.mem_cons_of_mem _ e)
    rw [splitFrom_newline_cons, if_neg hc, ih hcs]

theorem splitFrom_append_newline (p rest : Str) (hp : '\n' ∉ p) :
    strings.splitFrom ['\n'] 0 (p ++ '\n' :: rest) = p :: strings.splitFrom ['\n'] 0 rest := by
  induction p with
  | nil =>
    rw [List.nil_append, splitFrom_newline_cons, if_pos rfl]
  | cons c cs ih =>
    have hc : c ≠ '\n' := fun e => hp (by rw [e]; exact List.mem_cons_self _ _)
    have hcs : '\n' ∉ cs := fun e => hp (List.mem_cons_of_mem _ e)
    rw [List.cons_append, splitFrom_newline_cons, if_neg hc, ih hcs]

/-- Splitting at newlines undoes joining with newlines when no piece holds a newline. -/
theorem Split_Join_newline (pieces : List Str) (hne : pieces ≠ [])
    (hp : ∀ p ∈ pieces, '\n' ∉ p) :
    strings.Split (strings.Join pieces "\n".toList) "\n".toList = pieces := by
  have hsplit : ∀ s : Str, strings.Split s "\n".toList = strings.splitFrom ['\n'] 0 s := by
    intro s; rfl
  rw [hsplit]
  induction pieces with
  | nil => exact absurd rfl hne
  | cons a l ih =>
    have ha : '\n' ∉ a := hp a (List.mem_cons_self _ _)
    rw [Join_cons]
    by_cases hl : l = []
    · subst hl
      simp only [if_true, List.append_nil]
      exact splitFrom_of_no_newline a ha
    · rw [if_neg hl]
      show strings.splitFrom ['\n'] 0 (a ++ '\n' :: strings.Join l "\n".toList) = a :: l
      rw [splitFrom_append_newline a _ ha, ih hl (fun p hp' => hp p (List.mem_cons_of_mem _ hp'))]

theorem Join_append_sep (pieces : List Str) (sep : Str) (hne : pieces ≠ []) :
    strings.Join pieces sep ++ sep = strings.Join (pieces ++ [[]]) sep := by
  induction pieces with
  | nil => exact absurd rfl hne
  | cons a l ih =>
    by_cases hl : l = []
    · subst hl
      simp [strings.Join]
    · rw [List.cons_append, Join_cons, Join_cons, if_neg hl, if_neg (by simp), ← ih hl]
      simp

theorem not_mem_splitFrom_newline (s : Str) :
    ∀ l ∈ strings.splitFrom ['\n'] 0 s, '\n' ∉ l := by
  induction s with
  | nil =>
    intro l hl
    have : l = [] := by simpa [strings.splitFrom] using hl
    rw [this]; exact List.not_mem_nil _
  | cons c cs ih =>
    intro l hl
    rw [splitFrom_newline_cons] at hl
    by_cases hc : c = '\n'
    · rw [if_pos hc] at hl
      rcases List.mem_cons.mp hl with e | h
      · rw [e]; exact List.not_mem_nil _
      · exact ih l h
    · rw [if_neg hc] at hl
      cases hs : strings.splitFrom ['\n'] 0 cs with
      | nil =>
        rw [hs] at hl
        have : l = [c] := by simpa using hl
        rw [this]
        intro h
        exact hc (List.mem_singleton.mp h).symm
      | cons l0 ls =>
        rw [hs] at hl ih
        rcases List.mem_cons.mp hl with e | h
        · rw [e]
          intro h
          rcases List.mem_cons.mp h with e' | h'
          · exact hc e'.symm
          · exact ih l0 (List.mem_cons_self _ _) h'
        · exact ih l (List.mem_cons_of_mem _ h)

theorem mem_of_mem_TrimSpace (s : Str) (c : Char) (hc : c ∈ strings.TrimSpace s) : c ∈ s := by
  unfold strings.TrimSpace at hc
  have h1 := List.mem_reverse.mp hc
  have h2 := (List.dropWhile_sublist _).subset h1
  have h3 := List.mem_reverse.mp h2
  exact (List.dropWhile_sublist _).subset h3

theorem envDiffLine_head (e : EnvDiff) : ∀ l ∈ envDiffLine e, l.head? = some ' ' := by
  intro l hl
  unfold envDiffLine at hl
  cases hk : e.Kind <;> rw [hk] at hl <;> simp at hl <;> rw [hl] <;> rfl

theorem aliasDiffLine_head (a : AliasDiff) : (aliasDiffLine a).head? = some ' ' := rfl

theorem scriptDiffLine_head (s : ScriptDiff) : (scriptDiffLine s).head? = some ' ' := by
  show List.head? (if (strings.Split s.Content "\n".toList).length > 1 then _ else _) = _
  split <;> rfl

/-- Every line of the report other than a section header is empty or starts with a blank. -/
theorem formatLines_mem (d : ConfigDiff) (l : Str) (hl : l ∈ formatLines d) :
    (l = "Environment variables:".toList ∧ d.Environment ≠ []) ∨
    (l = "Aliases:".toList ∧ d.Aliases ≠ []) ∨
    (l = "Scripts (functions):".toList ∧ d.Scripts ≠ []) ∨
    l = [] ∨ l.head? = some ' ' := by
  rw [formatLines_eq] at hl
  simp only [List.mem_append] at hl
  rcases hl with (h | h) | h
  · by_cases h1 : d.Environment = []
    · simp [h1] at h
    · rw [if_pos h1] at h
      rcases List.mem_cons.mp h with e | h'
      · exact Or.inl ⟨e, h1⟩
      · rcases List.mem_append.mp h' with h'' | h''
        · obtain ⟨e, _, he⟩ := List.mem_flatMap.mp h''
          exact Or.inr (Or.inr (Or.inr (Or.inr (envDiffLine_head e l he))))
        · exact Or.inr (Or.inr (Or.inr (Or.inl (List.mem_singleton.mp h''))))
  · by_cases h2 : d.Aliases = []
    · simp [h2] at h
    · rw [if_pos h2] at h
      rcases List.mem_cons.mp h with e | h'
      · exact Or.inr (Or.inl ⟨e, h2⟩)
      · rcases List.mem_append.mp h' with h'' | h''
        · obtain ⟨a, _, ha⟩ := List.mem_map.mp h''
          exact Or.inr (Or.inr (Or.inr (Or.inr (ha ▸ aliasDiffLine_head a))))
        · exact Or.inr (Or.inr (Or.inr (Or.inl (List.mem_singleton.mp h''))))
  · by_cases h3 : d.Scripts = []
    · simp [h3] at h
    · rw [if_pos h3] at h
      rcases List.mem_cons.mp h with e | h'
      · exact Or.inr (Or.inr (Or.inl ⟨e, h3⟩))
      · obtain ⟨s, _, hs⟩ := List.mem_map.mp h'
        exact Or.inr (Or.inr (Or.inr (Or.inr (hs ▸ scriptDiffLine_head s))))

/-- A section header is among the lines of the report exactly when its category has
an entry. -/
theorem header_mem_formatLines (d : ConfigDiff) :
    ("Environment variables:".toList ∈ formatLines d ↔ d.Environment ≠ []) ∧
    ("Aliases:".toList ∈ formatLines d ↔ d.Aliases ≠ []) ∧
    ("Scripts (functions):".toList ∈ formatLines d ↔ d.Scripts ≠ []) := by
  have present : ∀ (hdr : Str) (rest : List Str), hdr ∈ hdr :: rest := fun hdr rest =>
    List.mem_cons_self hdr rest
  have envSide : "Environment variables:".toList ∈ formatLines d ↔ d.Environment ≠ [] := by
    constructor
    · intro hmem
      rcases formatLines_mem d _ hmem with c | c | c | c | c
      · exact c.2
      · exact absurd c.1 (by decide)
      · exact absurd c.1 (by decide)
      · exact absurd c (by decide)
      · exact absurd c (by decide)
    · intro hne
      rw [formatLines_eq, if_pos hne]
      exact List.mem_append_left _ (List.mem_append_left _ (present _ _))
  have aliasSide : "Aliases:".toList ∈ formatLines d ↔ d.Aliases ≠ [] := by
    constructor
    · intro hmem
      rcases formatLines_mem d _ hmem with c | c | c | c | c
      · exact absurd c.1 (by decide)
      · exact c.2
      · exact absurd c.1 (by decide)
      · exact absurd c (by decide)
      · exact absurd c (by decide)
    · intro hne
      rw [formatLines_eq, if_pos hne]
      exact List.mem_append_left _ (List.mem_append_right _ (present _ _))
  have scriptSide : "Scripts (functions):".toList ∈ formatLines d ↔ d.Scripts ≠ [] := by
    constructor
    · intro hmem
      rcases formatLines_mem d _ hmem with c | c | c | c | c
      · exact absurd c.1 (by decide)
      · exact absurd c.1 (by decide)
      · exact c.2
      · exact absurd c (by decide)
      · exact absurd c (by decide)
    · intro hne
      rw [formatLines_eq, if_pos hne]
      exact List.mem_append_right _ (present _ _)
  exact ⟨envSide, aliasSide, scriptSide⟩

theorem formatLines_eq_nil (d : ConfigDiff) :
    formatLines d = [] ↔ d.Environment = [] ∧ d.Aliases = [] ∧ d.Scripts = [] := by
  rw [formatLines_eq]
  by_cases h1 : d.Environment = [] <;> by_cases h2 : d.Aliases = [] <;>
    by_cases h3 : d.Scripts = [] <;> simp [h1, h2, h3]

/-- The first line of a non-empty report is a section header. -/
theorem formatLines_first (d : ConfigDiff) (hne : formatLines d ≠ []) :
    ∃ h rest, formatLines d = h :: rest ∧
      (h = "Environment variables:".toList ∨ h = "Aliases:".toList ∨
        h = "Scripts (functions):".toList) := by
  cases hL : formatLines d with
  | nil => exact absurd hL hne
  | cons h rest =>
    refine ⟨h, rest, rfl, ?_⟩
    have hh : (formatLines d).head? = some h := by rw [hL]; rfl
    rw [formatLines_eq] at hh hne
    by_cases h1 : d.Environment = []
    · by_cases h2 : d.Aliases = []
      · by_cases h3 : d.Scripts = []
        · simp [h1, h2, h3] at hne
        · simp [h1, h2, h3] at hh
          exact Or.inr (Or.inr hh.symm)
      · simp [h1, h2] at hh
        exact Or.inr (Or.inl hh.symm)
    · simp [h1] at hh
      exact Or.inl hh.symm

theorem Format_eq_no_changes (d : ConfigDiff) :
    d.Format = "No changes would be made.\n".toList ↔
      d.Environment = [] ∧ d.Aliases = [] ∧ d.Scripts = [] := by
  rw [← formatLines_eq_nil]
  constructor
  · intro h
    by_contra hne
    obtain ⟨hd, rest, hl, hh⟩ := formatLines_first d hne
    have hF : d.Format = strings.Join (formatLines d) "\n".toList ++ "\n".toList := by
      unfold ConfigDiff.Format
      simp [hne]
    rw [hF, hl, Join_cons] at h
    have hhead := congrArg List.head? h
    rcases hh with e | e | e <;> subst e <;> simp at hhead
  · intro h
    unfold ConfigDiff.Format
    simp [h]

theorem not_mem_append4 (c : Char) (a b x y : Str) (ha : c ∉ a) (hb : c ∉ b) (hx : c ∉ x)
    (hy : c ∉ y) : c ∉ a ++ x ++ b ++ y := by
  simp only [List.mem_append, not_or]
  exact ⟨⟨⟨ha, hx⟩, hb⟩, hy⟩

theorem scriptDiffLine_no_newline (s : ScriptDiff) (hs : '\n' ∉ s.Name) :
    '\n' ∉ scriptDiffLine s := by
  have hfirst : '\n' ∉ strings.TrimSpace ((strings.Split s.Content "\n".toList).headD []) := by
    intro h
    have h' := mem_of_mem_TrimSpace _ _ h
    have hsplit : strings.Split s.Content "\n".toList = strings.splitFrom ['\n'] 0 s.Content := rfl
    rw [hsplit] at h'
    cases hl : strings.splitFrom ['\n'] 0 s.Content with
    | nil => rw [hl] at h'; simp at h'
    | cons l ls =>
      rw [hl] at h'
      exact not_mem_splitFrom_newline s.Content l (by rw [hl]; exact List.mem_cons_self _ _) h'
  show '\n' ∉ (if (strings.Split s.Content "\n".toList).length > 1 then _ else _)
  split
  · exact List.not_mem_append (not_mem_append4 _ _ _ _ _ (by decide) (by decide) hs hfirst)
      (by decide)
  · exact List.not_mem_append (not_mem_append4 _ _ _ _ _ (by decide) (by decide) hs hfirst)
      (by decide)

theorem envDiffLine_no_newline (e : EnvDiff) (hk : '\n' ∉ e.Key) (ho : '\n' ∉ e.OldValue)
    (hn : '\n' ∉ e.NewValue) : ∀ l ∈ envDiffLine e, '\n' ∉ l := by
  intro l hl
  unfold envDiffLine at hl
  cases hkind : e.Kind <;> rw [hkind] at hl <;> simp only [List.mem_singleton] at hl
  · rw [hl]; exact not_mem_append4 _ _ _ _ _ (by decide) (by decide) hk hn
  · rw [hl]
    exact List.not_mem_append
      (List.not_mem_append (not_mem_append4 _ _ _ _ _ (by decide) (by decide) hk ho) (by decide))
      hn
  · rw [hl]; exact not_mem_append4 _ _ _ _ _ (by decide) (by decide) hk ho
  · simp at hl

theorem aliasDiffLine_no_newline (a : AliasDiff) (hn : '\n' ∉ a.Name) (hv : '\n' ∉ a.NewValue) :
    '\n' ∉ aliasDiffLine a :=
  not_mem_append4 _ _ _ _ _ (by decide) (by decide) hn hv

/-- When no printed key, name or value holds a newline, no line of the report does. -/
theorem formatLines_no_newline (d : ConfigDiff) (hd : d.SingleLine) :
    ∀ l ∈ formatLines d, '\n' ∉ l := by
  obtain ⟨hE, hA, hS⟩ := hd
  intro l hl
  rw [formatLines_eq] at hl
  simp only [List.mem_append] at hl
  rcases hl with (h | h) | h
  · by_cases h1 : d.Environment = []
    · simp [h1] at h
    · rw [if_pos h1] at h
      rcases List.mem_cons.mp h with e | h'
      · rw [e]; decide
      · rcases List.mem_append.mp h' with h'' | h''
        · obtain ⟨e, he, hl'⟩ := List.mem_flatMap.mp h''
          exact envDiffLine_no_newline e (hE e he).1 (hE e he).2.1 (hE e he).2.2 l hl'
        · rw [List.mem_singleton.mp h'']; exact List.not_mem_nil _
  · by_cases h2 : d.Aliases = []
    · simp [h2] at h
    · rw [if_pos h2] at h
      rcases List.mem_cons.mp h with e | h'
      · rw [e]; decide
      · rcases List.mem_append.mp h' with h'' | h''
        · obtain ⟨a, ha, hl'⟩ := List.mem_map.mp h''
          rw [← hl']
          exact aliasDiffLine_no_newline a (hA a ha).1 (hA a ha).2
        · rw [List.mem_singleton.mp h'']; exact List.not_mem_nil _
  · by_cases h3 : d.Scripts = []
    · simp [h3] at h
    · rw [if_pos h3] at h
      rcases List.mem_cons.mp h with e | h'
      · rw [e]; decide
      · obtain ⟨s, hs, hl'⟩ := List.mem_map.mp h'
        rw [← hl']
        exact scriptDiffLine_no_newline s (hS s hs)

/-- The lines of the returned text, when no printed key, name or value holds a newline:
the lines of the report followed by the empty line after the final newline. -/
theorem Split_Format (d : ConfigDiff) (hd : d.SingleLine) (hne : formatLines d ≠ []) :
    strings.Split d.Format "\n".toList = formatLines d ++ [[]] := by
  have hF : d.Format = strings.Join (formatLines d) "\n".toList ++ "\n".toList := by
    unfold ConfigDiff.Format
    simp [hne]
  rw [hF, Join_append_sep _ _ hne]
  refine Split_Join_newline _ (by simp) ?_
  intro p hp
  rcases List.mem_append.mp hp with h | h
  · exact formatLines_no_newline d hd p h
  · rw [List.mem_singleton.mp h]; exact List.not_mem_nil _

theorem infix_Format_of_mem (d : ConfigDiff) (l : Str) (hl : l ∈ formatLines d) :
    l <:+: d.Format := by
  have hne : formatLines d ≠ [] := List.ne_nil_of_mem hl
  have hF : d.Format = strings.Join (formatLines d) "\n".toList ++ "\n".toList := by
    unfold ConfigDiff.Format
    simp [hne]
  obtain ⟨s, t, hst⟩ := infix_Join_of_mem l (formatLines d) "\n".toList hl
  exact ⟨s, t ++ "\n".toList, by rw [hF, ← hst]; simp⟩

theorem header_mem_Split_Format (d : ConfigDiff) (hd : d.SingleLine) (h : Str)
    (hh : h ≠ [] ∧ h ≠ "No changes would be made.".toList) :
    h ∈ strings.Split d.Format "\n".toList ↔ h ∈ formatLines d := by
  by_cases hne : formatLines d = []
  · have hF : d.Format = "No changes would be made.\n".toList := by
      unfold ConfigDiff.Format
      simp [hne]
    have hS : strings.Split "No changes would be made.\n".toList "\n".toList =
        ["No changes would be made.".toList, []] := by decide
    rw [hF, hS, hne]
    constructor
    · intro hm
      rcases List.mem_cons.mp hm with e | hm'
      · exact absurd e hh.2
      · exact absurd (List.mem_singleton.mp hm') hh.1
    · intro hm; cases hm
  · rw [Split_Format d hd hne, List.mem_append]
    constructor
    · rintro (hm | hm)
      · exact hm
      · exact absurd (List.mem_singleton.mp hm) hh.1
    · exact Or.inl

/-- C14, the claim as stated fails: `exFakeHeader` has no environment entry, yet the
text `Format` returns for it is not the no-changes line and contains
`Environment variables:`, even as a line of its own. -/
theorem Format_header_without_entries :
    exFakeHeader.Environment = [] ∧
    exFakeHeader.Format = "Aliases:\n  + alias note=echo\nEnvironment variables:\n\n".toList ∧
    exFakeHeader.Format ≠ "No changes would be made.\n".toList ∧
    "Environment variables:".toList <:+: exFakeHeader.Format ∧
    "Environment variables:".toList ∈ strings.Split exFakeHeader.Format "\n".toList := by
  decide

/-- C14, amended. `Format` returns exactly the no-changes line if and only if the
three lists are empty.  Otherwise the lines it joins are, in this order, the
section of the environment (header `Environment variables:`, the entry lines, an
empty line), the section of the aliases (header `Aliases:`, the entry lines, an
empty line) and the section of the scripts (header `Scripts (functions):`, the
entry lines), each present if and only if its list is non-empty; the returned
text contains the header of every non-empty list; and when no printed key, name
or value holds a newline, the returned text has a line equal to a header if and
only if the list of that header is non-empty. -/
theorem Format_sections (d : ConfigDiff) :
    (d.Format = "No changes would be made.\n".toList ↔
      d.Environment = [] ∧ d.Aliases = [] ∧ d.Scripts = []) ∧
    (formatLines d =
      (if d.Environment ≠ [] then
          "Environment variables:".toList :: (d.Environment.flatMap envDiffLine ++ [[]])
        else []) ++
      (if d.Aliases ≠ [] then
          "Aliases:".toList :: (d.Aliases.map aliasDiffLine ++ [[]])
        else []) ++
      (if d.Scripts ≠ [] then
          "Scripts (functions):".toList :: d.Scripts.map scriptDiffLine
        else [])) ∧
    ("Environment variables:".toList ∈ formatLines d ↔ d.Environment ≠ []) ∧
    ("Aliases:".toList ∈ formatLines d ↔ d.Aliases ≠ []) ∧
    ("Scripts (functions):".toList ∈ formatLines d ↔ d.Scripts ≠ []) ∧
    (d.Environment ≠ [] → "Environment variables:".toList <:+: d.Format) ∧
    (d.Aliases ≠ [] → "Aliases:".toList <:+: d.Format) ∧
    (d.Scripts ≠ [] → "Scripts (functions):".toList <:+: d.Format) ∧
    (d.SingleLine →
      ("Environment variables:".toList ∈ strings.Split d.Format "\n".toList ↔
        d.Environment ≠ []) ∧
      ("Aliases:".toList ∈ strings.Split d.Format "\n".toList ↔ d.Aliases ≠ []) ∧
      ("Scripts (functions):".toList ∈ strings.Split d.Format "\n".toList ↔
        d.Scripts ≠ [])) := by
  obtain ⟨m1, m2, m3⟩ := header_mem_formatLines d
  refine ⟨Format_eq_no_changes d, formatLines_eq d, m1, m2, m3,
    fun h => infix_Format_of_mem d _ (m1.mpr h), fun h => infix_Format_of_mem d _ (m2.mpr h),
    fun h => infix_Format_of_mem d _ (m3.mpr h), fun hd => ⟨?_, ?_, ?_⟩⟩
  · rw [header_mem_Split_Format d hd _ (by decide)]; exact m1
  · rw [header_mem_Split_Format d hd _ (by decide)]; exact m2
  · rw [header_mem_Split_Format d hd _ (by decide)]; exact m3

/-- Witness of C14 (amended) on the diff of `TestDiffFormat`: its printed fields
hold no newline and its text has the three header lines. -/
theorem Format_sections_witness :
    exFormatDiff.SingleLine ∧
      "Environment variables:".toList ∈ strings.Split exFormatDiff.Format "\n".toList ∧
      "Aliases:".toList ∈ strings.Split exFormatDiff.Format "\n".toList ∧
      "Scripts (functions):".toList ∈ strings.Split exFormatDiff.Format "\n".toList :=
  have h := (Format_sections exFormatDiff).2.2.2.2.2.2.2.2 (by decide)
  ⟨by decide, h.1.mpr (by decide), h.2.1.mpr (by decide), h.2.2.mpr (by decide)⟩

set_option maxRecDepth 8192 in
/-- C15, the code at the diff of `TestDiffFormat`: the Added entry, the alias and the
script are rendered as the test expects, but the Modified entry is rendered with
the three characters U+00E2, U+2020, U+2019 between the old and the new value,
so the text does not contain `~ MOD_VAR=old`, a blank, U+2192, a blank, `new`. -/
theorem Format_modified_separator :
    exFormatDiff.Format =
      ("Environment variables:\n  + NEW_VAR=value\n  ~ MOD_VAR=old â†’ new\n\n" ++
        "Aliases:\n  + alias test=echo test\n\n" ++
        "Scripts (functions):\n  + function build() \x7b make build \x7d\n").toList ∧
    ¬ ("~ MOD_VAR=old → new".toList <:+: exFormatDiff.Format) ∧
    "+ NEW_VAR=value".toList <:+: exFormatDiff.Format ∧
    "+ alias test=echo test".toList <:+: exFormatDiff.Format ∧
    "+ function build()".toList <:+: exFormatDiff.Format := by
  refine ⟨?_, ?_, ?_, ?_, ?_⟩
  · decide
  · decide
  · decide
  · decide
  · decide

/-! ## Restoring: the frame, idempotence and the session file invariant -/

theorem get?_eq_some_of_mem (m : GoMap) (hm : m.WF) (a b : Str) (h : (a, b) ∈ m) :
    m.get? a = some b := by
  induction m with
  | nil => cases h
  | cons q m ih =>
    obtain ⟨x, y⟩ := q
    have hnd : x ∉ GoMap.keys m ∧ GoMap.WF m := by
      simpa [GoMap.WF, GoMap.keys] using hm
    rw [GoMap.get?_cons]
    rcases List.mem_cons.mp h with e | h'
    · cases e
      simp
    · have hne : ¬ x = a := by
        intro e
        exact hnd.1 (e ▸ List.mem_map_of_mem Prod.fst h')
      simp only [hne, if_false]
      exact ih hnd.2 h'

/-- Setting variables to the values they already have changes no value, whether or
not the loop runs to its end. -/
theorem restoreSet_same (L : List (Str × Str)) (E : GoMap)
    (hL : ∀ p ∈ L, E.get? p.1 = some p.2) (k : Str) :
    GoMap.get? (restoreSet L E).1 k = E.get? k := by
  induction L generalizing E with
  | nil => rfl
  | cons p L ih =>
    obtain ⟨a, b⟩ := p
    have hab : E.get? a = some b := hL (a, b) (List.mem_cons_self _ _)
    cases hset : os.Setenv E a b with
    | none => simp [restoreSet, hset]
    | some E1 =>
      have hE1 : E1 = E.set a b := by
        unfold os.Setenv at hset
        split at hset
        · cases hset
        · exact (Option.some.inj hset).symm
      have hsame : ∀ x, GoMap.get? E1 x = E.get? x := by
        intro x
        rw [hE1, GoMap.get?_set]
        by_cases hx : a = x
        · rw [if_pos hx, ← hx, hab]
        · rw [if_neg hx]
      have step : restoreSet ((a, b) :: L) E = restoreSet L E1 := by
        simp [restoreSet, hset]
      rw [step, ih E1 (fun q hq => by
        rw [hsame]; exact hL q (List.mem_cons_of_mem _ hq)), hsame]

/-- C16. When the current environment is the saved snapshot plus one extra
variable `k` that the snapshot lacks, `RestoreState` leaves `k` unset and every
other variable with the value it had before the call. -/
theorem RestoreState_extra_key (w : World) (S : State) (k v : Str)
    (hfile : w.stateFile = some S) (hS : S.Environment.WF)
    (hN : ∀ p ∈ w.env, '=' ∉ p.1)
    (hk : w.env.get? k = some v) (hSk : S.Environment.get? k = none)
    (hrest : ∀ k', k' ≠ k → w.env.get? k' = S.Environment.get? k') :
    (RestoreState w).1.env.get? k = none ∧
    ∀ k', k' ≠ k → (RestoreState w).1.env.get? k' = w.env.get? k' := by
  have hcur := GetCurrentState_env w hN
  have hkmem : k ∈ GoMap.keys (GoMap.copyInto [] w.env) :=
    (GoMap.keys_copyInto w.env [] k).mpr (Or.inr (GoMap.mem_keys_of_get?_eq_some _ _ _ hk))
  have hun : ∀ x, GoMap.get? (restoreUnset S.Environment (GetCurrentState w).Environment w.env) x
      = if x = k then none else w.env.get? x := by
    intro x
    rw [restoreUnset_get?, hcur]
    by_cases hx : x = k
    · subst hx
      simp [hkmem, hSk]
    · rw [if_neg hx]
      by_cases hsx : S.Environment.get? x = none
      · have : w.env.get? x = none := by rw [hrest x hx, hsx]
        simp [this]
      · simp [hsx]
  have hres : ∀ x, (RestoreState w).1.env.get? x = if x = k then none else w.env.get? x := by
    intro x
    have hL : ∀ p ∈ S.Environment,
        GoMap.get? (restoreUnset S.Environment (GetCurrentState w).Environment w.env) p.1
          = some p.2 := by
      intro p hp
      have hp' : S.Environment.get? p.1 = some p.2 := get?_eq_some_of_mem _ hS p.1 p.2 hp
      have hne : p.1 ≠ k := by
        intro e
        rw [e, hSk] at hp'
        cases hp'
      rw [hun, if_neg hne, hrest p.1 hne, hp']
    have hE : (RestoreState w).1.env =
        (restoreSet S.Environment
          (restoreUnset S.Environment (GetCurrentState w).Environment w.env)).1 := by
      unfold RestoreState LoadSavedState
      rw [hfile]
      simp only
      cases hr : restoreSet S.Environment
          (restoreUnset S.Environment (GetCurrentState w).Environment w.env) with
      | mk E' err => cases err <;> rfl
    rw [hE, restoreSet_same _ _ hL, hun]
  refine ⟨?_, ?_⟩
  · rw [hres, if_pos rfl]
  · intro k' hk'
    rw [hres, if_neg hk']

/-- Witness of C16: with `NEW_VAR` as the one extra variable, the restore unsets it
and keeps `HOME` and `CC`. -/
theorem RestoreState_extra_key_witness :
    exExtra.stateFile = some exExtraSaved ∧ exExtraSaved.Environment.WF ∧
      (RestoreState exExtra).1.env.get? "NEW_VAR".toList = none ∧
      (RestoreState exExtra).1.env.get? "CC".toList = some "gcc".toList :=
  have h := RestoreState_extra_key exExtra exExtraSaved "NEW_VAR".toList "new_value".toList
    rfl (by decide) (by decide) (by decide) (by decide)
    (by
      intro k' hk'
      show GoMap.get? [("HOME".toList, "/home/dev".toList), ("NEW_VAR".toList, "new_value".toList),
          ("CC".toList, "gcc".toList)] k' =
        GoMap.get? [("HOME".toList, "/home/dev".toList), ("CC".toList, "gcc".toList)] k'
      have hne : ¬ ['N', 'E', 'W', '_', 'V', 'A', 'R'] = k' := fun e => hk' e.symm
      simp [GoMap.get?, hne])
  ⟨rfl, by decide, h.1, (h.2 "CC".toList (by decide)).trans (by decide)⟩

theorem restoreSet_ok (L : List (Str × Str)) (hL : Settable L) (E : GoMap) :
    (restoreSet L E).2 = none := by
  induction L generalizing E with
  | nil => rfl
  | cons p L ih =>
    obtain ⟨a, b⟩ := p
    obtain ⟨h1, h2, h3, h4⟩ := hL (a, b) (List.mem_cons_self _ _)
    have hset : os.Setenv E a b = some (E.set a b) := by
      unfold os.Setenv
      rw [if_neg (by simp only [not_or]; exact ⟨h1, h2, h3, h4⟩)]
    simp only [restoreSet, hset]
    exact ih (fun q hq => hL q (List.mem_cons_of_mem _ hq)) _

theorem RestoreState_no_file (w : World) (h : w.stateFile = none) :
    RestoreState w = (w, none) := by
  unfold RestoreState LoadSavedState
  rw [h]

/-- A restore that returns no error leaves no session file. -/
theorem RestoreState_file_of_ok (w : World) (hok : (RestoreState w).2 = none) :
    (RestoreState w).1.stateFile = none := by
  cases hf : w.stateFile with
  | none => rw [RestoreState_no_file w hf]; exact hf
  | some S =>
    unfold RestoreState LoadSavedState at hok ⊢
    rw [hf] at hok ⊢
    simp only at hok ⊢
    cases hr : restoreSet S.Environment
        (restoreUnset S.Environment (GetCurrentState w).Environment w.env) with
    | mk E' err =>
      rw [hr] at hok
      cases err with
      | none => rfl
      | some key => cases hok

theorem HasSavedState_runOps (ops : List SessionOp) (b : Bool) (w w' : World)
    (hw : HasSavedState w = b) (hrun : runOps ops w = some w') :
    HasSavedState w' = (outstanding ops || (b && !ops.any SessionOp.isRestore)) := by
  induction ops generalizing w b with
  | nil =>
    have : w = w' := by simpa [runOps] using hrun
    subst this
    simp [outstanding, hw]
  | cons op rest ih =>
    cases hstep : op.step w with
    | none => simp [runOps, hstep] at hrun
    | some w1 =>
      have hrun' : runOps rest w1 = some w' := by simpa [runOps, hstep] using hrun
      cases op with
      | save state =>
        have hw1 : HasSavedState w1 = true := by
          have : w1 = SaveState state w := by
            simpa [SessionOp.step] using hstep.symm
          rw [this]; rfl
        rw [ih true w1 hw1 hrun']
        cases b <;> simp [outstanding, SessionOp.isSave, SessionOp.isRestore] <;>
          cases outstanding rest <;> simp
      | saveWithHook state directory onLeaveHook =>
        have hw1 : HasSavedState w1 = true := by
          have : w1 = SaveStateWithHook state directory onLeaveHook w := by
            simpa [SessionOp.step] using hstep.symm
          rw [this]; rfl
        rw [ih true w1 hw1 hrun']
        cases b <;> simp [outstanding, SessionOp.isSave, SessionOp.isRestore] <;>
          cases outstanding rest <;> simp
      | restore =>
        have hw1 : HasSavedState w1 = false := by
          unfold SessionOp.step at hstep
          cases hr : RestoreState w with
          | mk wr err =>
            rw [hr] at hstep
            cases err with
            | some key => simp at hstep
            | none =>
              have hwr : wr = w1 := by simpa using hstep
              have hfile := RestoreState_file_of_ok w (by rw [hr])
              rw [hr] at hfile
              simp only at hfile
              rw [← hwr]
              unfold HasSavedState
              rw [hfile]; rfl
        rw [ih false w1 hw1 hrun']
        simp [outstanding, SessionOp.isSave, SessionOp.isRestore]

theorem runOps_take (ops : List SessionOp) (w w' : World) (hrun : runOps ops w = some w')
    (n : Nat) : ∃ wn, runOps (ops.take n) w = some wn := by
  induction ops generalizing w n with
  | nil => exact ⟨w, by simp [runOps]⟩
  | cons op rest ih =>
    cases n with
    | zero => exact ⟨w, by simp [runOps]⟩
    | succ n =>
      cases hstep : op.step w with
      | none => simp [runOps, hstep] at hrun
      | some w1 =>
        have hrun' : runOps rest w1 = some w' := by simpa [runOps, hstep] using hrun
        obtain ⟨wn, hwn⟩ := ih w1 hrun' n
        exact ⟨wn, by simp [runOps, hstep, hwn]⟩

/-- C18. Started without a session file, after each step of a sequence of saves and
restores that all succeed the session file exists if and only if some save among
the steps taken so far has not been followed by a restore. -/
theorem session_file_iff_outstanding (ops : List SessionOp) (w w' : World)
    (h0 : w.stateFile = none) (hrun : runOps ops w = some w') (n : Nat) :
    ∃ wn, runOps (ops.take n) w = some wn ∧
      (HasSavedState wn = true ↔ outstanding (ops.take n) = true) := by
  obtain ⟨wn, hwn⟩ := runOps_take ops w w' hrun n
  refine ⟨wn, hwn, ?_⟩
  have hw : HasSavedState w = false := by
    unfold HasSavedState
    rw [h0]; rfl
  rw [HasSavedState_runOps (ops.take n) false w wn hw hwn]
  simp

/-- Witness of C18 on the sequence save, restore, restore, save with hook: the file
exists after the first step, not after the second and third, and again after
the fourth. -/
theorem session_file_iff_outstanding_witness :
    exClean.stateFile = none ∧ (runOps exOps exClean).isSome = true ∧
      (∃ w1, runOps (exOps.take 1) exClean = some w1 ∧
        (HasSavedState w1 = true ↔ outstanding (exOps.take 1) = true)) ∧
      outstanding (exOps.take 1) = true ∧ outstanding (exOps.take 2) = false ∧
      outstanding (exOps.take 3) = false ∧ outstanding (exOps.take 4) = true :=
  ⟨rfl, by decide,
    (Option.isSome_iff_exists.mp (by decide : (runOps exOps exClean).isSome = true)).elim
      (fun w' hw' => session_file_iff_outstanding exOps exClean w' rfl hw' 1),
    by decide, by decide, by decide, by decide⟩

/-! ## Cleanup of orphaned state files -/

theorem HasPrefix_iff (s pre : Str) : strings.HasPrefix s pre = true ↔ pre <+: s := by
  unfold strings.HasPrefix
  exact List.isPrefixOf_iff_prefix

theorem HasSuffix_iff (s suf : Str) : strings.HasSuffix s suf = true ↔ suf <:+ s := by
  unfold strings.HasSuffix
  exact List.isSuffixOf_iff_suffix

/-- A name with the prefix `state_` and the suffix `.json` is `state_`, a middle
part, `.json`. -/
theorem state_file_shape (f : Str) (hp : strings.HasPrefix f "state_".toList = true)
    (hs : strings.HasSuffix f ".json".toList = true) :
    ∃ s, f = "state_".toList ++ s ++ ".json".toList := by
  obtain ⟨r, hr⟩ := (HasPrefix_iff _ _).mp hp
  obtain ⟨t, ht⟩ := (HasSuffix_iff _ _).mp hs
  have heq : t ++ ".json".toList = "state_".toList ++ r := by rw [ht, hr]
  rcases List.append_eq_append_iff.mp heq with ⟨a', h1, h2⟩ | ⟨c', h1, h2⟩
  · -- the suffix starts inside the prefix
    cases a' with
    | nil =>
      refine ⟨[], ?_⟩
      have hr' : r = ".json".toList := h2.symm
      rw [← hr, hr']
      rfl
    | cons c cs =>
      exfalso
      have hc : c = '.' := by
        have := congrArg List.head? h2
        simpa using this.symm
      have hmem : c ∈ "state_".toList := by
        rw [h1]
        exact List.mem_append_right _ (List.mem_cons_self _ _)
      rw [hc] at hmem
      revert hmem
      decide
  · exact ⟨c', by rw [← hr, h2, List.append_assoc]⟩

theorem trim_state_file (s : Str) :
    strings.TrimSuffix (strings.TrimPrefix ("state_".toList ++ s ++ ".json".toList)
      "state_".toList) ".json".toList = s := by
  have h1 : strings.TrimPrefix ("state_".toList ++ s ++ ".json".toList) "state_".toList =
      s ++ ".json".toList := by
    unfold strings.TrimPrefix
    rw [if_pos ((HasPrefix_iff _ _).mpr ⟨s ++ ".json".toList, by simp⟩), List.append_assoc]
    exact List.drop_left _ _
  have h2 : strings.TrimSuffix (s ++ ".json".toList) ".json".toList = s := by
    unfold strings.TrimSuffix
    rw [if_pos ((HasSuffix_iff _ _).mpr ⟨s, rfl⟩)]
    have : (s ++ ".json".toList).length - (".json".toList).length = s.length := by simp
    rw [this]
    exact List.take_left _ _
  rw [h1, h2]

theorem state_file_inj (s s' : Str)
    (h : "state_".toList ++ s ++ ".json".toList = "state_".toList ++ s' ++ ".json".toList) :
    s = s' := by
  have h' := List.append_cancel_right h
  exact List.append_cancel_left h'

/-- The loop of `CleanupOrphanedState` removes a name when it is `state_<n>.json` with
`n` an integer for which `isProcessRunning` is false. -/
theorem cleanupStep_delete (signal0 : Int → SignalResult) (acc : List Str × Nat) (f s : Str) (n : Int)
    (hf : f = "state_".toList ++ s ++ ".json".toList) (hn : strconv.Atoi s = some n)
    (ha : isProcessRunning signal0 n = false) :
    cleanupStep signal0 acc f = (acc.1.filter (fun g => decide (g ≠ f)), acc.2 + 1) := by
  have hp : strings.HasPrefix f "state_".toList = true :=
    (HasPrefix_iff _ _).mpr ⟨s ++ ".json".toList, by rw [hf]; simp⟩
  have hs : strings.HasSuffix f ".json".toList = true :=
    (HasSuffix_iff _ _).mpr ⟨"state_".toList ++ s, by rw [hf]⟩
  have ht : strings.TrimSuffix (strings.TrimPrefix f "state_".toList) ".json".toList = s := by
    rw [hf]; exact trim_state_file s
  unfold cleanupStep
  simp only [hp, hs, ht, hn, ha]
  simp

/-- The loop keeps every other name. -/
theorem cleanupStep_keep (signal0 : Int → SignalResult) (acc : List Str × Nat) (f : Str)
    (hno : ¬ ∃ s n, f = "state_".toList ++ s ++ ".json".toList ∧ strconv.Atoi s = some n ∧
      isProcessRunning signal0 n = false) :
    cleanupStep signal0 acc f = acc := by
  unfold cleanupStep
  by_cases hp : strings.HasPrefix f "state_".toList = true
  · by_cases hs : strings.HasSuffix f ".json".toList = true
    · obtain ⟨s, hf⟩ := state_file_shape f hp hs
      have ht : strings.TrimSuffix (strings.TrimPrefix f "state_".toList) ".json".toList = s := by
        rw [hf]; exact trim_state_file s
      simp only [hp, hs, ht]
      cases hn : strconv.Atoi s with
      | none => simp
      | some n =>
        cases ha : isProcessRunning signal0 n with
        | false => exact absurd ⟨s, n, hf, hn, ha⟩ hno
        | true => simp [ha]
    · have hs' : strings.HasSuffix f ".json".toList = false := by simpa using hs
      simp only [hp, hs']
      rfl
  · have hp' : strings.HasPrefix f "state_".toList = false := by simpa using hp
    simp only [hp']
    rfl

theorem mem_foldl_cleanupStep (signal0 : Int → SignalResult) (L : List Str) (acc : List Str × Nat)
    (g : Str) :
    g ∈ (L.foldl (cleanupStep signal0) acc).1 ↔
      g ∈ acc.1 ∧ ¬ (g ∈ L ∧ ∃ s n, g = "state_".toList ++ s ++ ".json".toList ∧
        strconv.Atoi s = some n ∧ isProcessRunning signal0 n = false) := by
  induction L generalizing acc with
  | nil => simp
  | cons f L ih =>
    rw [List.foldl_cons, ih]
    by_cases hd : ∃ s n, f = "state_".toList ++ s ++ ".json".toList ∧ strconv.Atoi s = some n ∧
        isProcessRunning signal0 n = false
    · obtain ⟨s, n, hf, hn, ha⟩ := hd
      rw [cleanupStep_delete signal0 acc f s n hf hn ha]
      simp only [List.mem_filter, List.mem_cons, decide_eq_true_eq]
      constructor
      · rintro ⟨⟨h1, h2⟩, h3⟩
        refine ⟨h1, ?_⟩
        rintro ⟨h4 | h4, h5⟩
        · exact h2 h4
        · exact h3 ⟨h4, h5⟩
      · rintro ⟨h1, h2⟩
        refine ⟨⟨h1, ?_⟩, fun h3 => h2 ⟨Or.inr h3.1, h3.2⟩⟩
        intro e
        exact h2 ⟨Or.inl e, s, n, e ▸ hf, hn, ha⟩
    · rw [cleanupStep_keep signal0 acc f hd]
      simp only [List.mem_cons]
      constructor
      · rintro ⟨h1, h2⟩
        refine ⟨h1, ?_⟩
        rintro ⟨h4 | h4, h5⟩
        · exact hd (h4 ▸ h5)
        · exact h2 ⟨h4, h5⟩
      · rintro ⟨h1, h2⟩
        exact ⟨h1, fun h3 => h2 ⟨Or.inr h3.1, h3.2⟩⟩

theorem mem_globStateFiles (files : List Str) (f s : Str) (hf : f ∈ files)
    (hs : f = "state_".toList ++ s ++ ".json".toList) : f ∈ globStateFiles files := by
  unfold globStateFiles
  refine List.mem_filter.mpr ⟨hf, ?_⟩
  have hp : strings.HasPrefix f "state_".toList = true :=
    (HasPrefix_iff _ _).mpr ⟨s ++ ".json".toList, by rw [hs]; simp⟩
  have hd : f.drop 6 = s ++ ".json".toList := by
    rw [hs, List.append_assoc]
    exact List.drop_left' rfl
  have hsuf : strings.HasSuffix (f.drop 6) ".json".toList = true :=
    (HasSuffix_iff _ _).mpr ⟨s, hd.symm⟩
  show (strings.HasPrefix f "state_".toList && strings.HasSuffix (f.drop 6) ".json".toList) = true
  rw [hp, hsuf]
  rfl

/-- What `CleanupOrphanedState` deletes: a name of the state directory is removed if
and only if it is `state_<n>.json` with `<n>` an integer that `strconv.Atoi`
accepts and `isProcessRunning` is false for `n`, that is, the zero signal cannot
be sent to `n`.  No other name appears and the call returns no error. -/
theorem CleanupOrphanedState_deletes_iff (signal0 : Int → SignalResult) (files : List Str) (f : Str)
    (hf : f ∈ files) :
    (f ∉ (CleanupOrphanedState signal0 files).files ↔
      ∃ s n, f = "state_".toList ++ s ++ ".json".toList ∧ strconv.Atoi s = some n ∧
        isProcessRunning signal0 n = false) ∧
    (∀ s n, f = "state_".toList ++ s ++ ".json".toList → strconv.Atoi s = some n →
      isProcessRunning signal0 n = true → f ∈ (CleanupOrphanedState signal0 files).files) ∧
    (∀ g, g ∈ (CleanupOrphanedState signal0 files).files → g ∈ files) ∧
    (CleanupOrphanedState signal0 files).err = none := by
  have hmem : ∀ g, g ∈ (CleanupOrphanedState signal0 files).files ↔
      g ∈ files ∧ ¬ (g ∈ globStateFiles files ∧
        ∃ s n, g = "state_".toList ++ s ++ ".json".toList ∧ strconv.Atoi s = some n ∧
          isProcessRunning signal0 n = false) := by
    intro g
    exact mem_foldl_cleanupStep signal0 (globStateFiles files) (files, 0) g
  have hiff : f ∉ (CleanupOrphanedState signal0 files).files ↔
      ∃ s n, f = "state_".toList ++ s ++ ".json".toList ∧ strconv.Atoi s = some n ∧
        isProcessRunning signal0 n = false := by
    rw [hmem]
    constructor
    · intro h
      by_contra hno
      exact h ⟨hf, fun h' => hno h'.2⟩
    · rintro ⟨s, n, hs, hn, ha⟩ ⟨_, h2⟩
      exact h2 ⟨mem_globStateFiles files f s hf hs, s, n, hs, hn, ha⟩
  refine ⟨hiff, ?_, fun g hg => ((hmem g).mp hg).1, rfl⟩
  intro s n hs hn ha
  by_contra hnot
  obtain ⟨s', n', hs', hn', ha'⟩ := hiff.mp hnot
  have e : s = s' := state_file_inj s s' (hs.symm.trans hs')
  rw [e, hn'] at hn
  have : n' = n := Option.some.inj hn
  rw [this, ha] at ha'
  cases ha'

/-- C19, evaluated at the failing input: in the state directory `exStateDir`, with
the zero signal as `exSignal` gives it, process 1 exists, and the file
`state_1.json` named for it is deleted, because the signal to it is refused and
`isProcessRunning` is false.  The file of the process 12345, which can be
signalled, is retained; `state_99999.json`, named for no process, is deleted;
the names that do not match the pattern or hold no integer are retained; the
call returns no error. -/
theorem CleanupOrphanedState_deletes_unsignalable :
    (exSignal 1).processExists = true ∧
    isProcessRunning exSignal 1 = false ∧
    "state_1.json".toList ∈ exStateDir ∧
    "state_1.json".toList ∉ (CleanupOrphanedState exSignal exStateDir).files ∧
    (CleanupOrphanedState exSignal exStateDir).files =
      ["state_12345.json".toList, "state_abc.json".toList, "state_.json".toList,
       "notes.txt".toList, "state_7.json.bak".toList] ∧
    (CleanupOrphanedState exSignal exStateDir).cleaned = 2 ∧
    (CleanupOrphanedState exSignal exStateDir).err = none := by
  decide

/-! ## The active environment -/

/-- C20, the code at a child directory whose name begins with two dots: with the
saved directory `/project` and the working directory `/project/..cache`, the
relative path is `..cache`, its first two characters are two dots, and
`GetActiveEnvironmentInfo` reports the working directory as outside.  The other
cases of the claim hold at this saved directory: no saved state or an empty saved
directory give the empty directory and false, the directory itself and
`/project/sub` are inside, the parent and a sibling are outside. -/
theorem GetActiveEnvironmentInfo_two_dots :
    filepath.Rel "/project".toList "/project/..cache".toList = some "..cache".toList ∧
    GetActiveEnvironmentInfo exActive (some "/project/..cache".toList) =
      ("/project".toList, false) ∧
    GetActiveEnvironmentInfo exClean (some "/project".toList) = ([], false) ∧
    GetActiveEnvironmentInfo exWorld (some "/project".toList) = ([], false) ∧
    GetActiveEnvironmentInfo exActive (some "/project".toList) = ("/project".toList, true) ∧
    GetActiveEnvironmentInfo exActive (some "/project/sub".toList) = ("/project".toList, true) ∧
    GetActiveEnvironmentInfo exActive (some "/".toList) = ("/project".toList, false) ∧
    GetActiveEnvironmentInfo exActive (some "/projects".toList) = ("/project".toList, false) := by
  decide

/-! ## Further properties of merging and expansion -/

namespace GoMap

theorem WF_set (m : GoMap) (hm : m.WF) (k v : Str) : (m.set k v).WF := by
  induction m with
  | nil => simp [set, WF, keys]
  | cons p m ih =>
    obtain ⟨a, b⟩ := p
    have hnd : a ∉ keys m ∧ WF m := by
      simpa [WF, keys] using hm
    by_cases hak : a = k
    · subst hak
      simpa [set, WF, keys] using hm
    · have hnot : a ∉ keys (set m k v) := by
        rw [keys_set]
        exact fun h => h.elim hak hnd.1
      have hrec : (keys (set m k v)).Nodup := ih hnd.2
      simp only [set, if_neg hak, WF, keys, List.map_cons, List.nodup_cons]
      exact ⟨hnot, hrec⟩

theorem WF_copyInto (src dst : GoMap) (hdst : dst.WF) : (copyInto dst src).WF := by
  induction src generalizing dst with
  | nil => exact hdst
  | cons p src ih =>
    have step : copyInto dst (p :: src) = copyInto (dst.set p.1 p.2) src := rfl
    rw [step]
    exact ih _ (WF_set dst hdst p.1 p.2)

/-- Lookup in the map two copy loops build from an empty map. -/
theorem get?_merged (base over : GoMap) (hb : base.WF) (ho : over.WF) (k : Str) :
    ((copyInto [] base).copyInto over).get? k =
      match over.get? k with
      | some v => some v
      | none => base.get? k := by
  rw [get?_copyInto _ ho, get?_copyInto _ hb]
  cases get? base k <;> rfl

theorem WF_merged (base over : GoMap) : ((copyInto [] base).copyInto over).WF :=
  WF_copyInto _ _ (WF_copyInto _ _ (by simp [WF, keys]))

/-- Merging maps is associative, key for key. -/
theorem get?_merged_assoc (a b c : GoMap) (ha : a.WF) (hb : b.WF) (hc : c.WF) (k : Str) :
    ((copyInto [] ((copyInto [] a).copyInto b)).copyInto c).get? k =
      ((copyInto [] a).copyInto ((copyInto [] b).copyInto c)).get? k := by
  rw [get?_merged _ _ (WF_merged a b) hc, get?_merged _ _ ha hb,
    get?_merged _ _ ha (WF_merged b c), get?_merged _ _ hb hc]
  cases get? c k <;> cases get? b k <;> rfl

end GoMap

theorem mergeHooks_assoc (a b c : Hooks) :
    mergeHooks (mergeHooks a b) c = mergeHooks a (mergeHooks b c) := by
  obtain ⟨a1, a2, a3⟩ := a
  obtain ⟨b1, b2, b3⟩ := b
  obtain ⟨c1, c2, c3⟩ := c
  by_cases h1 : c1 = [] <;> by_cases h2 : c2 = [] <;> by_cases h3 : c3 = [] <;>
    by_cases h4 : b1 = [] <;> by_cases h5 : b2 = [] <;> by_cases h6 : b3 = [] <;>
    simp [mergeHooks, h1, h2, h3, h4, h5, h6]

/-- C27. The merged `AutoApply` is true exactly when the base's or the override's
is; so an override with `auto_apply = false` leaves a base with `auto_apply = true`
switched on. -/
theorem MergeConfigs_AutoApply :
    (∀ base override : Config, (MergeConfigs base override).AutoApply = true ↔
      (base.AutoApply = true ∨ override.AutoApply = true)) ∧
    (∀ base override : Config, base.AutoApply = true → override.AutoApply = false →
      (MergeConfigs base override).AutoApply = true) ∧
    (MergeConfigs { exBase with AutoApply := true } { exLocal with AutoApply := false }).AutoApply
      = true := by
  refine ⟨?_, ?_, by decide⟩
  · intro base override
    show (override.AutoApply || base.AutoApply) = true ↔ _
    rw [Bool.or_eq_true]
    exact Or.comm
  · intro base override hb _
    show (override.AutoApply || base.AutoApply) = true
    rw [hb, Bool.or_true]

/-- C29. `MergeConfigs` is associative: the two ways of merging three
configurations agree in `AutoApply`, in the hooks and, for every key, in the
three maps; and the override without entries, without hooks and with `AutoApply`
false leaves the base as it is. -/
theorem MergeConfigs_assoc (a b c : Config) (ha : a.WF) (hb : b.WF) (hc : c.WF) :
    (MergeConfigs (MergeConfigs a b) c).AutoApply = (MergeConfigs a (MergeConfigs b c)).AutoApply ∧
    (MergeConfigs (MergeConfigs a b) c).Hooks = (MergeConfigs a (MergeConfigs b c)).Hooks ∧
    (∀ k : Str,
      (MergeConfigs (MergeConfigs a b) c).Environment.get? k =
        (MergeConfigs a (MergeConfigs b c)).Environment.get? k ∧
      (MergeConfigs (MergeConfigs a b) c).Aliases.get? k =
        (MergeConfigs a (MergeConfigs b c)).Aliases.get? k ∧
      (MergeConfigs (MergeConfigs a b) c).Scripts.get? k =
        (MergeConfigs a (MergeConfigs b c)).Scripts.get? k) ∧
    MergeConfigs a
      { AutoApply := false, Environment := [], Aliases := [], Scripts := [],
        Hooks := { PreApply := [], PostApply := [], OnLeave := [] } } = a := by
  obtain ⟨ha1, ha2, ha3⟩ := ha
  obtain ⟨hb1, hb2, hb3⟩ := hb
  obtain ⟨hc1, hc2, hc3⟩ := hc
  refine ⟨?_, ?_, ?_, ?_⟩
  · show (c.AutoApply || (b.AutoApply || a.AutoApply)) = ((c.AutoApply || b.AutoApply) || a.AutoApply)
    rw [Bool.or_assoc]
  · exact mergeHooks_assoc a.Hooks b.Hooks c.Hooks
  · intro k
    exact ⟨GoMap.get?_merged_assoc _ _ _ ha1 hb1 hc1 k, GoMap.get?_merged_assoc _ _ _ ha2 hb2 hc2 k,
      GoMap.get?_merged_assoc _ _ _ ha3 hb3 hc3 k⟩
  · have e1 := GoMap.copyInto_append a.Environment [] ha1 (by simp [GoMap.keys])
    have e2 := GoMap.copyInto_append a.Aliases [] ha2 (by simp [GoMap.keys])
    have e3 := GoMap.copyInto_append a.Scripts [] ha3 (by simp [GoMap.keys])
    obtain ⟨aa, ae, al, as, ⟨h1, h2, h3⟩⟩ := a
    simp only [List.nil_append] at e1 e2 e3
    simp only [MergeConfigs, e1, e2, e3]
    simp [mergeHooks, GoMap.copyInto]

/-- Witness of C29 on the configurations of the merge tests. -/
theorem MergeConfigs_assoc_witness :
    exBase.WF ∧ exLocal.WF ∧ exHookOverride.WF ∧
      (MergeConfigs (MergeConfigs exBase exLocal) exHookOverride).Environment.get? "CC".toList =
        (MergeConfigs exBase (MergeConfigs exLocal exHookOverride)).Environment.get? "CC".toList ∧
      (MergeConfigs (MergeConfigs exBase exLocal) exHookOverride).Environment.get? "CC".toList =
        some "gcc-11".toList :=
  ⟨by decide, by decide, by decide,
    ((MergeConfigs_assoc exBase exLocal exHookOverride (by decide) (by decide) (by decide)).2.2.1
      "CC".toList).1,
    by decide⟩

/-- C30. The substitution of the project root is textual: for a base directory
without a dollar sign, `$PROJECT_ROOT_CACHE` expands to the base directory followed
by `_CACHE` in every process environment, whatever it holds for
`PROJECT_ROOT_CACHE`; the braced form is left to `os.ExpandEnv` and expands to the
environment's value of `PROJECT_ROOT` (empty when unset) followed by `/bin`, for
every base directory. -/
theorem expandEnvVar_textual (E : GoMap) (baseDir : Str) (hb : '$' ∉ baseDir) :
    expandEnvVar E "$PROJECT_ROOT_CACHE".toList baseDir = baseDir ++ "_CACHE".toList ∧
    (∀ E' : GoMap, expandEnvVar E' "$PROJECT_ROOT_CACHE".toList baseDir =
      expandEnvVar E "$PROJECT_ROOT_CACHE".toList baseDir) ∧
    (∀ dir : Str, expandEnvVar E "$\x7bPROJECT_ROOT\x7d/bin".toList dir =
      os.Getenv E "PROJECT_ROOT".toList ++ "/bin".toList) ∧
    (E.get? "PROJECT_ROOT".toList = none →
      ∀ dir : Str, expandEnvVar E "$\x7bPROJECT_ROOT\x7d/bin".toList dir = "/bin".toList) := by
  have hrep : strings.ReplaceAll "$PROJECT_ROOT_CACHE".toList "$PROJECT_ROOT".toList baseDir =
      baseDir ++ "_CACHE".toList := rfl
  have hnd : '$' ∉ baseDir ++ "_CACHE".toList := by
    intro h
    rcases List.mem_append.mp h with h | h
    · exact hb h
    · revert h; decide
  have key : ∀ F : GoMap, expandEnvVar F "$PROJECT_ROOT_CACHE".toList baseDir =
      baseDir ++ "_CACHE".toList := by
    intro F
    unfold expandEnvVar
    simp only [hrep]
    exact ExpandEnv_of_no_dollar F _ hnd
  have braced : ∀ dir : Str, expandEnvVar E "$\x7bPROJECT_ROOT\x7d/bin".toList dir =
      os.Getenv E "PROJECT_ROOT".toList ++ "/bin".toList := by
    intro dir
    have h1 : strings.ReplaceAll "$\x7bPROJECT_ROOT\x7d/bin".toList "$PROJECT_ROOT".toList dir =
        "$\x7bPROJECT_ROOT\x7d/bin".toList := rfl
    unfold expandEnvVar
    simp only [h1]
    rfl
  refine ⟨key E, fun E' => (key E').trans (key E).symm, braced, ?_⟩
  intro hnone dir
  rw [braced dir]
  unfold os.Getenv os.LookupEnv
  rw [if_neg (by decide), hnone]
  rfl

/-- Witness of C30 on the base directory of `TestExpandEnvVar`, in an environment
that has both `PROJECT_ROOT_CACHE` and `PROJECT_ROOT`. -/
theorem expandEnvVar_textual_witness :
    '$' ∉ "/test/project".toList ∧
      expandEnvVar
        [("PROJECT_ROOT_CACHE".toList, "/var/cache".toList), ("PROJECT_ROOT".toList, "/other".toList)]
        "$PROJECT_ROOT_CACHE".toList "/test/project".toList = "/test/project_CACHE".toList ∧
      expandEnvVar
        [("PROJECT_ROOT_CACHE".toList, "/var/cache".toList), ("PROJECT_ROOT".toList, "/other".toList)]
        "$\x7bPROJECT_ROOT\x7d/bin".toList "/test/project".toList = "/other/bin".toList :=
  ⟨by decide,
    (expandEnvVar_textual
      [("PROJECT_ROOT_CACHE".toList, "/var/cache".toList), ("PROJECT_ROOT".toList, "/other".toList)]
      "/test/project".toList (by decide)).1,
    by decide⟩

/-! ## Validation of a configuration -/

theorem Contains_space_iff (key : Str) :
    strings.Contains key [' '] = true ↔ ' ' ∈ key := by
  unfold strings.Contains
  rw [decide_eq_true_iff]
  constructor
  · rintro ⟨s, t, h⟩
    rw [← h]
    simp
  · intro h
    obtain ⟨s, t, h⟩ := List.append_of_mem h
    exact ⟨s, t, by rw [h]; simp⟩

theorem validateEnvironment_eq_none (m : List (Str × Str)) :
    validateEnvironment m = none ↔ ∀ p ∈ m, p.1 ≠ [] ∧ ' ' ∉ p.1 := by
  induction m with
  | nil => simp [validateEnvironment]
  | cons p m ih =>
    obtain ⟨key, value⟩ := p
    by_cases h1 : key = []
    · simp [validateEnvironment, h1]
    · by_cases h2 : ' ' ∈ key
      · have hc := (Contains_space_iff key).mpr h2
        simp [validateEnvironment, h1, hc, h2]
      · have hc : strings.Contains key [' '] = false := by
          cases h : strings.Contains key [' '] with
          | false => rfl
          | true => exact absurd ((Contains_space_iff key).mp h) h2
        simp [validateEnvironment, h1, hc, h2, ih]

theorem validateAliases_eq_none (m : List (Str × Str)) :
    validateAliases m = none ↔ ∀ p ∈ m, p.1 ≠ [] ∧ p.2 ≠ [] := by
  induction m with
  | nil => simp [validateAliases]
  | cons p m ih =>
    obtain ⟨name, command⟩ := p
    by_cases h1 : name = []
    · simp [validateAliases, h1]
    · by_cases h2 : command = []
      · simp [validateAliases, h1, h2]
      · simp [validateAliases, h1, h2, ih]

theorem validateScripts_eq_none (m : List (Str × Str)) :
    validateScripts m = none ↔ ∀ p ∈ m, p.1 ≠ [] ∧ p.2 ≠ [] := by
  induction m with
  | nil => simp [validateScripts]
  | cons p m ih =>
    obtain ⟨name, script⟩ := p
    by_cases h1 : name = []
    · simp [validateScripts, h1]
    · by_cases h2 : script = []
      · simp [validateScripts, h1, h2]
      · simp [validateScripts, h1, h2, ih]

/-- The configurations `validateConfig` accepts. -/
theorem validateConfig_eq_none (cfg : Config) :
    validateConfig cfg = none ↔
      (∀ p ∈ cfg.Environment, p.1 ≠ [] ∧ ' ' ∉ p.1) ∧
      (∀ p ∈ cfg.Aliases, p.1 ≠ [] ∧ p.2 ≠ []) ∧
      (∀ p ∈ cfg.Scripts, p.1 ≠ [] ∧ p.2 ≠ []) := by
  rw [← validateEnvironment_eq_none, ← validateAliases_eq_none, ← validateScripts_eq_none]
  unfold validateConfig
  cases validateEnvironment cfg.Environment with
  | some e => simp
  | none =>
    cases validateAliases cfg.Aliases with
    | some e => simp
    | none => simp

theorem validateEnvironment_values (f : Str → Str) (m : List (Str × Str)) :
    validateEnvironment (m.map (fun p => (p.1, f p.2))) = validateEnvironment m := by
  induction m with
  | nil => rfl
  | cons p m ih =>
    obtain ⟨key, value⟩ := p
    simp only [List.map_cons, validateEnvironment, ih]

/-- C22, the claim as stated fails: the key `MY<tab>VAR` holds a white-space
character (as does a key with a newline), and `validateConfig` returns nil for
the configuration. -/
theorem validateConfig_accepts_tab :
    (∃ c ∈ "MY\tVAR".toList, unicode.IsSpace c = true) ∧
    validateConfig exTabKey = none ∧
    validateConfig { exTabKey with Environment := [("MY\nVAR".toList, "1".toList)] } = none := by
  decide

/-- C22, amended. `validateConfig` returns an error for every configuration that has
an environment key containing the space character. -/
theorem validateConfig_rejects_space (cfg : Config) (key value : Str)
    (hmem : (key, value) ∈ cfg.Environment) (hsp : ' ' ∈ key) :
    ∃ err, validateConfig cfg = some err := by
  cases h : validateConfig cfg with
  | some err => exact ⟨err, rfl⟩
  | none =>
    have := ((validateConfig_eq_none cfg).mp h).1 (key, value) hmem
    exact absurd hsp this.2

/-- Witness of C22 (amended): the key `MY VAR`, visited second. -/
theorem validateConfig_rejects_space_witness :
    ("MY VAR".toList, "1".toList) ∈ exSpaceKey.Environment ∧ ' ' ∈ "MY VAR".toList ∧
      ∃ err, validateConfig exSpaceKey = some err :=
  ⟨by decide, by decide,
    validateConfig_rejects_space exSpaceKey "MY VAR".toList "1".toList (by decide) (by decide)⟩

/-- C23. `validateConfig` returns an error whenever an environment key is empty, an
alias has an empty name or an empty command, or a script has an empty name or an
empty body; it returns nil when none of these holds and no environment key has a
white-space character; and its result does not depend on the environment values,
so an empty value is never a reason to reject. -/
theorem validateConfig_empty_entries (cfg : Config) :
    (((∃ p ∈ cfg.Environment, p.1 = []) ∨ (∃ p ∈ cfg.Aliases, p.1 = [] ∨ p.2 = []) ∨
        (∃ p ∈ cfg.Scripts, p.1 = [] ∨ p.2 = [])) → ∃ err, validateConfig cfg = some err) ∧
    ((∀ p ∈ cfg.Environment, p.1 ≠ [] ∧ ∀ c ∈ p.1, unicode.IsSpace c = false) →
      (∀ p ∈ cfg.Aliases, p.1 ≠ [] ∧ p.2 ≠ []) → (∀ p ∈ cfg.Scripts, p.1 ≠ [] ∧ p.2 ≠ []) →
      validateConfig cfg = none) ∧
    (∀ f : Str → Str,
      validateConfig { cfg with Environment := cfg.Environment.map (fun p => (p.1, f p.2)) } =
        validateConfig cfg) ∧
    validateConfig exEmptyValue = none := by
  refine ⟨?_, ?_, ?_, by decide⟩
  · intro h
    cases hv : validateConfig cfg with
    | some err => exact ⟨err, rfl⟩
    | none =>
      obtain ⟨h1, h2, h3⟩ := (validateConfig_eq_none cfg).mp hv
      rcases h with ⟨p, hp, e⟩ | ⟨p, hp, e⟩ | ⟨p, hp, e⟩
      · exact absurd e (h1 p hp).1
      · exact e.elim (fun e => absurd e (h2 p hp).1) (fun e => absurd e (h2 p hp).2)
      · exact e.elim (fun e => absurd e (h3 p hp).1) (fun e => absurd e (h3 p hp).2)
  · intro h1 h2 h3
    refine (validateConfig_eq_none cfg).mpr ⟨fun p hp => ⟨(h1 p hp).1, fun hsp => ?_⟩, h2, h3⟩
    have := (h1 p hp).2 ' ' hsp
    revert this
    decide
  · intro f
    unfold validateConfig
    simp only [validateEnvironment_values]

/-! ## The script text of `ExecuteScript` -/

/-- Inside single quotes, the scanner reads the quoted form of `s` and the closing
quote as `s`, appended to the word in progress, and goes on with what follows. -/
theorem scan_quoted_then (s w rest : Str) (done : List Str) :
    Posix.scan
        (strings.replaceFrom [Char.ofNat 39]
          [Char.ofNat 39, Char.ofNat 34, Char.ofNat 39, Char.ofNat 34, Char.ofNat 39] 0 s ++
          Char.ofNat 39 :: rest)
        Posix.Mode.single (some w) done = Posix.scan rest Posix.Mode.plain (some (w ++ s)) done := by
  induction s generalizing w with
  | nil =>
    simp [replaceFrom_quote_nil, Posix.scan]
  | cons c cs ih =>
    rw [replaceFrom_quote_cons]
    by_cases hc : c = Char.ofNat 39
    · subst hc
      have h1 : ¬ (Char.ofNat 34 = ' ' ∨ Char.ofNat 34 = '\t' ∨ Char.ofNat 34 = '\n') := by decide
      have h2 : ¬ (Char.ofNat 34 = Char.ofNat 39) := by decide
      have h3 : ¬ (Char.ofNat 39 = ' ' ∨ Char.ofNat 39 = '\t' ∨ Char.ofNat 39 = '\n') := by decide
      have h4 : ¬ (Char.ofNat 39 = Char.ofNat 34) := by decide
      have h5 : ¬ (Char.ofNat 39 = Char.ofNat 92) := by decide
      have h6 : ¬ (Char.ofNat 39 = '$' ∨ Char.ofNat 39 = Char.ofNat 96) := by decide
      rw [if_pos rfl]
      simp only [List.cons_append, List.nil_append, Posix.scan, if_true, if_pos, h1, h2, h3, h4,
        h5, h6, if_false, Option.getD_some, Posix.push]
      exact (ih (w ++ [Char.ofNat 39])).trans (by simp)
    · rw [if_neg hc]
      simp only [List.cons_append, Posix.scan, if_neg hc, Posix.push, Option.getD_some]
      exact (ih (w ++ [c])).trans (by simp)

/-- Between words, the scanner reads a quoted form as the start of one word. -/
theorem scan_shellQuote_then (s rest : Str) (done : List Str) :
    Posix.scan (shellQuote s ++ rest) Posix.Mode.plain none done =
      Posix.scan rest Posix.Mode.plain (some s) done := by
  have h3 : ¬ (Char.ofNat 39 = ' ' ∨ Char.ofNat 39 = '\t' ∨ Char.ofNat 39 = '\n') := by decide
  have hq : shellQuote s ++ rest =
      Char.ofNat 39 :: (strings.replaceFrom [Char.ofNat 39]
          [Char.ofNat 39, Char.ofNat 34, Char.ofNat 39, Char.ofNat 34, Char.ofNat 39] 0 s ++
        Char.ofNat 39 :: rest) := by
    show (Char.ofNat 39 :: (strings.replaceFrom [Char.ofNat 39]
          [Char.ofNat 39, Char.ofNat 34, Char.ofNat 39, Char.ofNat 34, Char.ofNat 39] 0 s ++
        [Char.ofNat 39])) ++ rest = _
    simp
  rw [hq]
  simp only [Posix.scan, h3, if_false, if_true, Option.getD_none]
  exact (scan_quoted_then s [] rest done).trans (by simp)

/-- The quoted forms of a list of arguments, joined by single blanks, read as the
arguments themselves, after the words already finished. -/
theorem scan_quoted_args (args : List Str) (done : List Str) :
    Posix.scan (strings.Join (args.map shellQuote) [' ']) Posix.Mode.plain none done =
      some (done ++ args) := by
  induction args generalizing done with
  | nil => simp [strings.Join, Posix.scan, Posix.close]
  | cons a rest ih =>
    rw [List.map_cons, Join_cons, scan_shellQuote_then]
    cases rest with
    | nil => simp [Posix.scan, Posix.close]
    | cons b rest =>
      have hne : List.map shellQuote (b :: rest) ≠ [] := by simp
      rw [if_neg hne]
      simp only [List.singleton_append, Posix.scan, true_or, if_true, Posix.close]
      exact (ih (done ++ [a])).trans (by simp)

/-- The text `ExecuteScript` builds, case by case. -/
theorem fullScript_eq (scriptBody : Str) (args : List Str) :
    fullScript scriptBody args =
      if args = [] then scriptBody
      else "set -- ".toList ++ strings.Join (args.map shellQuote) " ".toList ++ "\n".toList ++
        scriptBody := by
  cases args with
  | nil => rfl
  | cons a rest =>
    have hlen : (a :: rest).length > 0 := by simp
    unfold fullScript
    rw [if_pos hlen, if_neg (by simp)]

/-- `ExecuteScript` returns no error exactly when the interpreter succeeds on the
command it is handed: the shell, the script text, the directory and the
environment of the child. -/
theorem ExecuteScript_ok_iff (run : Runner) (w : World) (scriptName scriptContent baseDir : Str)
    (args : List Str) :
    (ExecuteScript run w scriptName scriptContent baseDir args).2 = none ↔
      run
        (if os.Getenv w.env "SHELL".toList = [] then "/bin/sh".toList
          else os.Getenv w.env "SHELL".toList)
        (fullScript scriptContent args) baseDir
        (os.Environ w.env ++ ["PROJECT_ROOT=".toList ++ baseDir, "PWD=".toList ++ baseDir])
        = true := by
  unfold ExecuteScript
  simp only
  split_ifs <;> simp_all

/-- C24. Whatever the interpreter is, `ExecuteScript` succeeds exactly when the
interpreter, started with the shell of `SHELL` (or `/bin/sh`) in the base
directory, succeeds on this script text: for arguments `a1..an`, the text
`set -- `, the quoted arguments separated by single blanks, a newline and the
script body (spelled out for three arguments); without arguments, the script
body.  Read by the POSIX quoting rules, the text after `set -- ` is exactly the
arguments, as many and the same, whatever characters they contain, and the
first line is the words `set`, `--` and the arguments.  On the arguments
`exArgs` an interpreter that accepts only the expected text succeeds, and one
that accepts only the bare body fails. -/
theorem ExecuteScript_script_text (scriptBody : Str) (args : List Str) :
    (∀ (run : Runner) (w : World) (scriptName baseDir : Str),
      ((ExecuteScript run w scriptName scriptBody baseDir args).2 = none ↔
        run
          (if os.Getenv w.env "SHELL".toList = [] then "/bin/sh".toList
            else os.Getenv w.env "SHELL".toList)
          (if args = [] then scriptBody
            else "set -- ".toList ++ strings.Join (args.map shellQuote) " ".toList ++
              "\n".toList ++ scriptBody)
          baseDir
          (os.Environ w.env ++ ["PROJECT_ROOT=".toList ++ baseDir, "PWD=".toList ++ baseDir])
          = true)) ∧
    (∀ (run : Runner) (w : World) (scriptName baseDir a1 a2 a3 : Str),
      ((ExecuteScript run w scriptName scriptBody baseDir [a1, a2, a3]).2 = none ↔
        run
          (if os.Getenv w.env "SHELL".toList = [] then "/bin/sh".toList
            else os.Getenv w.env "SHELL".toList)
          ("set -- ".toList ++ shellQuote a1 ++ " ".toList ++ shellQuote a2 ++ " ".toList ++
            shellQuote a3 ++ "\n".toList ++ scriptBody)
          baseDir
          (os.Environ w.env ++ ["PROJECT_ROOT=".toList ++ baseDir, "PWD=".toList ++ baseDir])
          = true)) ∧
    (∀ (run : Runner) (w : World) (scriptName baseDir : Str),
      ((ExecuteScript run w scriptName scriptBody baseDir []).2 = none ↔
        run
          (if os.Getenv w.env "SHELL".toList = [] then "/bin/sh".toList
            else os.Getenv w.env "SHELL".toList)
          scriptBody baseDir
          (os.Environ w.env ++ ["PROJECT_ROOT=".toList ++ baseDir, "PWD=".toList ++ baseDir])
          = true)) ∧
    Posix.words (strings.Join (args.map shellQuote) " ".toList) = some args ∧
    Posix.words ("set -- ".toList ++ strings.Join (args.map shellQuote) " ".toList) =
      some ("set".toList :: "--".toList :: args) ∧
    ((Posix.words (strings.Join (args.map shellQuote) " ".toList)).map List.length =
      some args.length) ∧
    (ExecuteScript
      (fun _ script _ _ => decide (script =
        "set -- 'hello world' 'it'\"'\"'s' '$HOME; rm -rf *' '' 'a\"b\\c'\necho $1".toList))
      exClean "hello".toList "echo $1".toList "/project".toList exArgs).2 = none ∧
    (ExecuteScript (fun _ script _ _ => decide (script = "echo $1".toList))
      exClean "hello".toList "echo $1".toList "/project".toList exArgs).2 ≠ none ∧
    (ExecuteScript (fun _ script _ _ => decide (script = "echo $1".toList))
      exClean "hello".toList "echo $1".toList "/project".toList []).2 = none := by
  have hw : Posix.words (strings.Join (args.map shellQuote) " ".toList) = some args :=
    (scan_quoted_args args []).trans (by simp)
  refine ⟨?_, ?_, ?_, hw, ?_, ?_, by decide, by decide, by decide⟩
  · intro run w scriptName baseDir
    rw [ExecuteScript_ok_iff, fullScript_eq]
  · intro run w scriptName baseDir a1 a2 a3
    have htext : fullScript scriptBody [a1, a2, a3] =
        "set -- ".toList ++ shellQuote a1 ++ " ".toList ++ shellQuote a2 ++ " ".toList ++
          shellQuote a3 ++ "\n".toList ++ scriptBody := by
      simp [fullScript, strings.Join]
    rw [ExecuteScript_ok_iff, htext]
  · intro run w scriptName baseDir
    rw [ExecuteScript_ok_iff]
    rfl
  · have hstep : Posix.words ("set -- ".toList ++ strings.Join (args.map shellQuote) " ".toList) =
        Posix.scan (strings.Join (args.map shellQuote) [' ']) Posix.Mode.plain none
          ["set".toList, "--".toList] := by
      unfold Posix.words
      simp [Posix.scan, Posix.push, Posix.close, Posix.isSpecial]
    rw [hstep, scan_quoted_args]
    rfl
  · rw [hw]
    rfl

/-! ## The session identifier -/

theorem Atoi_nil : strconv.Atoi [] = none := rfl

/-- C26. `getShellPID` is the integer value of `DIRENV_SHELL_PID` when that is a
valid integer, and the parent process id when the variable is unset, empty or
not a valid integer; the session file is the file `state_<id>.json` in the state
directory `<home>/.config/direnv`, for that identifier. -/
theorem getShellPID_session (E : GoMap) (ppid : Int) :
    (∀ n : Int, strconv.Atoi (os.Getenv E "DIRENV_SHELL_PID".toList) = some n →
      getShellPID E ppid = n) ∧
    (strconv.Atoi (os.Getenv E "DIRENV_SHELL_PID".toList) = none → getShellPID E ppid = ppid) ∧
    (E.get? "DIRENV_SHELL_PID".toList = none → getShellPID E ppid = ppid) ∧
    (E.get? "DIRENV_SHELL_PID".toList = some [] → getShellPID E ppid = ppid) ∧
    (∀ stateDir : Str, stateDir ≠ [] → stateDir ≠ ".".toList → stateDir.getLast? ≠ some '/' →
      stateFilePath stateDir (getShellPID E ppid) =
        stateDir ++ "/state_".toList ++ strconv.Itoa (getShellPID E ppid) ++ ".json".toList) ∧
    getShellPID exSession 777 = 12345 ∧
    stateFilePath "/home/dev/.config/direnv".toList (getShellPID exSession 777) =
      "/home/dev/.config/direnv/state_12345.json".toList ∧
    getShellPID [("DIRENV_SHELL_PID".toList, "12a".toList)] 777 = 777 ∧
    stateFilePath "/home/dev/.config/direnv".toList
      (getShellPID [("DIRENV_SHELL_PID".toList, "12a".toList)] 777) =
      "/home/dev/.config/direnv/state_777.json".toList := by
  refine ⟨?_, ?_, ?_, ?_, ?_, by decide, by decide, by decide, by decide⟩
  · intro n hn
    unfold getShellPID
    have hne : os.Getenv E "DIRENV_SHELL_PID".toList ≠ [] := by
      intro h
      rw [h, Atoi_nil] at hn
      cases hn
    simp only [hn, if_pos hne]
  · intro hn
    unfold getShellPID
    simp only [hn]
    split <;> rfl
  · intro hn
    have hg : os.Getenv E "DIRENV_SHELL_PID".toList = [] := by
      unfold os.Getenv os.LookupEnv
      rw [if_neg (by decide), hn]
      rfl
    unfold getShellPID
    simp only [hg]
    rfl
  · intro hn
    have hg : os.Getenv E "DIRENV_SHELL_PID".toList = [] := by
      unfold os.Getenv os.LookupEnv
      rw [if_neg (by decide), hn]
      rfl
    unfold getShellPID
    simp only [hg]
    rfl
  · intro stateDir h1 h2 h3
    unfold stateFilePath filepath.Join
    rw [if_neg (not_or.mpr ⟨h1, h2⟩), if_neg h3]
    simp

/-! ## Applying a configuration to the process environment -/

set_option maxRecDepth 8192 in
/-- C28, evaluated at the failing input: with `A=0` in the environment and the
configuration `A = "1"`, `B = "$A"`, the loop of `ApplyConfig` that visits `A`
first sets `B` to `1`, the value `A` has just received, while the expansion
against the environment before the call is `0`; the loop that visits `B` first
sets `B` to `0`.  `ExportForShell` emits `0` for `B` in both orders.  On the
configuration of `TestApplyConfig` both orders give `CC=gcc-11` and
`PATH=/usr/bin:/project/bin`. -/
theorem ApplyConfig_cross_reference :
    (ApplyConfig [("A".toList, "0".toList)] exCross "/project".toList).2 = none ∧
    (ApplyConfig [("A".toList, "0".toList)] exCross "/project".toList).1.get? "B".toList =
      some "1".toList ∧
    expandEnvVar [("A".toList, "0".toList)] "$A".toList "/project".toList = "0".toList ∧
    (ApplyConfig [("A".toList, "0".toList)] exCrossRev "/project".toList).1.get? "B".toList =
      some "0".toList ∧
    "export B='0'".toList <:+:
      ExportForShell [("A".toList, "0".toList)] exCross "/project".toList "bash".toList ∧
    "export B='0'".toList <:+:
      ExportForShell [("A".toList, "0".toList)] exCrossRev "/project".toList "bash".toList ∧
    (∀ cfg ∈ [exApply, exApplyRev],
      (ApplyConfig [("PATH".toList, "/usr/bin".toList)] cfg "/project".toList).2 = none ∧
      (ApplyConfig [("PATH".toList, "/usr/bin".toList)] cfg "/project".toList).1.get? "CC".toList =
        some "gcc-11".toList ∧
      (ApplyConfig [("PATH".toList, "/usr/bin".toList)] cfg "/project".toList).1.get? "PATH".toList =
        some "/usr/bin:/project/bin".toList) := by
  decide

/-! ## The search for the configuration file -/

theorem findLoop_succ (fs : FileSystem) (fuel : Nat) (dir : Str) :
    findLoop fs (fuel + 1) dir =
      if os.Stat fs (filepath.Join dir ConfigFileName) then some (loadFound fs dir)
      else if filepath.Dir dir = dir then some (none, [], none)
      else findLoop fs fuel (filepath.Dir dir) := rfl

theorem dirPart_length_le (p : Str) : (filepath.dirPart p).length ≤ p.length := by
  unfold filepath.dirPart
  rw [List.length_reverse]
  exact (List.dropWhile_sublist _).length_le.trans (by simp)

/-- One step up either stays where it is, reaches a directory that is its own
parent, or gives a shorter path. -/
theorem Dir_step (p : Str) :
    filepath.Dir p = p ∨ filepath.Dir (filepath.Dir p) = filepath.Dir p ∨
      (filepath.Dir p).length + 1 ≤ p.length := by
  by_cases h1 : filepath.dirPart p = []
  · have hd : filepath.Dir p = ".".toList := by
      unfold filepath.Dir
      simp only [h1, if_true]
    exact Or.inr (Or.inl (by rw [hd]; rfl))
  · by_cases h2 : filepath.dirPart p = "/".toList
    · have hd : filepath.Dir p = "/".toList := by
        unfold filepath.Dir
        simp only [h2]
        rfl
      exact Or.inr (Or.inl (by rw [hd]; rfl))
    · have hd : filepath.Dir p = (filepath.dirPart p).dropLast := by
        unfold filepath.Dir
        simp only [h1, h2, if_false]
      have hpos : 0 < (filepath.dirPart p).length := List.length_pos.mpr h1
      have hle := dirPart_length_le p
      refine Or.inr (Or.inr ?_)
      rw [hd, List.length_dropLast]
      omega

/-- More iterations do not change a result of the loop. -/
theorem findLoop_mono (fs : FileSystem) (fuel : Nat) (dir : Str)
    (r : Option Config × Str × Option Str) (h : findLoop fs fuel dir = some r) (more : Nat)
    (hle : fuel ≤ more) : findLoop fs more dir = some r := by
  induction fuel generalizing dir more with
  | zero => cases h
  | succ fuel ih =>
    obtain ⟨m, rfl⟩ : ∃ m, more = m + 1 := ⟨more - 1, by omega⟩
    rw [findLoop_succ] at h ⊢
    by_cases hs : os.Stat fs (filepath.Join dir ConfigFileName) = true
    · rw [if_pos hs] at h ⊢
      exact h
    · rw [if_neg hs] at h ⊢
      by_cases hp : filepath.Dir dir = dir
      · rw [if_pos hp] at h ⊢
        exact h
      · rw [if_neg hp] at h ⊢
        exact ih _ h m (by omega)

/-- The loop returns within a number of iterations given by the length of the path. -/
theorem findLoop_returns (fs : FileSystem) (fuel : Nat) (dir : Str)
    (hfuel : dir.length + 2 ≤ fuel) : ∃ r, findLoop fs fuel dir = some r := by
  induction fuel generalizing dir with
  | zero => omega
  | succ fuel ih =>
    rw [findLoop_succ]
    by_cases hs : os.Stat fs (filepath.Join dir ConfigFileName) = true
    · exact ⟨_, by rw [if_pos hs]⟩
    · rw [if_neg hs]
      by_cases hp : filepath.Dir dir = dir
      · exact ⟨_, by rw [if_pos hp]⟩
      · rw [if_neg hp]
        rcases Dir_step dir with h | h | h
        · exact absurd h hp
        · obtain ⟨m, rfl⟩ : ∃ m, fuel = m + 1 := ⟨fuel - 1, by omega⟩
          rw [findLoop_succ]
          by_cases hs' : os.Stat fs (filepath.Join (filepath.Dir dir) ConfigFileName) = true
          · exact ⟨_, by rw [if_pos hs']⟩
          · exact ⟨_, by rw [if_neg hs', if_pos h]⟩
        · exact ih _ (by omega)

/-- The loop that meets the file first in the `n`-th directory above the start
returns what it loads there. -/
theorem findLoop_walk (fs : FileSystem) (n : Nat) (dir : Str)
    (hmiss : ∀ i < n, os.Stat fs (filepath.Join (filepath.Dir^[i] dir) ConfigFileName) = false)
    (hhit : os.Stat fs (filepath.Join (filepath.Dir^[n] dir) ConfigFileName) = true) :
    findLoop fs (n + 1) dir = some (loadFound fs (filepath.Dir^[n] dir)) := by
  induction n generalizing dir with
  | zero =>
    have hhit' : os.Stat fs (filepath.Join dir ConfigFileName) = true := hhit
    rw [findLoop_succ, if_pos hhit']
    rfl
  | succ n ih =>
    have h0 : os.Stat fs (filepath.Join dir ConfigFileName) = false := hmiss 0 (by omega)
    have hp : filepath.Dir dir ≠ dir := by
      intro hfix
      rw [Function.iterate_fixed hfix] at hhit
      rw [h0] at hhit
      cases hhit
    rw [findLoop_succ, h0, if_neg (by simp), if_neg hp, Function.iterate_succ_apply]
    apply ih
    · intro i hi
      have := hmiss (i + 1) (by omega)
      rwa [Function.iterate_succ_apply] at this
    · rwa [Function.iterate_succ_apply] at hhit

/-- Where no directory on the way up has the file, the loop can only return the
empty result. -/
theorem findLoop_none (fs : FileSystem) (fuel : Nat) (dir : Str)
    (hmiss : ∀ i, os.Stat fs (filepath.Join (filepath.Dir^[i] dir) ConfigFileName) = false)
    (r : Option Config × Str × Option Str) (h : findLoop fs fuel dir = some r) :
    r = (none, [], none) := by
  induction fuel generalizing dir with
  | zero => cases h
  | succ fuel ih =>
    have h0 : os.Stat fs (filepath.Join dir ConfigFileName) = false := hmiss 0
    rw [findLoop_succ, h0, if_neg (by simp)] at h
    by_cases hp : filepath.Dir dir = dir
    · rw [if_pos hp] at h
      exact (Option.some.inj h).symm
    · rw [if_neg hp] at h
      refine ih _ (fun i => ?_) h
      have := hmiss (i + 1)
      rwa [Function.iterate_succ_apply] at this

theorem FindConfig_eq_of_walk (fs : FileSystem) (n : Nat) (startDir : Str)
    (hmiss : ∀ i < n, os.Stat fs (filepath.Join (filepath.Dir^[i] startDir) ConfigFileName) = false)
    (hhit : os.Stat fs (filepath.Join (filepath.Dir^[n] startDir) ConfigFileName) = true) :
    FindConfig fs startDir = some (loadFound fs (filepath.Dir^[n] startDir)) := by
  obtain ⟨r, hr⟩ := findLoop_returns fs (startDir.length + 2) startDir (le_refl _)
  have hw := findLoop_walk fs n startDir hmiss hhit
  have e1 := findLoop_mono fs _ _ _ hr (startDir.length + 2 + (n + 1)) (by omega)
  have e2 := findLoop_mono fs _ _ _ hw (startDir.length + 2 + (n + 1)) (by omega)
  unfold FindConfig
  rw [hr, ← e2, e1]

/-- What is loaded in a directory depends only on its two files. -/
theorem loadFound_congr (fs fs' : FileSystem) (d : Str)
    (h1 : fs'.lookup (filepath.Join d ConfigFileName) = fs.lookup (filepath.Join d ConfigFileName))
    (h2 : fs'.lookup (filepath.Join d LocalConfigFileName) =
      fs.lookup (filepath.Join d LocalConfigFileName)) :
    loadFound fs' d = loadFound fs d := by
  unfold loadFound LoadConfig os.Stat
  simp only [h1, h2]

/-- C21. Over a file system `fs`: the search returns for every start directory, and
more iterations do not change what it returns.  When `d`, the `n`-th directory
above the start, is the nearest one with `.direnv.toml`, the result is the
configuration of that file with the path `d/.direnv.toml`, merged with the
configuration of `d/.direnv.local.toml` (as the override) when that file exists
and unmerged when it does not; a file system that agrees with `fs` on
`.direnv.toml` from the start up to `d` and on the local file of `d` gives the
same result, whatever it holds farther up.  When no directory up to the root has
`.direnv.toml`, the result is `(nil, "", nil)`. -/
theorem FindConfig_nearest (fs : FileSystem) (startDir : Str) :
    (∃ r, FindConfig fs startDir = some r ∧
      ∀ fuel, startDir.length + 2 ≤ fuel → findLoop fs fuel startDir = some r) ∧
    (∀ n : Nat,
      (∀ i < n, os.Stat fs (filepath.Join (filepath.Dir^[i] startDir) ConfigFileName) = false) →
      os.Stat fs (filepath.Join (filepath.Dir^[n] startDir) ConfigFileName) = true →
      (∀ cfg : Config,
        LoadConfig fs (filepath.Join (filepath.Dir^[n] startDir) ConfigFileName) = .ok cfg →
        (os.Stat fs (filepath.Join (filepath.Dir^[n] startDir) LocalConfigFileName) = false →
          FindConfig fs startDir =
            some (some cfg, filepath.Join (filepath.Dir^[n] startDir) ConfigFileName, none)) ∧
        (∀ localCfg : Config,
          LoadConfig fs (filepath.Join (filepath.Dir^[n] startDir) LocalConfigFileName) =
            .ok localCfg →
          FindConfig fs startDir =
            some (some (MergeConfigs cfg localCfg),
              filepath.Join (filepath.Dir^[n] startDir) ConfigFileName, none))) ∧
      (∀ fs' : FileSystem,
        (∀ i ≤ n, fs'.lookup (filepath.Join (filepath.Dir^[i] startDir) ConfigFileName) =
          fs.lookup (filepath.Join (filepath.Dir^[i] startDir) ConfigFileName)) →
        fs'.lookup (filepath.Join (filepath.Dir^[n] startDir) LocalConfigFileName) =
          fs.lookup (filepath.Join (filepath.Dir^[n] startDir) LocalConfigFileName) →
        FindConfig fs' startDir = FindConfig fs startDir)) ∧
    ((∀ i, os.Stat fs (filepath.Join (filepath.Dir^[i] startDir) ConfigFileName) = false) →
      FindConfig fs startDir = some (none, [], none)) ∧
    FindConfig exTree "/work/proj/sub/dir".toList =
      some (some (MergeConfigs exBase exLocal), "/work/proj/.direnv.toml".toList, none) ∧
    FindConfig exTreePlain "/work/proj/sub/dir".toList =
      some (some exBase, "/work/proj/.direnv.toml".toList, none) ∧
    FindConfig exTree "/srv/app".toList = some (none, [], none) := by
  obtain ⟨r, hr⟩ := findLoop_returns fs (startDir.length + 2) startDir (le_refl _)
  refine ⟨⟨r, hr, fun fuel hf => findLoop_mono fs _ _ _ hr fuel hf⟩, ?_, ?_,
    by decide, by decide, by decide⟩
  · intro n hmiss hhit
    have hfound := FindConfig_eq_of_walk fs n startDir hmiss hhit
    constructor
    · intro cfg hcfg
      constructor
      · intro hno
        rw [hfound]
        unfold loadFound
        simp only [hcfg, hno]
        rfl
      · intro localCfg hlocal
        have hex : os.Stat fs (filepath.Join (filepath.Dir^[n] startDir) LocalConfigFileName)
            = true := by
          unfold os.Stat
          unfold LoadConfig at hlocal
          cases hl : fs.lookup (filepath.Join (filepath.Dir^[n] startDir) LocalConfigFileName) with
          | none => rw [hl] at hlocal; cases hlocal
          | some f => rfl
        rw [hfound]
        unfold loadFound
        simp only [hcfg, hex, hlocal]
        rfl
    · intro fs' hagree hlocal
      have hstat : ∀ i ≤ n,
          os.Stat fs' (filepath.Join (filepath.Dir^[i] startDir) ConfigFileName) =
            os.Stat fs (filepath.Join (filepath.Dir^[i] startDir) ConfigFileName) := by
        intro i hi
        unfold os.Stat
        rw [hagree i hi]
      have hmiss' : ∀ i < n,
          os.Stat fs' (filepath.Join (filepath.Dir^[i] startDir) ConfigFileName) = false := by
        intro i hi
        rw [hstat i (by omega)]
        exact hmiss i hi
      have hhit' : os.Stat fs' (filepath.Join (filepath.Dir^[n] startDir) ConfigFileName)
          = true := by
        rw [hstat n (le_refl _)]
        exact hhit
      rw [hfound, FindConfig_eq_of_walk fs' n startDir hmiss' hhit']
      exact congrArg some (loadFound_congr fs fs' _ (hagree n (le_refl _)) hlocal)
  · intro hmiss
    unfold FindConfig
    rw [hr]
    exact congrArg some (findLoop_none fs _ startDir hmiss r hr)

/-! ## A failing on-leave hook -/

namespace GoMap

/-- Assigning to a key the value it has leaves the map as it is. -/
theorem set_get?_self (m : GoMap) (k v : Str) (h : m.get? k = some v) : m.set k v = m := by
  induction m with
  | nil => cases h
  | cons p m ih =>
    obtain ⟨a, b⟩ := p
    by_cases hak : a = k
    · subst hak
      have hb : b = v := by simpa [get?] using h
      simp [set, hb]
    · have h' : get? m k = some v := by simpa [get?, hak] using h
      simp [set, hak, ih h']

end GoMap

/-- Setting a variable to the non-empty value `os.Getenv` reads for it changes nothing. -/
theorem Setenv_Getenv_self (E : GoMap) (k : Str) (h : os.Getenv E k ≠ []) :
    (os.Setenv E k (os.Getenv E k)).getD E = E := by
  have hk : k ≠ [] := by
    intro hk
    apply h
    unfold os.Getenv os.LookupEnv
    rw [if_pos hk]
    rfl
  cases hl : E.get? k with
  | none =>
    exfalso
    apply h
    unfold os.Getenv os.LookupEnv
    rw [if_neg hk, hl]
    rfl
  | some v =>
    have hg : os.Getenv E k = v := by
      unfold os.Getenv os.LookupEnv
      rw [if_neg hk, hl]
      rfl
    rw [hg]
    unfold os.Setenv
    split
    · rfl
    · show E.set k v = E
      exact GoMap.set_get?_self _ _ _ hl

/-- Whatever the interpreter does, `ExecuteScript` leaves the world as it is: on
success it sets `PWD` to the value `PWD` has. -/
theorem ExecuteScript_world (run : Runner) (w : World) (scriptName scriptContent baseDir : Str)
    (args : List Str) : (ExecuteScript run w scriptName scriptContent baseDir args).1 = w := by
  unfold ExecuteScript
  simp only
  split_ifs with h1 h2 h3 h4 h5
  all_goals first
    | rfl
    | (have hE := Setenv_Getenv_self w.env "PWD".toList (by assumption)
       simp only [hE])

theorem ExecuteOnLeaveHook_world (run : Runner) (w : World) : (ExecuteOnLeaveHook run w).1 = w := by
  unfold ExecuteOnLeaveHook
  cases hs : LoadSavedState w with
  | none => rfl
  | some state =>
    simp only
    split
    · have hw := ExecuteScript_world run w "on_leave".toList state.OnLeaveHook state.Directory []
      cases he : ExecuteScript run w "on_leave".toList state.OnLeaveHook state.Directory [] with
      | mk w' err =>
        rw [he] at hw
        cases err <;> exact hw
    · rfl

/-- A hook that is run by a failing interpreter makes `ExecuteOnLeaveHook` return an error. -/
theorem ExecuteOnLeaveHook_fails (run : Runner) (w : World) (S : State)
    (hfile : w.stateFile = some S) (hhook : S.OnLeaveHook ≠ []) (hdir : S.Directory ≠ [])
    (hfail : ∀ shell script dir env, run shell script dir env = false) :
    (ExecuteOnLeaveHook run w).2 =
      some ("on-leave hook failed: script 'on_leave' failed".toList) := by
  unfold ExecuteOnLeaveHook LoadSavedState
  rw [hfile]
  simp only [hhook, hdir, ne_eq, not_false_eq_true, and_self, if_true]
  unfold ExecuteScript
  simp only [hfail]
  rfl

/-- After a restore without error the environment is the saved one, name for name. -/
theorem RestoreState_env_of_ok (w : World) (S : State) (hfile : w.stateFile = some S)
    (hS : S.Environment.WF) (hE : ∀ p ∈ w.env, '=' ∉ p.1)
    (hok : (RestoreState w).2 = none) (k : Str) :
    (RestoreState w).1.env.get? k = S.Environment.get? k := by
  have hcur := GetCurrentState_env w hE
  cases hr : restoreSet S.Environment
      (restoreUnset S.Environment (GetCurrentState w).Environment w.env) with
  | mk E' err =>
    have hrs : RestoreState w =
        match err with
        | some key => ({ w with env := E' }, some key)
        | none => ({ env := E', stateFile := none }, none) := by
      unfold RestoreState LoadSavedState
      rw [hfile]
      simp only [hr]
      cases err <;> rfl
    cases err with
    | some key =>
      rw [hrs] at hok
      cases hok
    | none =>
      rw [hrs]
      show E'.get? k = S.Environment.get? k
      rw [restoreSet_get? S.Environment hS _ E' hr k]
      cases hsk : S.Environment.get? k with
      | some v => rfl
      | none =>
        show GoMap.get? (restoreUnset S.Environment (GetCurrentState w).Environment w.env) k = none
        rw [restoreUnset_get?, hcur]
        by_cases hmem : k ∈ GoMap.keys w.env
        · have : k ∈ GoMap.keys (GoMap.copyInto [] w.env) :=
            (GoMap.keys_copyInto w.env [] k).mpr (Or.inr hmem)
          simp [this, hsk]
        · simp [GoMap.get?_eq_none_of_not_mem_keys w.env k hmem]

/-- The command `restore` in terms of `RestoreState`: the hook only decides the warning. -/
theorem restoreCommand_eq (run : Runner) (w : World) :
    restoreCommand run w =
      match RestoreState w with
      | (w', some err) =>
        { world := w', stdout := [], stderr := hookWarning (ExecuteOnLeaveHook run w).2,
          err := some ("failed to restore state: ".toList ++ err) }
      | (w', none) =>
        { world := w', stdout := "Environment restored\n".toList,
          stderr := hookWarning (ExecuteOnLeaveHook run w).2, err := none } := by
  have hw := ExecuteOnLeaveHook_world run w
  unfold restoreCommand
  cases he : ExecuteOnLeaveHook run w with
  | mk w1 e1 =>
    rw [he] at hw
    have hw1 : w1 = w := hw
    subst hw1
    rfl

/-- The command `apply` once the configuration is found: the hook only decides the warning. -/
theorem applyCommand_eq (run : Runner) (fs : FileSystem) (cwd : Str) (w : World)
    (cfg : Config) (configPath : Str)
    (hfind : FindConfig fs cwd = some (some cfg, configPath, none)) :
    applyCommand run fs (some cwd) w =
      some
        { world := SaveStateWithHook (GetCurrentState w) (filepath.Dir configPath)
            cfg.Hooks.OnLeave w
          stdout := ExportForShell w.env cfg (filepath.Dir configPath) (shell.Detect w.env)
          stderr := hookWarning (ExecuteOnLeaveHook run w).2
          err := none } := by
  have hw := ExecuteOnLeaveHook_world run w
  unfold applyCommand
  simp only [hfind]
  cases he : ExecuteOnLeaveHook run w with
  | mk w1 e1 =>
    rw [he] at hw
    have hw1 : w1 = w := hw
    subst hw1
    rfl

/-- The results of `apply` other than the warning do not depend on the interpreter. -/
theorem applyCommand_runner (run run' : Runner) (fs : FileSystem) (cwd : Option Str) (w : World) :
    (applyCommand run' fs cwd w).map (fun r => (r.world, r.stdout, r.err)) =
      (applyCommand run fs cwd w).map (fun r => (r.world, r.stdout, r.err)) := by
  cases cwd with
  | none => rfl
  | some cwd =>
    cases hf : FindConfig fs cwd with
    | none => simp [applyCommand, hf]
    | some res =>
      obtain ⟨c, p, e⟩ := res
      cases e with
      | some err => simp [applyCommand, hf]
      | none =>
        cases c with
        | none => simp [applyCommand, hf]
        | some cfg => rw [applyCommand_eq run fs cwd w cfg p hf, applyCommand_eq run' fs cwd w cfg p hf]; rfl

/-- A snapshot whose variables `os.Setenv` accepts is restored without error. -/
theorem RestoreState_ok_of_settable (w : World) (S : State) (hfile : w.stateFile = some S)
    (hset : Settable S.Environment) : (RestoreState w).2 = none := by
  have hok := restoreSet_ok S.Environment hset
    (restoreUnset S.Environment (GetCurrentState w).Environment w.env)
  unfold RestoreState LoadSavedState
  rw [hfile]
  cases hr : restoreSet S.Environment
      (restoreUnset S.Environment (GetCurrentState w).Environment w.env) with
  | mk E' err =>
    rw [hr] at hok
    have he : err = none := hok
    subst he
    simp only [hr]

theorem restoreCommand_world (run : Runner) (w : World) :
    (restoreCommand run w).world = (RestoreState w).1 ∧
    (restoreCommand run w).stdout =
      (if (RestoreState w).2 = none then "Environment restored\n".toList else []) ∧
    (restoreCommand run w).err =
      (RestoreState w).2.map (fun err => "failed to restore state: ".toList ++ err) := by
  rw [restoreCommand_eq]
  cases hr : RestoreState w with
  | mk w' err => cases err <;> exact ⟨rfl, rfl, rfl⟩

/-- C25. Let the session file hold a state with a non-empty on-leave hook and
directory, and let the interpreter fail on every script.  Then the hook fails,
and still: `restoreCommand` leaves the world `RestoreState` produces; when the
saved variables are ones `os.Setenv` accepts it returns no error, the session
file is gone and every name has its saved value; `applyCommand`, once the
configuration is found, saves the captured state with the new directory and
hook and prints the text of `ExportForShell`, without error.  With any other
interpreter, one under which the hook succeeds included, both commands leave
the same world, print the same text to standard output and return the same. -/
theorem failing_hook_not_blocking (run : Runner) (w : World) (S : State)
    (hfile : w.stateFile = some S) (hhook : S.OnLeaveHook ≠ []) (hdir : S.Directory ≠ [])
    (hfail : ∀ shell script dir env, run shell script dir env = false) :
    (ExecuteOnLeaveHook run w).2 ≠ none ∧
    (restoreCommand run w).stderr ≠ [] ∧
    (restoreCommand run w).world = (RestoreState w).1 ∧
    (Settable S.Environment → S.Environment.WF → (∀ p ∈ w.env, '=' ∉ p.1) →
      (restoreCommand run w).err = none ∧
      (restoreCommand run w).world.stateFile = none ∧
      ∀ k, (restoreCommand run w).world.env.get? k = S.Environment.get? k) ∧
    (∀ (fs : FileSystem) (cwd : Str) (cfg : Config) (configPath : Str),
      FindConfig fs cwd = some (some cfg, configPath, none) →
      ∃ r, applyCommand run fs (some cwd) w = some r ∧ r.err = none ∧
        r.world.env = w.env ∧
        r.world.stateFile = some
          { GetCurrentState w with
            Directory := filepath.Dir configPath, OnLeaveHook := cfg.Hooks.OnLeave } ∧
        r.stdout = ExportForShell w.env cfg (filepath.Dir configPath) (shell.Detect w.env)) ∧
    (∀ run' : Runner,
      (restoreCommand run' w).world = (restoreCommand run w).world ∧
      (restoreCommand run' w).stdout = (restoreCommand run w).stdout ∧
      (restoreCommand run' w).err = (restoreCommand run w).err ∧
      ∀ (fs : FileSystem) (cwd : Option Str),
        (applyCommand run' fs cwd w).map (fun r => (r.world, r.stdout, r.err)) =
          (applyCommand run fs cwd w).map (fun r => (r.world, r.stdout, r.err))) := by
  have hhookfail := ExecuteOnLeaveHook_fails run w S hfile hhook hdir hfail
  have hrc := restoreCommand_world run w
  refine ⟨?_, ?_, hrc.1, ?_, ?_, ?_⟩
  · rw [hhookfail]
    exact Option.some_ne_none _
  · have hst : (restoreCommand run w).stderr = hookWarning (ExecuteOnLeaveHook run w).2 := by
      rw [restoreCommand_eq]
      cases hr : RestoreState w with
      | mk w' err => cases err <;> rfl
    rw [hst, hhookfail]
    simp [hookWarning]
  · intro hset hwf hE
    have hok := RestoreState_ok_of_settable w S hfile hset
    refine ⟨?_, ?_, ?_⟩
    · rw [hrc.2.2, hok]
      rfl
    · rw [hrc.1]
      exact RestoreState_file_of_ok w hok
    · intro k
      rw [hrc.1]
      exact RestoreState_env_of_ok w S hfile hwf hE hok k
  · intro fs cwd cfg configPath hfind
    exact ⟨_, applyCommand_eq run fs cwd w cfg configPath hfind, rfl, rfl, rfl, rfl⟩
  · intro run'
    have hrc' := restoreCommand_world run' w
    exact ⟨hrc'.1.trans hrc.1.symm, hrc'.2.1.trans hrc.2.1.symm, hrc'.2.2.trans hrc.2.2.symm,
      fun fs cwd => applyCommand_runner run run' fs cwd w⟩

/-- Witness of C25: the world `exHooked`, whose hook is `exit 1`, with the failing
interpreter; the restore brings `PWD` back and unsets `CC`. -/
theorem failing_hook_not_blocking_witness :
    exHooked.stateFile.map (fun st => st.OnLeaveHook) = some "exit 1".toList ∧
      (∀ shell script dir env, exFail shell script dir env = false) ∧
      (restoreCommand exFail exHooked).err = none ∧
      (restoreCommand exFail exHooked).world.env.get? "PWD".toList = some "/project".toList ∧
      (restoreCommand exFail exHooked).world.env.get? "CC".toList = none ∧
      (restoreCommand exSucceed exHooked).world = (restoreCommand exFail exHooked).world :=
  have h := failing_hook_not_blocking exFail exHooked
    { Environment := [("HOME".toList, "/home/dev".toList), ("PWD".toList, "/project".toList),
                      ("SHELL".toList, "/bin/bash".toList)]
      Aliases := []
      Directory := "/project".toList
      OnLeaveHook := "exit 1".toList }
    rfl (by decide) (by decide) (fun _ _ _ _ => rfl)
  have hr := h.2.2.2.1 (by decide) (by decide) (by decide)
  ⟨rfl, fun _ _ _ _ => rfl, hr.1, (hr.2.2 _).trans (by decide), (hr.2.2 _).trans (by decide),
    (h.2.2.2.2.2 exSucceed).1⟩

end Direnv
